import Mathlib

/-!
Port scheduler: allocation, crane scheduling and the deferred event queue.

A shallow embedding of `scheduler.c`.  C `int` values are unbounded `Int`
(timesteps, weights, identifiers; no overflow), array indices and counters are
`Nat`.  Arrays with a separate element count (`cargo`/`numCargo`,
`cranes`/`numCranes`, `docks`/`numDocks`, `allShips`/`numShips`) are lists whose
length is the count, without the fixed capacities of the C arrays.  The linked
list `messageQueue` is a list of nodes, head first.

The `while` loop of `process_ship` need not terminate, so `process_ship` and
every function that calls it take a fuel bound for that loop and return `none`
when it is exceeded.  The state carries, besides the globals, the stream of
messages sent on the main queue and a log of the `dock_ship` calls.
-/

namespace PortScheduler

/-! ## Data model -/

/-- The record `MessageStruct`; the union `data` is one integer. -/
structure MessageStruct where
  mtype : Int := 0
  timestep : Int := 0
  shipId : Int := 0
  direction : Int := 0
  dockId : Int := 0
  cargoId : Int := 0
  isFinished : Int := 0
  data : Int := 0
  deriving DecidableEq, Repr

/-- The record `ShipRequest`; `cargo` holds the first `numCargo` weights. -/
structure ShipRequest where
  shipId : Int
  timestep : Int
  category : Int
  direction : Int
  emergency : Int
  waitingTime : Int
  cargo : List Int
  deriving DecidableEq, Repr

structure Crane where
  capacity : Int
  id : Int
  deriving DecidableEq, Repr

structure Cargo where
  weight : Int
  id : Int
  deriving DecidableEq, Repr

/-- The record `Dock`; `numCranes` is the length of `cranes`. -/
structure Dock where
  dockId : Int
  category : Int
  cranes : List Crane
  dockFreeAt : Int
  lastShipId : Int := 0
  lastDirection : Int := 0
  dockedAt : Int := 0
  lastCargoMove : Int := 0
  pendingUndock : Int := 0
  deriving DecidableEq, Repr

def Dock.numCranes (d : Dock) : Nat := d.cranes.length

/-- The record `Ship`; `numCargo` is the length of `cargo`. -/
structure Ship where
  active : Int
  shipId : Int
  direction : Int
  category : Int
  emergency : Int
  arrival : Int
  waitingTime : Int
  cargo : List Cargo
  docked : Int
  dockId : Int := 0
  dockTime : Int := 0
  cargoMoved : Int := 0
  undockTime : Int := 0
  deriving DecidableEq, Repr

def Ship.numCargo (s : Ship) : Nat := s.cargo.length

/-- A node of the message queue: the due timestep and the message. -/
structure ScheduledMessage where
  timestep : Int
  message : MessageStruct
  deriving DecidableEq, Repr

/-- The global variables of the scheduler.  `sent` is the stream of messages
handed to `msgsnd` on the main queue (oldest first), `authStrings` the writes to
the shared table (dock id, string), and `assigned` a ghost log of the
`(dock index, ship index)` arguments of every `dock_ship` call, oldest first. -/
structure State where
  docks : List Dock
  allShips : List Ship
  messageQueue : List ScheduledMessage
  currentTimestep : Int
  numSolvers : Int := 0
  sent : List MessageStruct := []
  authStrings : List (Int × List Char) := []
  assigned : List (Nat × Nat) := []
  deriving DecidableEq, Repr

def State.numDocks (st : State) : Nat := st.docks.length
def State.numShips (st : State) : Nat := st.allShips.length

/-! ## Deferred event queue -/

/-- The `while` loop of `insert_message_sorted`: `curr` is kept, and the walk
continues while the next node is due no later than the new one. -/
def insert_after (node : ScheduledMessage) : List ScheduledMessage → List ScheduledMessage
  | [] => [node]
  | nxt :: rest =>
    if nxt.timestep ≤ node.timestep then nxt :: insert_after node rest
    else node :: nxt :: rest

def insert_message_sorted (node : ScheduledMessage) :
    List ScheduledMessage → List ScheduledMessage
  | [] => [node]
  | hd :: rest =>
    if node.timestep < hd.timestep then node :: hd :: rest
    else hd :: insert_after node rest

def enqueue_message (msg : MessageStruct) (timestep : Int)
    (q : List ScheduledMessage) : List ScheduledMessage :=
  insert_message_sorted ⟨timestep, msg⟩ q

/-- The loop of `flush_messages`: the head is sent and removed while it is due
exactly at the current timestep.  Returns the sent messages and the rest. -/
def flush_loop (t : Int) : List ScheduledMessage → List MessageStruct × List ScheduledMessage
  | [] => ([], [])
  | hd :: rest =>
    if hd.timestep = t then
      let r := flush_loop t rest
      (hd.message :: r.1, r.2)
    else ([], hd :: rest)

def flush_messages (st : State) : State :=
  let r := flush_loop st.currentTimestep st.messageQueue
  { st with sent := st.sent ++ r.1, messageQueue := r.2 }

/-! ## Cargo transfer scheduler -/

/-- The variables that the loops of `process_ship` update.  The local array
`cargos` is the list of cargo ids whose slot holds `-1`. -/
structure Progress where
  moved : Nat
  cargos : List Int
  currentCrane : Nat
  queue : List ScheduledMessage
  deriving DecidableEq, Repr

/-- The crane that `dock->cranes[currentCrane]` reads. -/
def current_crane (dock : Dock) (p : Progress) : Crane :=
  dock.cranes.getD p.currentCrane ⟨0, 0⟩

/-- The branch of `process_ship` that moves item `c` with the current crane:
the item is counted, its transfer message is enqueued for `moved_at` unless
`simulate` is set, its slot is marked and the next crane becomes current. -/
def move_item (s : Ship) (dock : Dock) (simulate : Int) (moved_at : Int) (c : Cargo)
    (p : Progress) : Progress :=
  let m : MessageStruct :=
    { mtype := 4, dockId := dock.dockId, shipId := s.shipId,
      direction := s.direction, cargoId := c.id, data := (current_crane dock p).id }
  { moved := p.moved + 1
    cargos := c.id :: p.cargos
    currentCrane := p.currentCrane + 1
    queue := if simulate = 0 then enqueue_message m moved_at p.queue else p.queue }

/-- The inner `for` loop of `process_ship` over the cargo items still to visit. -/
def process_round (s : Ship) (dock : Dock) (simulate : Int) (moved_at : Int) :
    List Cargo → Progress → Progress
  | [], p => p
  | c :: rest, p =>
    if p.currentCrane < dock.numCranes then
      if c.id ∈ p.cargos then process_round s dock simulate moved_at rest p
      else if (current_crane dock p).capacity ≥ c.weight then
        process_round s dock simulate moved_at rest (move_item s dock simulate moved_at c p)
      else process_round s dock simulate moved_at rest p
    else p

/-- The outer `while` loop of `process_ship`; `none` when the fuel runs out. -/
def process_while (s : Ship) (dock : Dock) (simulate : Int) (t : Int) :
    Nat → Int → Progress → Option (Int × List ScheduledMessage)
  | 0, _, _ => none
  | fuel + 1, moved_at, p =>
    if p.moved < s.numCargo then
      let p1 := process_round s dock simulate moved_at s.cargo p
      process_while s dock simulate t fuel (moved_at + 1) { p1 with currentCrane := 0 }
    else some (moved_at - t - 1, p.queue)

/-- The function `process_ship` at current timestep `t` with message queue `q`:
the returned count and the queue afterwards. -/
def process_ship (fuel : Nat) (s : Ship) (dock : Dock) (simulate : Int) (t : Int)
    (q : List ScheduledMessage) : Option (Int × List ScheduledMessage) :=
  process_while s dock simulate t fuel (t + 1) ⟨0, [], 0, q⟩

/-! ## Ship creation -/

/-- The comparison `compare_desc_cargo` puts the heavier item first; `qsort` is
taken to be the insertion sort, which keeps the order of equal weights. -/
def sort_cargo (cargo : List Cargo) : List Cargo :=
  cargo.insertionSort (fun a b => a.weight ≥ b.weight)

def initialize_ship (s : Ship) : Ship :=
  { s with cargo := sort_cargo s.cargo }

/-- The items copied by the loop of `add_ship`: item `i` gets id `i`. -/
def number_cargo : Nat → List Int → List Cargo
  | _, [] => []
  | i, w :: ws => { id := (i : Int), weight := w } :: number_cargo (i + 1) ws

/-- The ship that `add_ship` stores at `allShips[numShips]`. -/
def new_ship (req : ShipRequest) : Ship :=
  initialize_ship
    { active := 1
      shipId := req.shipId
      direction := req.direction
      category := req.category
      emergency := req.emergency
      arrival := req.timestep
      waitingTime := req.waitingTime
      cargo := number_cargo 0 req.cargo
      docked := 0 }

def add_ship (req : ShipRequest) (st : State) : State :=
  { st with allShips := st.allShips ++ [new_ship req] }

/-! ## Allocation engine -/

/-- The function `dock_ship` on dock index `dcs` and ship index `i`. -/
def dock_ship (fuel : Nat) (dcs i : Nat) (st : State) : Option State :=
  match st.allShips[i]?, st.docks[dcs]? with
  | some s, some d =>
    match process_ship fuel s d 0 st.currentTimestep st.messageQueue with
    | none => none
    | some (time, q1) =>
      let d1 := { d with dockFreeAt := st.currentTimestep + time + 2 }
      let s1 := { s with docked := 1 }
      let dockMsg : MessageStruct :=
        { mtype := 2, dockId := d1.dockId, shipId := s1.shipId, direction := s1.direction }
      let q2 := enqueue_message dockMsg st.currentTimestep q1
      let d2 := { d1 with pendingUndock := st.currentTimestep + time + 1 }
      let s2 := { s1 with dockId := d2.dockId
                          dockTime := st.currentTimestep
                          undockTime := st.currentTimestep + time + 1 }
      some { st with docks := st.docks.set dcs d2
                     allShips := st.allShips.set i s2
                     messageQueue := q2
                     assigned := st.assigned ++ [(dcs, i)] }
  | _, _ => none

/-- The guard of the dock scan: the dock is free now and large enough. -/
def dock_fits (t : Int) (d : Dock) (s : Ship) : Bool :=
  decide (d.dockFreeAt ≤ t) && decide (d.category ≥ s.category)

/-- The inner `for` loop of `assign_ships_greedy` for ship index `i`, with
`dcs` counting down from `n - 1` to `0`; the first fitting dock is taken. -/
def scan_docks (fuel : Nat) (i : Nat) (s : Ship) : Nat → State → Option State
  | 0, st => some st
  | dcs + 1, st =>
    match st.docks[dcs]? with
    | some d =>
      if dock_fits st.currentTimestep d s then dock_ship fuel dcs i st
      else scan_docks fuel i s dcs st
    | none => none

/-- The test that makes either loop of `assign_ships_greedy` skip a ship; the
first loop (`emergencyOnly`) also skips the ships that are not emergencies. -/
def skip_ship ( emergencyOnly : Bool) (s : Ship) : Bool :=
  decide (s.active = 0) || decide (s.docked ≠ 0) ||
    (emergencyOnly && decide (s.emergency = 0))

/-- The body of either outer loop of `assign_ships_greedy` for ship index `i`. -/
def consider_ship (fuel : Nat) ( emergencyOnly : Bool) (i : Nat) (st : State) : Option State :=
  match st.allShips[i]? with
  | some s =>
    if skip_ship emergencyOnly s then some st
    else scan_docks fuel i s st.numDocks st
  | none => none

/-- One outer loop of `assign_ships_greedy` over the ship indices still to visit. -/
def assign_pass (fuel : Nat) ( emergencyOnly : Bool) : List Nat → State → Option State
  | [], st => some st
  | i :: rest, st =>
    match consider_ship fuel emergencyOnly i st with
    | some st1 => assign_pass fuel emergencyOnly rest st1
    | none => none

def assign_ships_greedy (fuel : Nat) (st : State) : Option State :=
  match assign_pass fuel true (List.range st.numShips) st with
  | some st1 => assign_pass fuel false (List.range st1.numShips) st1
  | none => none

/-! ## Timestep controller -/

/-- The expiry test of `scheduler_step` and its effect on one ship. -/
def expire_ship (t : Int) (s : Ship) : Ship :=
  if s.active ≠ 0 ∧ s.docked = 0 ∧ s.emergency = 0 ∧ s.direction = 1 ∧
      t > s.arrival + s.waitingTime then { s with active := 0 }
  else s

def expire_ships (st : State) : State :=
  { st with allShips := st.allShips.map (expire_ship st.currentTimestep) }

def add_ships (reqs : List ShipRequest) (st : State) : State :=
  reqs.foldl (fun acc req => add_ship req acc) st

/-- The function `scheduler_step`; `table` is `sharedMem->newShipRequests`. -/
def scheduler_step (fuel : Nat) (numNewRequests : Int) (table : List ShipRequest)
    (st : State) : Option State :=
  assign_ships_greedy fuel (expire_ships (add_ships (table.take numNewRequests.toNat) st))

/-- The body of the loop of `update_dock_status` for one ship.  The parameter
`start_guessing` stands for the credential search (length, workers, dock id). -/
def undock_ship (start_guessing : Int → Int → Int → List Char) (s : Ship) (st : State) : State :=
  if s.docked ≠ 0 ∧ s.undockTime = st.currentTimestep then
    let pass := start_guessing (s.undockTime - s.dockTime - 1) st.numSolvers s.dockId
    let msg : MessageStruct :=
      { mtype := 3, dockId := s.dockId, direction := s.direction, shipId := s.shipId }
    { st with authStrings := (s.dockId, pass) :: st.authStrings, sent := st.sent ++ [msg] }
  else st

def update_dock_status (start_guessing : Int → Int → Int → List Char) (st : State) : State :=
  st.allShips.foldl (fun acc s => undock_ship start_guessing s acc) st

/-- One iteration of the loop of `main` for a received advance message. -/
def controller_step (fuel : Nat) (start_guessing : Int → Int → Int → List Char)
    (recvMsg : MessageStruct) (table : List ShipRequest) (st : State) : Option State :=
  let st1 := update_dock_status start_guessing { st with currentTimestep := recvMsg.timestep }
  match scheduler_step fuel recvMsg.data table st1 with
  | some st2 =>
    let st3 := flush_messages st2
    some { st3 with sent := st3.sent ++ [{ mtype := 5 }] }
  | none => none

/-- The loop of `main` over the received messages with the table contents seen
at each of them; it stops at the first message with `isFinished = 1`. -/
def run (fuel : Nat) (start_guessing : Int → Int → Int → List Char) :
    List (MessageStruct × List ShipRequest) → State → Option State
  | [], st => some st
  | (recvMsg, table) :: rest, st =>
    if recvMsg.isFinished = 1 then some st
    else
      match controller_step fuel start_guessing recvMsg table st with
      | some st1 => run fuel start_guessing rest st1
      | none => none

/-! ## Notions used in the statements -/

/-- The number of items of `l` whose slot in `cargos` is not yet marked. -/
def unmarked (l : List Cargo) (cargos : List Int) : Nat :=
  (l.filter (fun c => decide (c.id ∉ cargos))).length

/-- Every crane of the dock can lift every item of the list. -/
def all_fit (dock : Dock) (l : List Cargo) : Prop :=
  ∀ cr ∈ dock.cranes, ∀ c ∈ l, c.weight ≤ cr.capacity

instance (dock : Dock) (l : List Cargo) : Decidable (all_fit dock l) := by
  unfold all_fit
  infer_instance

/-! ## The scenario of one dock and one ship -/

/-- One dock of category 2 with cranes of capacity 10 and 5. -/
def scenario_dock : Dock :=
  { dockId := 0, category := 2, cranes := [⟨10, 0⟩, ⟨5, 1⟩], dockFreeAt := 1 }

/-- A ship of category 1 arriving at timestep 1 with cargo 8, 4 and 3. -/
def scenario_ship : Ship :=
  new_ship
    { shipId := 7, timestep := 1, category := 1, direction := 1, emergency := 0,
      waitingTime := 3, cargo := [8, 4, 3] }

def scenario_state : State :=
  { docks := [scenario_dock], allShips := [scenario_ship], messageQueue := [],
    currentTimestep := 1 }

/-- A dock whose two cranes lift every item of the scenario ship. -/
def strong_dock : Dock :=
  { dockId := 1, category := 2, cranes := [⟨10, 0⟩, ⟨9, 1⟩], dockFreeAt := 1 }

/-! ## Sequences of queue operations -/

/-- The queue after the calls `enqueue_message msg timestep` for the listed
`(msg, timestep)` pairs, in list order, starting from the queue `q`. -/
def enqueue_all (events : List (MessageStruct × Int)) (q : List ScheduledMessage) :
    List ScheduledMessage :=
  events.foldl (fun acc e => enqueue_message e.1 e.2 acc) q

/-- The node that `enqueue_message` allocates for an event. -/
def node_of (e : MessageStruct × Int) : ScheduledMessage := ⟨e.2, e.1⟩

/-- The nodes of a queue that are due at timestep `t`, in queue order. -/
def due_at (t : Int) (q : List ScheduledMessage) : List ScheduledMessage :=
  q.filter (fun n => decide (n.timestep = t))

/-- The nodes of a queue that are not due at timestep `t`, in queue order. -/
def not_due_at (t : Int) (q : List ScheduledMessage) : List ScheduledMessage :=
  q.filter (fun n => decide (n.timestep ≠ t))

/-- Due timesteps never decrease along the queue. -/
def queue_sorted (q : List ScheduledMessage) : Prop :=
  q.Pairwise (fun a b => a.timestep ≤ b.timestep)

/-- A state at timestep 2 whose queue was built by two `enqueue_message` calls
and still holds, at its head, an event that was due at timestep 1. -/
def stale_state : State :=
  { docks := [], allShips := [],
    messageQueue := enqueue_all [({ mtype := 4, cargoId := 0 }, 1), ({ mtype := 4, cargoId := 1 }, 2)] [],
    currentTimestep := 2 }

/-- A state at timestep 2 whose queue holds events due at timesteps 2, 3, 2. -/
def fresh_state : State :=
  { docks := [], allShips := [],
    messageQueue := enqueue_all
      [({ mtype := 4, cargoId := 0 }, 2), ({ mtype := 4, cargoId := 1 }, 3),
       ({ mtype := 2 }, 2)] [],
    currentTimestep := 2 }

/-- The dock-assignment message that `dock_ship` builds for ship `s` at dock `d`. -/
def dock_message (d : Dock) (s : Ship) : MessageStruct :=
  { mtype := 2, dockId := d.dockId, shipId := s.shipId, direction := s.direction }

/-- The number of queued dock-assignment events (message kind 2). -/
def count_dock_events (q : List ScheduledMessage) : Nat :=
  q.countP (fun n => decide (n.message.mtype = 2))

/-! ## Notions used in the statements on allocation -/

/-- Dock index `dcs` holds a dock that is free at the current timestep and of
sufficient category for ship `s`. -/
def fits_at (st : State) (s : Ship) (dcs : Nat) : Prop :=
  ∃ d, st.docks[dcs]? = some d ∧ d.dockFreeAt ≤ st.currentTimestep ∧ d.category ≥ s.category

/-- Dock index `dcs` is the highest index of a dock that fits ship `s`. -/
def highest_fit (st : State) (s : Ship) (dcs : Nat) : Prop :=
  fits_at st s dcs ∧ ∀ j, dcs < j → ¬ fits_at st s j

/-- The ship takes part in the allocation: it is active and not docked. -/
def waiting (s : Ship) : Prop := s.active ≠ 0 ∧ s.docked = 0

instance (s : Ship) : Decidable (waiting s) := by
  unfold waiting
  infer_instance

/-- The dock record after `dock_ship` at timestep `t` with processing time `p`. -/
def dock_after (d : Dock) (t p : Int) : Dock :=
  { d with dockFreeAt := t + p + 2, pendingUndock := t + p + 1 }

/-- The ship record after `dock_ship` at dock `d`, timestep `t`, processing time `p`. -/
def ship_after (s : Ship) (d : Dock) (t p : Int) : Ship :=
  { s with docked := 1, dockId := d.dockId, dockTime := t, undockTime := t + p + 1 }

/-- The state built by `dock_ship` from the processing time and the queue
that `process_ship` returned. -/
def docked_state (st : State) (dcs i : Nat) (s : Ship) (d : Dock) (p : Int)
    (q1 : List ScheduledMessage) : State :=
  { st with
    docks := st.docks.set dcs (dock_after d st.currentTimestep p)
    allShips := st.allShips.set i (ship_after s d st.currentTimestep p)
    messageQueue := enqueue_message (dock_message d s) st.currentTimestep q1
    assigned := st.assigned ++ [(dcs, i)] }

/-- What one assignment `(dock index, ship index)` of a call did, in terms of
the state `st0` before the call and the state `st` reached: the ship was
waiting and the dock free and large enough in `st0`, and both now carry the
values that `dock_ship` wrote, for a processing time `p ≥ 0`. -/
def assignment_ok (st0 st : State) (a : Nat × Nat) : Prop :=
  ∃ s d p, st0.allShips[a.2]? = some s ∧ st0.docks[a.1]? = some d ∧ waiting s ∧
    d.dockFreeAt ≤ st0.currentTimestep ∧ d.category ≥ s.category ∧ 0 ≤ p ∧
    st.docks[a.1]? = some (dock_after d st0.currentTimestep p) ∧
    st.allShips[a.2]? = some (ship_after s d st0.currentTimestep p)

/-- The relation between the state `st0` at the start of a call of
`assign_ships_greedy`, a state `st` reached inside it, and the assignments
`log` made in between. -/
structure AssignInv (st0 st : State) (log : List (Nat × Nat)) : Prop where
  time : st.currentTimestep = st0.currentTimestep
  ndocks : st.docks.length = st0.docks.length
  nships : st.allShips.length = st0.allShips.length
  solvers : st.numSolvers = st0.numSolvers
  sent_eq : st.sent = st0.sent
  auth_eq : st.authStrings = st0.authStrings
  log_eq : st.assigned = st0.assigned ++ log
  docks_nodup : (log.map Prod.fst).Nodup
  ships_nodup : (log.map Prod.snd).Nodup
  dock_same : ∀ dcs, dcs ∉ log.map Prod.fst → st.docks[dcs]? = st0.docks[dcs]?
  ship_same : ∀ i, i ∉ log.map Prod.snd → st.allShips[i]? = st0.allShips[i]?
  done : ∀ a ∈ log, assignment_ok st0 st a

/-- The two dock tables have the same docks by index, and no dock of the second
has a smaller `dockFreeAt` than the dock at the same index of the first. -/
def docks_monotone (l l1 : List Dock) : Prop :=
  l.length = l1.length ∧
    ∀ (j : Nat) (d d1 : Dock), l[j]? = some d → l1[j]? = some d1 → d.dockFreeAt ≤ d1.dockFreeAt

/-- The scenario state after the ship was docked at the dock. -/
def scenario_docked : State :=
  docked_state scenario_state 0 0 scenario_ship scenario_dock 2
    [⟨2, { mtype := 4, shipId := 7, direction := 1, cargoId := 0, data := 0 }⟩,
     ⟨2, { mtype := 4, shipId := 7, direction := 1, cargoId := 1, data := 1 }⟩,
     ⟨3, { mtype := 4, shipId := 7, direction := 1, cargoId := 2, data := 0 }⟩]

/-- A credential search that returns the empty string. -/
def no_search : Int → Int → Int → List Char := fun _ _ _ => []

/-- An ordinary inbound ship that arrived at timestep 4 with wait tolerance 5. -/
def waiting_ship : Ship :=
  new_ship { shipId := 10, timestep := 4, category := 1, direction := 1, emergency := 0,
             waitingTime := 5, cargo := [2, 6] }

/-- An emergency ship that arrived at timestep 5. -/
def urgent_ship : Ship :=
  new_ship { shipId := 11, timestep := 5, category := 1, direction := -1, emergency := 1,
             waitingTime := 0, cargo := [3, 9, 4] }

/-- A harbour at timestep 5: a small dock at index 0 and a large dock at index
1, and a roster of a waiting ordinary ship, a waiting emergency ship and a
ship that is no longer active. -/
def harbour_state : State :=
  { docks :=
      [{ dockId := 1, category := 1, cranes := [⟨6, 0⟩], dockFreeAt := 1 },
       { dockId := 0, category := 2, cranes := [⟨9, 0⟩, ⟨4, 1⟩], dockFreeAt := 3 }]
    allShips :=
      [waiting_ship, urgent_ship,
       { new_ship { shipId := 12, timestep := 1, category := 1, direction := 1, emergency := 0,
                    waitingTime := 1, cargo := [1] } with active := 0 }]
    messageQueue := []
    currentTimestep := 5 }

/-! ## Start-up and reachable states -/

def sort_docks (docks : List Dock) : List Dock :=
  docks.insertionSort (fun a b => a.category ≥ b.category)

/-- The loop of `initialize_docks` sorts the cranes of every dock by
descending capacity; then the docks are sorted by descending category. -/
def initialize_docks (docks : List Dock) : List Dock :=
  sort_docks
    (docks.map (fun d =>
      { d with cranes := d.cranes.insertionSort (fun a b => a.capacity ≥ b.capacity) }))

/-- The cranes that `read_input` stores for the capacities read, crane `j`
with id `j`. -/
def number_cranes : Nat → List Int → List Crane
  | _, [] => []
  | j, c :: cs => { id := (j : Int), capacity := c } :: number_cranes (j + 1) cs

/-- The docks that the loop of `read_input` stores, from dock index `i` on,
for the listed pairs of a category and the capacities that follow it in the
file; the file holds `category` capacities for a dock. -/
def read_docks : Nat → List (Int × List Int) → List Dock
  | _, [] => []
  | i, (category, capacities) :: rest =>
    { dockId := (i : Int)
      category := category
      cranes := number_cranes 0 (capacities.take category.toNat)
      dockFreeAt := 1
      pendingUndock := 0 } :: read_docks (i + 1) rest

/-- The globals after `read_input`: the dock table, an empty roster, an empty
queue, and `currentTimestep = 1`. -/
def read_input (numSolvers : Int) (config : List (Int × List Int)) : State :=
  { docks := initialize_docks (read_docks 0 config)
    allShips := []
    messageQueue := []
    currentTimestep := 1
    numSolvers := numSolvers }

/-- An initial state: every dock is free at timestep 1 and has an id of its
own, and the roster and the queue are empty. -/
def Initial (st : State) : Prop :=
  st.allShips = [] ∧ st.messageQueue = [] ∧ (∀ d ∈ st.docks, d.dockFreeAt = 1) ∧
    (st.docks.map Dock.dockId).Nodup

/-- The states reachable from an initial state by controller steps. -/
inductive Reachable : State → Prop
  | init (st : State) : Initial st → Reachable st
  | step (fuel : Nat) (start_guessing : Int → Int → Int → List Char) (recvMsg : MessageStruct)
      (table : List ShipRequest) (st st1 : State) :
      Reachable st → controller_step fuel start_guessing recvMsg table st = some st1 →
      Reachable st1

/-- The bookkeeping of dock occupancy: docks at different indices have
different ids; a docked ship was docked before its undock timestep, which lies
before the `dockFreeAt` of the dock whose id the ship carries; and two docked
ships with the same dock id have disjoint intervals from `dockTime` to
`undockTime`. -/
def occupancy_ok (docks : List Dock) (ships : List Ship) : Prop :=
  (∀ (m n : Nat) (d e : Dock), docks[m]? = some d → docks[n]? = some e →
    d.dockId = e.dockId → m = n) ∧
  (∀ (k : Nat) (s : Ship), ships[k]? = some s → s.docked ≠ 0 →
    s.dockTime < s.undockTime ∧
    ∀ (m : Nat) (d : Dock), docks[m]? = some d → d.dockId = s.dockId →
      s.undockTime < d.dockFreeAt) ∧
  (∀ (i j : Nat) (si sj : Ship), i ≠ j → ships[i]? = some si → ships[j]? = some sj →
    si.docked ≠ 0 → sj.docked ≠ 0 → si.dockId = sj.dockId →
    si.undockTime < sj.dockTime ∨ sj.undockTime < si.dockTime)

/-- A harbour with one dock of one crane. -/
def one_dock_start : State := read_input 2 [(1, [10])]

/-- The advance messages of timesteps 1 to 4; a ship arrives at timestep 1 and
another at timestep 4. -/
def two_arrivals : List (MessageStruct × List ShipRequest) :=
  [({ mtype := 1, timestep := 1, data := 1 },
    [{ shipId := 1, timestep := 1, category := 1, direction := 1, emergency := 0,
       waitingTime := 3, cargo := [4] }]),
   ({ mtype := 1, timestep := 2, data := 0 }, []),
   ({ mtype := 1, timestep := 3, data := 0 }, []),
   ({ mtype := 1, timestep := 4, data := 1 },
    [{ shipId := 2, timestep := 4, category := 1, direction := -1, emergency := 0,
       waitingTime := 3, cargo := [5, 6] }])]

/-- The state after the two arrivals were handled. -/
def two_arrivals_state : State :=
  (run 3 no_search two_arrivals one_dock_start).getD one_dock_start

/-! ## Parts of a controller step -/

/-- The state that `scheduler_step` hands to `assign_ships_greedy` in the
controller step for `recvMsg`: the timestep is set, `update_dock_status` has
run, the new ships are added and the expiry loop is done. -/
def allocation_input (start_guessing : Int → Int → Int → List Char) (recvMsg : MessageStruct)
    (table : List ShipRequest) (st : State) : State :=
  expire_ships (add_ships (table.take recvMsg.data.toNat)
    (update_dock_status start_guessing { st with currentTimestep := recvMsg.timestep }))

/-- What the loop of `main` does after `scheduler_step` returned: the flush
and the acknowledgment of the timestep. -/
def finish_step (st : State) : State :=
  { flush_messages st with sent := (flush_messages st).sent ++ [{ mtype := 5 }] }

/-- The roster after the first `numNewRequests` records of the table were added. -/
def roster_with (st : State) (numNewRequests : Int) (table : List ShipRequest) : List Ship :=
  st.allShips ++ (table.take numNewRequests.toNat).map new_ship

/-- A dock of category 1 with one crane, free from timestep 1. -/
def quay_dock : Dock :=
  { dockId := 0, category := 1, cranes := [⟨10, 0⟩], dockFreeAt := 1 }

/-- A quay at timestep 5 with one free dock of one crane and an empty roster. -/
def quay_state : State :=
  { docks := [quay_dock]
    allShips := []
    messageQueue := []
    currentTimestep := 5 }

/-- Two ships of category 1 arriving at timestep 5: an ordinary inbound ship
with wait tolerance `w`, then an emergency ship. -/
def rush_table (w : Int) : List ShipRequest :=
  [{ shipId := 21, timestep := 5, category := 1, direction := 1, emergency := 0,
     waitingTime := w, cargo := [3] },
   { shipId := 22, timestep := 5, category := 1, direction := 1, emergency := 1,
     waitingTime := 0, cargo := [7, 2] }]

/-- The state after `scheduler_step` at timestep 5 for the two arriving ships. -/
def rush_result (w : Int) : State :=
  (scheduler_step 3 2 (rush_table w) quay_state).getD quay_state

/-- The ordinary ship of `rush_table w` as `add_ship` stores it. -/
def rush_ordinary (w : Int) : Ship :=
  new_ship { shipId := 21, timestep := 5, category := 1, direction := 1, emergency := 0,
             waitingTime := w, cargo := [3] }

/-- The emergency ship of `rush_table w` as `add_ship` stores it. -/
def rush_emergency : Ship :=
  new_ship { shipId := 22, timestep := 5, category := 1, direction := 1, emergency := 1,
             waitingTime := 0, cargo := [7, 2] }

/-! ## Notions used in the statements on cargo transfer -/

/-- Some crane of the dock can lift the item. -/
def liftable (dock : Dock) (c : Cargo) : Bool :=
  dock.cranes.any (fun cr => decide (cr.capacity ≥ c.weight))

/-- A ship with an item of weight 20 and an item of weight 4. -/
def heavy_ship : Ship :=
  new_ship { shipId := 30, timestep := 1, category := 1, direction := 1, emergency := 0,
             waitingTime := 3, cargo := [20, 4] }

/-- The moves of one round of `process_ship`, in order: each moved item with
the index of the crane that moves it.  The arguments are the items still to
visit, the marked slots and the current crane. -/
def round_moves (dock : Dock) : List Cargo → List Int → Nat → List (Cargo × Nat)
  | [], _, _ => []
  | c :: rest, cargos, currentCrane =>
    if currentCrane < dock.numCranes then
      if c.id ∈ cargos then round_moves dock rest cargos currentCrane
      else if (dock.cranes.getD currentCrane ⟨0, 0⟩).capacity ≥ c.weight then
        (c, currentCrane) :: round_moves dock rest (c.id :: cargos) (currentCrane + 1)
      else round_moves dock rest cargos currentCrane
    else []

/-- The cargo-transfer message that `process_ship` builds for a move. -/
def transfer_message (s : Ship) (dock : Dock) (m : Cargo × Nat) : MessageStruct :=
  { mtype := 4, dockId := dock.dockId, shipId := s.shipId, direction := s.direction,
    cargoId := m.1.id, data := (dock.cranes.getD m.2 ⟨0, 0⟩).id }

/-- The `enqueue_message` calls of one round with due timestep `moved_at`. -/
def round_events (s : Ship) (dock : Dock) (moved_at : Int) (moves : List (Cargo × Nat)) :
    List (MessageStruct × Int) :=
  moves.map (fun m => (transfer_message s dock m, moved_at))

/-- The `enqueue_message` calls of successive rounds, the first due at `moved_at`. -/
def event_rounds (s : Ship) (dock : Dock) :
    Int → List (List (Cargo × Nat)) → List (List (MessageStruct × Int))
  | _, [] => []
  | moved_at, r :: rest =>
    round_events s dock moved_at r :: event_rounds s dock (moved_at + 1) rest

/-! ## Notions used in the statements on the order of a controller step -/

/-- The unlock message that `update_dock_status` sends for a ship. -/
def unlock_message (s : Ship) : MessageStruct :=
  { mtype := 3, dockId := s.dockId, direction := s.direction, shipId := s.shipId }

/-- The unlock messages that `update_dock_status` sends in state `st`: one for
every docked ship whose undock timestep is the current timestep, in roster
order. -/
def unlock_notices (st : State) : List MessageStruct :=
  (st.allShips.filter
    (fun s => decide (s.docked ≠ 0 ∧ s.undockTime = st.currentTimestep))).map unlock_message

/-- A harbour with two docks of one crane each. -/
def two_dock_start : State := read_input 2 [(1, [10]), (1, [10])]

/-- The advance messages of timesteps 1 and 2; a ship arrives at timestep 1. -/
def first_arrival : List (MessageStruct × List ShipRequest) :=
  [({ mtype := 1, timestep := 1, data := 1 },
    [{ shipId := 1, timestep := 1, category := 1, direction := 1, emergency := 0,
       waitingTime := 3, cargo := [4] }]),
   ({ mtype := 1, timestep := 2, data := 0 }, [])]

/-- The state after timestep 2: the first ship is docked and undocks at timestep 3. -/
def before_unlock : State :=
  (run 3 no_search first_arrival two_dock_start).getD two_dock_start

/-- The state after the controller step of timestep 3, at which a second ship
arrives. -/
def after_unlock : State :=
  (controller_step 3 no_search { mtype := 1, timestep := 3, data := 1 }
    [{ shipId := 2, timestep := 3, category := 1, direction := -1, emergency := 0,
       waitingTime := 3, cargo := [5] }] before_unlock).getD before_unlock

/-! ## Credential recovery

The coordinating threads are run one after the other, thread 0 first, each
scanning its partition; the exchange with a worker (a guess sent, a verdict
received) is a call of the function `workers i dockId`.  A read of `map`
outside the array is undefined behaviour and gives no result. -/

/-- The array `map` without its terminator. -/
def map : List Char := ['.', '5', '6', '7', '8', '9']

/-- The loop of `binPow`; the `double` result and the `long long` base are
taken as exact integers, which they are while the result is below `2 ^ 53`
(for base 6: up to exponent 20).  The loop halves `n`, so `fuel = n`
iterations suffice. -/
def binPow_loop : Nat → Int → Int → Int → Int
  | 0, _, _, result => result
  | fuel + 1, x, n, result =>
    if n > 0 then
      binPow_loop fuel (x * x) (Int.tdiv n 2) (if Int.tmod n 2 = 1 then result * x else result)
    else result

def binPow (x : Int) (n : Int) : Int := binPow_loop n.toNat x n 1

/-- The pair `(*start, *end)` that `calculate_range` stores.  The C code forms
the sums in `double` and stores them in `long long`; this is exact as long as
every value is below `2 ^ 53`, which holds up to length 20 (`6 ^ 20 < 2 ^ 53`).
The definition gives the exact sums and stands for the C function on lengths
up to 20 only. -/
def calculate_range (length : Int) : Int × Int :=
  if length = 1 then (1, 5)
  else if length = 2 then (7, 35)
  else
    (1 * binPow 6 (length - 1) + 1,
     (List.range length.toNat).foldl
       (fun (acc : Int) (i : Nat) => acc + 5 * binPow 6 (i : Int)) 0)

/-- The value that an `int` parameter receives from a `long long` argument:
the argument modulo 2^32, in the range from -2^31 to 2^31 - 1. -/
def to_int (num : Int) : Int := (num + 2147483648) % 4294967296 - 2147483648

/-- The read `map[index]`. -/
def map_at (index : Int) : Option Char :=
  if 0 ≤ index then map[index.toNat]? else none

/-- The loop of `base6_to_guess` with `i + 1` positions still to write;
`written` holds the symbols of the positions behind them. -/
def base6_loop : Nat → Int → List Char → Option (List Char)
  | 0, _, written => some written
  | i + 1, number, written =>
    match map_at (Int.tmod number 6) with
    | some c => base6_loop i (Int.tdiv number 6) (c :: written)
    | none => none

/-- The symbols `guess[0]` to `guess[length - 1]` that `base6_to_guess` writes
for its `int` argument `number`. -/
def base6_to_guess (number : Int) (length : Nat) : Option (List Char) :=
  base6_loop length number []

/-- The test `is_valid_guess`; behind the symbols stands the terminator. -/
def is_valid_guess (guess : List Char) (length : Int) : Bool :=
  decide (guess.getD 0 (Char.ofNat 0) ≠ '.') &&
    decide (guess.getD (length - 1).toNat (Char.ofNat 0) ≠ '.')

/-- The variables shared by the threads: the flag `found` and the buffer
`found_guess`. -/
structure Search where
  found : Int
  correct_guess : List Char
  deriving DecidableEq, Repr

/-- The loop of `guess_generator` from numeral `num` with at most `k` numerals
left up to `data->end`; `solver` is the exchange with the worker. -/
def guess_generator_loop (solver : List Char → Bool) (length : Int) :
    Nat → Int → Search → Option Search
  | 0, _, sh => some sh
  | k + 1, num, sh =>
    if sh.found ≠ 0 then some sh
    else
      match base6_to_guess (to_int num) length.toNat with
      | none => none
      | some guess =>
        if is_valid_guess guess length then
          if solver guess then some { found := 1, correct_guess := guess }
          else guess_generator_loop solver length k (num + 1) sh
        else guess_generator_loop solver length k (num + 1) sh

/-- The thread function `guess_generator` on the partition from `start` to `stop`. -/
def guess_generator (solver : List Char → Bool) (start stop : Int) (length : Int)
    (sh : Search) : Option Search :=
  guess_generator_loop solver length (stop - start + 1).toNat start sh

/-- The bound `chunk_start` of thread `i` in `start_guessing`. -/
def chunk_start (start chunk_size : Int) (i : Nat) : Int :=
  start + (i : Int) * chunk_size

/-- The bound `chunk_end` of thread `i` in `start_guessing`. -/
def chunk_end (start stop chunk_size num_threads : Int) (i : Nat) : Int :=
  if (i : Int) = num_threads - 1 then stop else chunk_start start chunk_size i + chunk_size - 1

/-- The threads of `start_guessing` with the listed indices, run in list order. -/
def run_threads (workers : Nat → Int → List Char → Bool) (length dockId : Int)
    (start stop chunk_size num_threads : Int) : List Nat → Search → Option Search
  | [], sh => some sh
  | i :: rest, sh =>
    match guess_generator (workers i dockId) (chunk_start start chunk_size i)
        (chunk_end start stop chunk_size num_threads i) length sh with
    | some sh1 =>
      run_threads workers length dockId start stop chunk_size num_threads rest sh1
    | none => none

/-- The function `start_guessing`: the string in `found_guess` at the end. -/
def start_guessing (workers : Nat → Int → List Char → Bool)
    (length num_threads dockId : Int) : Option (List Char) :=
  let r := calculate_range length
  let range := r.2 - r.1 + 1
  let chunk_size := Int.tdiv range num_threads
  match run_threads workers length dockId r.1 r.2 chunk_size num_threads
      (List.range num_threads.toNat) { found := 0, correct_guess := [] } with
  | some sh => some sh.correct_guess
  | none => none

/-- Workers that answer correct exactly for the planted string. -/
def planted_workers (planted : List Char) : Nat → Int → List Char → Bool :=
  fun _ _ guess => decide (guess = planted)

/-! ## Notions used in the statements on credential recovery -/

/-- The symbols of the `k` low base-6 digits of `num`, most significant first. -/
def base6_symbols : Nat → Nat → List Char
  | 0, _ => []
  | k + 1, num => base6_symbols k (num / 6) ++ [map.getD (num % 6) '.']

/-- The numeral that a string over the alphabet stands for, its first symbol
the most significant digit. -/
def numeral_of (guess : List Char) : Nat :=
  guess.foldl (fun acc c => 6 * acc + map.indexOf c) 0

/-- The numeral `num` yields a candidate in the loop of `guess_generator`:
`base6_to_guess` receives the `long long` numeral in its `int` parameter, and
the string it writes passes `is_valid_guess`.  A read of `map` outside the
array gives no candidate. -/
def valid_candidate (length : Nat) (num : Nat) : Bool :=
  match base6_to_guess (to_int (num : Int)) length with
  | some guess => is_valid_guess guess (length : Int)
  | none => false

/-- The number of numerals in the range of `calculate_range` that yield a
candidate in the loop of `guess_generator`. -/
def keyspace_size (length : Nat) : Nat :=
  ((List.range' (calculate_range length).1.toNat
    ((calculate_range length).2 - (calculate_range length).1 + 1).toNat).filter
    (valid_candidate length)).length

/-! ## Notions used in the statements on the two passes -/

/-- The ship at index `i`, if the loop with flag `emergencyOnly` does not skip
it, fits no dock of the state. -/
def settled ( emergencyOnly : Bool) (st : State) (i : Nat) : Prop :=
  ∀ s, st.allShips[i]? = some s → skip_ship emergencyOnly s = false → ∀ j, ¬ fits_at st s j

/-- The skip test of a second loop that additionally skips emergency ships. -/
def variant_skip (s : Ship) : Bool :=
  decide (s.active = 0) || decide (s.docked ≠ 0) || decide (s.emergency ≠ 0)

/-- The body of the second loop with the additional skip. -/
def variant_consider (fuel : Nat) (i : Nat) (st : State) : Option State :=
  match st.allShips[i]? with
  | some s =>
    if variant_skip s then some st
    else scan_docks fuel i s st.numDocks st
  | none => none

/-- The second loop with the additional skip. -/
def variant_pass (fuel : Nat) : List Nat → State → Option State
  | [], st => some st
  | i :: rest, st =>
    match variant_consider fuel i st with
    | some st1 => variant_pass fuel rest st1
    | none => none

/-- The variant of `assign_ships_greedy` whose second loop additionally skips
emergency ships; the first loop is the one of `assign_ships_greedy`. -/
def variant_assign_ships_greedy (fuel : Nat) (st : State) : Option State :=
  match assign_pass fuel true (List.range st.numShips) st with
  | some st1 => variant_pass fuel (List.range st1.numShips) st1
  | none => none

/-- The state after `assign_ships_greedy` on the harbour at timestep 5. -/
def harbour_result : State :=
  (assign_ships_greedy 5 harbour_state).getD harbour_state

/-- The state that `scheduler_step` hands to `assign_ships_greedy` at the quay
when the two ships of `rush_table 3` arrive. -/
def rush_input : State := expire_ships (add_ships (rush_table 3) quay_state)

/-! ## Notions used in the statements on runs of consecutive timesteps -/

/-- An event that the allocation of timestep `t` may enqueue: a dock
assignment due at `t`, or a cargo transfer due later. -/
def allocation_event (t : Int) (e : MessageStruct × Int) : Prop :=
  (e.1.mtype = 2 ∧ e.2 = t) ∨ (e.1.mtype = 4 ∧ t < e.2)

/-- The received messages are advance signals, none of them the last one, and
carry the consecutive timesteps `k + 1, k + 2, ...`. -/
def consecutive_from : Int → List (MessageStruct × List ShipRequest) → Bool
  | _, [] => true
  | k, (recvMsg, _) :: rest =>
    decide (recvMsg.isFinished ≠ 1) && decide (recvMsg.timestep = k + 1) &&
      consecutive_from (k + 1) rest

/-- The state after the first advance message of `two_arrivals`. -/
def first_step_state : State :=
  (run 3 no_search (two_arrivals.take 1) one_dock_start).getD one_dock_start

/-- The second advance message of `two_arrivals`. -/
def second_advance : MessageStruct := { mtype := 1, timestep := 2, data := 0 }

/-- The state after the first two advance messages of `two_arrivals`. -/
def second_step_state : State :=
  (run 3 no_search (two_arrivals.take 2) one_dock_start).getD one_dock_start

/-! ## Lemmas on the cargo transfer scheduler -/

theorem process_round_stop (s : Ship) (dock : Dock) (simulate moved_at : Int) (a : Cargo)
    (rest : List Cargo) (p : Progress) (h : ¬ p.currentCrane < dock.numCranes) :
    process_round s dock simulate moved_at (a :: rest) p = p := by
  rw [process_round, if_neg h]

theorem process_round_marked (s : Ship) (dock : Dock) (simulate moved_at : Int) (a : Cargo)
    (rest : List Cargo) (p : Progress) (h : p.currentCrane < dock.numCranes)
    (hm : a.id ∈ p.cargos) :
    process_round s dock simulate moved_at (a :: rest) p =
      process_round s dock simulate moved_at rest p := by
  rw [process_round, if_pos h, if_pos hm]

theorem process_round_move (s : Ship) (dock : Dock) (simulate moved_at : Int) (a : Cargo)
    (rest : List Cargo) (p : Progress) (h : p.currentCrane < dock.numCranes)
    (hm : a.id ∉ p.cargos) (hw : (current_crane dock p).capacity ≥ a.weight) :
    process_round s dock simulate moved_at (a :: rest) p =
      process_round s dock simulate moved_at rest (move_item s dock simulate moved_at a p) := by
  rw [process_round, if_pos h, if_neg hm, if_pos hw]

theorem process_round_heavy (s : Ship) (dock : Dock) (simulate moved_at : Int) (a : Cargo)
    (rest : List Cargo) (p : Progress) (h : p.currentCrane < dock.numCranes)
    (hm : a.id ∉ p.cargos) (hw : ¬ (current_crane dock p).capacity ≥ a.weight) :
    process_round s dock simulate moved_at (a :: rest) p =
      process_round s dock simulate moved_at rest p := by
  rw [process_round, if_pos h, if_neg hm, if_neg hw]

theorem unmarked_cons_of_mem {a : Cargo} {l : List Cargo} {cargos : List Int}
    (h : a.id ∈ cargos) : unmarked (a :: l) cargos = unmarked l cargos := by
  simp [unmarked, h]

theorem unmarked_cons_of_not_mem {a : Cargo} {l : List Cargo} {cargos : List Int}
    (h : a.id ∉ cargos) : unmarked (a :: l) cargos = unmarked l cargos + 1 := by
  simp [unmarked, h]

theorem unmarked_mark_of_not_mem {x : Int} {l : List Cargo} {cargos : List Int}
    (h : x ∉ l.map Cargo.id) : unmarked l (x :: cargos) = unmarked l cargos := by
  unfold unmarked
  congr 1
  apply List.filter_congr
  intro c hc
  have hne : c.id ≠ x := fun e => h (e ▸ List.mem_map_of_mem Cargo.id hc)
  simp [hne]

theorem current_crane_mem (dock : Dock) (p : Progress) (h : p.currentCrane < dock.numCranes) :
    current_crane dock p ∈ dock.cranes := by
  unfold Dock.numCranes at h
  unfold current_crane
  rw [List.getD_eq_getElem _ _ h]
  exact List.getElem_mem h

/-- One round when every crane lifts every item: the round moves as many items
as there are cranes left, or all unmarked items if these are fewer. -/
theorem process_round_all_fit (s : Ship) (dock : Dock) (simulate moved_at : Int) :
    ∀ (l : List Cargo) (p : Progress), all_fit dock l → (l.map Cargo.id).Nodup →
      (process_round s dock simulate moved_at l p).moved =
          p.moved + min (dock.numCranes - p.currentCrane) (unmarked l p.cargos) ∧
      unmarked l (process_round s dock simulate moved_at l p).cargos =
          unmarked l p.cargos - min (dock.numCranes - p.currentCrane) (unmarked l p.cargos) ∧
      (∀ x ∈ p.cargos, x ∈ (process_round s dock simulate moved_at l p).cargos) := by
  intro l
  induction l with
  | nil => intro p _ _; simp [process_round, unmarked]
  | cons a rest ih =>
    intro p hfit hnd
    have hfit1 : all_fit dock rest := fun cr hcr c hc => hfit cr hcr c (List.mem_cons_of_mem _ hc)
    have hnd1 : (rest.map Cargo.id).Nodup := (List.nodup_cons.mp (by simpa using hnd)).2
    have hnot : a.id ∉ rest.map Cargo.id := (List.nodup_cons.mp (by simpa using hnd)).1
    by_cases hc : p.currentCrane < dock.numCranes
    · by_cases hm : a.id ∈ p.cargos
      · obtain ⟨h1, h2, h3⟩ := ih p hfit1 hnd1
        rw [process_round_marked s dock simulate moved_at a rest p hc hm,
          unmarked_cons_of_mem hm, unmarked_cons_of_mem (h3 _ hm)]
        exact ⟨h1, h2, h3⟩
      · have hcap : (current_crane dock p).capacity ≥ a.weight :=
          hfit _ (current_crane_mem dock p hc) a (List.mem_cons_self _ _)
        obtain ⟨h1, h2, h3⟩ := ih (move_item s dock simulate moved_at a p) hfit1 hnd1
        rw [process_round_move s dock simulate moved_at a rest p hc hm hcap]
        have hcg : (move_item s dock simulate moved_at a p).cargos = a.id :: p.cargos := rfl
        have hmv : (move_item s dock simulate moved_at a p).moved = p.moved + 1 := rfl
        have hcc : (move_item s dock simulate moved_at a p).currentCrane = p.currentCrane + 1 := rfl
        simp only [hcg, hmv, hcc, unmarked_mark_of_not_mem hnot] at h1 h2 h3
        rw [unmarked_cons_of_mem (h3 _ (List.mem_cons_self _ _)), unmarked_cons_of_not_mem hm,
          h1, h2]
        refine ⟨?_, ?_, fun x hx => h3 x (List.mem_cons_of_mem _ hx)⟩
        · omega
        · omega
    · rw [process_round_stop s dock simulate moved_at a rest p hc]
      have : dock.numCranes - p.currentCrane = 0 := by omega
      simp [this]

theorem ceil_step (u c : Nat) (hc : 0 < c) (hu : 0 < u) :
    (u + c - 1) / c = (u - min c u + c - 1) / c + 1 := by
  by_cases h : u ≤ c
  · have h1 : min c u = u := by omega
    have h2 : (u + c - 1) / c = 1 := by
      apply Nat.div_eq_of_lt_le <;> omega
    have h3 : (u - u + c - 1) / c = 0 := by
      apply Nat.div_eq_of_lt; omega
    rw [h1, h2, h3]
  · have h1 : min c u = c := by omega
    rw [h1]
    have : u + c - 1 = (u - c + c - 1) + c := by omega
    rw [this, Nat.add_div_right _ hc]

/-- The `while` loop when every crane lifts every item: from a state with `u`
unmarked items it runs `ceil (u / c)` further rounds and returns. -/
theorem process_while_all_fit (s : Ship) (dock : Dock) (simulate t : Int)
    (hfit : all_fit dock s.cargo) (hnd : (s.cargo.map Cargo.id).Nodup)
    (hc : 0 < dock.numCranes) :
    ∀ (fuel : Nat) (moved_at : Int) (p : Progress),
      p.currentCrane = 0 → p.moved + unmarked s.cargo p.cargos = s.numCargo →
      (unmarked s.cargo p.cargos + dock.numCranes - 1) / dock.numCranes < fuel →
      (process_while s dock simulate t fuel moved_at p).map Prod.fst =
        some (moved_at +
          (((unmarked s.cargo p.cargos + dock.numCranes - 1) / dock.numCranes : Nat) : Int)
          - t - 1) := by
  intro fuel
  induction fuel with
  | zero => intro _ _ _ _ h; exact absurd h (Nat.not_lt_zero _)
  | succ n ih =>
    intro moved_at p h0 hinv hfuel
    by_cases hlt : p.moved < s.numCargo
    · rw [process_while, if_pos hlt]
      obtain ⟨h1, h2, _⟩ := process_round_all_fit s dock simulate moved_at s.cargo p hfit hnd
      rw [h0, Nat.sub_zero] at h1 h2
      have hu : 0 < unmarked s.cargo p.cargos := by omega
      have hstep := ceil_step (unmarked s.cargo p.cargos) dock.numCranes hc hu
      have := ih (moved_at + 1)
        { process_round s dock simulate moved_at s.cargo p with currentCrane := 0 } rfl
        (by simp only; rw [h1, h2]; omega)
        (by simp only; rw [h2]; omega)
      rw [this]
      simp only [h2]
      rw [hstep]
      push_cast
      congr 1
      ring
    · rw [process_while, if_neg hlt]
      have hu : unmarked s.cargo p.cargos = 0 := by omega
      have : (0 + dock.numCranes - 1) / dock.numCranes = 0 := by
        apply Nat.div_eq_of_lt; omega
      rw [hu, this]
      simp

theorem unmarked_nil_cargos (l : List Cargo) : unmarked l [] = l.length := by
  simp [unmarked]

theorem ceil_div_cast (k c : Nat) (hc : 0 < c) :
    ⌈(k : ℚ) / (c : ℚ)⌉ = (((k + c - 1) / c : Nat) : Int) := by
  rw [Int.ceil_eq_iff]
  have hcq : (0 : ℚ) < c := by exact_mod_cast hc
  have hmod := Nat.div_add_mod (k + c - 1) c
  have hlt := Nat.mod_lt (k + c - 1) hc
  generalize (k + c - 1) / c = q at hmod ⊢
  generalize (k + c - 1) % c = r at hmod hlt
  have hkc : c * q + r + 1 = k + c := by omega
  have hkq : (c : ℚ) * q + r + 1 = k + c := by exact_mod_cast hkc
  have hrq : (r : ℚ) + 1 ≤ c := by exact_mod_cast hlt
  have hr0 : (0 : ℚ) ≤ r := by positivity
  constructor
  · rw [lt_div_iff₀ hcq]
    push_cast
    linarith
  · rw [div_le_iff₀ hcq]
    push_cast
    linarith


theorem ceil_le (k c : Nat) (hc : 0 < c) : (k + c - 1) / c ≤ k := by
  rcases Nat.eq_zero_or_pos k with h | h
  · subst h
    rw [Nat.div_eq_of_lt (by omega)]
  · apply Nat.div_le_of_le_mul
    obtain ⟨k1, rfl⟩ : ∃ k1, k = k1 + 1 := ⟨k - 1, by omega⟩
    obtain ⟨c1, rfl⟩ : ∃ c1, c = c1 + 1 := ⟨c - 1, by omega⟩
    have : (c1 + 1) * (k1 + 1) = c1 * k1 + c1 + k1 + 1 := by ring
    rw [this]
    have := Nat.zero_le (c1 * k1)
    omega

theorem number_cargo_ids (ws : List Int) :
    ∀ i : Nat, (number_cargo i ws).map Cargo.id =
      (List.range' i ws.length).map (fun k : Nat => (k : Int)) := by
  induction ws with
  | nil => intro i; rfl
  | cons w rest ih =>
    intro i
    simp only [number_cargo, List.map_cons, List.length_cons, List.range'_succ, ih (i + 1)]

/-- The cargo ids of a ship stored by `add_ship` are distinct. -/
theorem new_ship_cargo_ids_nodup (req : ShipRequest) :
    ((new_ship req).cargo.map Cargo.id).Nodup := by
  have hperm : ((new_ship req).cargo.map Cargo.id).Perm
      ((number_cargo 0 req.cargo).map Cargo.id) :=
    (List.perm_insertionSort (fun a b : Cargo => a.weight ≥ b.weight)
      (number_cargo 0 req.cargo)).map Cargo.id
  rw [hperm.nodup_iff, number_cargo_ids]
  exact (List.nodup_range' 0 _).map (fun a b h => by exact_mod_cast h)

/-- C1: for a ship with `k` cargo items (with the distinct cargo ids that
`add_ship` gives) and a dock with `c ≥ 1` cranes each of which lifts every item,
`process_ship` returns, for every value of `simulate` and every fuel above `k`,
exactly the ceiling of `k / c`. -/
theorem process_ship_all_fit_ceil (fuel : Nat) (s : Ship) (dock : Dock) (simulate t : Int)
    (q : List ScheduledMessage) (hids : (s.cargo.map Cargo.id).Nodup)
    (hc : 1 ≤ dock.numCranes) (hfit : all_fit dock s.cargo) (hfuel : s.numCargo < fuel) :
    (process_ship fuel s dock simulate t q).map Prod.fst =
      some ⌈(s.numCargo : ℚ) / (dock.numCranes : ℚ)⌉ := by
  have hceil := ceil_le s.numCargo dock.numCranes hc
  have h := process_while_all_fit s dock simulate t hfit hids hc fuel (t + 1) ⟨0, [], 0, q⟩ rfl
    (by simp [unmarked_nil_cargos, Ship.numCargo])
    (by simp only [unmarked_nil_cargos]; exact lt_of_le_of_lt hceil hfuel)
  simp only [unmarked_nil_cargos] at h
  rw [process_ship, h, ceil_div_cast _ _ hc]
  congr 1
  unfold Ship.numCargo
  ring

theorem process_ship_all_fit_ceil_witness :
    (process_ship 4 scenario_ship strong_dock 1 1 []).map Prod.fst =
      some ⌈(scenario_ship.numCargo : ℚ) / (strong_dock.numCranes : ℚ)⌉ :=
  process_ship_all_fit_ceil 4 scenario_ship strong_dock 1 1 [] (new_ship_cargo_ids_nodup _)
    (by decide) (by decide) (by decide)

/-! ## Lemmas on the deferred event queue -/

theorem insert_message_sorted_eq (node : ScheduledMessage) (q : List ScheduledMessage) :
    insert_message_sorted node q = insert_after node q := by
  cases q with
  | nil => rfl
  | cons hd rest =>
    rw [insert_message_sorted, insert_after]
    by_cases h : node.timestep < hd.timestep
    · rw [if_pos h, if_neg (not_le.mpr h)]
    · rw [if_neg h, if_pos (not_lt.mp h)]

theorem insert_after_perm (node : ScheduledMessage) (q : List ScheduledMessage) :
    (insert_after node q).Perm (node :: q) := by
  induction q with
  | nil => exact List.Perm.refl _
  | cons hd rest ih =>
    rw [insert_after]
    split
    · exact (List.Perm.cons hd ih).trans (List.Perm.swap node hd rest)
    · exact List.Perm.refl _

theorem insert_after_sorted (node : ScheduledMessage) (q : List ScheduledMessage)
    (h : queue_sorted q) : queue_sorted (insert_after node q) := by
  induction q with
  | nil => simp [insert_after, queue_sorted]
  | cons hd rest ih =>
    unfold queue_sorted at h ih ⊢
    rw [insert_after]
    have h2 := List.pairwise_cons.mp h
    split
    · rename_i hle
      refine List.pairwise_cons.mpr ⟨?_, ih h2.2⟩
      intro b hb
      rcases List.mem_cons.mp ((insert_after_perm node rest).subset hb) with rfl | hb1
      · exact hle
      · exact h2.1 b hb1
    · rename_i hgt
      refine List.pairwise_cons.mpr ⟨?_, h⟩
      intro b hb
      rcases List.mem_cons.mp hb with rfl | hb1
      · exact le_of_lt (not_le.mp hgt)
      · exact le_trans (le_of_lt (not_le.mp hgt)) (h2.1 b hb1)

/-- In a sorted queue the new node lands behind every node due at its own
timestep, and the nodes due at other timesteps keep their places. -/
theorem due_at_insert_after (node : ScheduledMessage) (t : Int) (q : List ScheduledMessage)
    (h : queue_sorted q) :
    due_at t (insert_after node q) =
      if node.timestep = t then due_at t q ++ [node] else due_at t q := by
  induction q with
  | nil =>
    by_cases e : node.timestep = t <;> simp [insert_after, due_at, e]
  | cons hd rest ih =>
    have h2 := List.pairwise_cons.mp h
    rw [insert_after]
    split
    · have := ih h2.2
      by_cases e : hd.timestep = t
      · simp only [due_at, List.filter_cons, e, decide_True, if_true] at this ⊢
        rw [this]
        split <;> simp
      · simp only [due_at, List.filter_cons, e, decide_False] at this ⊢
        simpa using this
    · rename_i hgt
      have hgt1 : node.timestep < hd.timestep := not_le.mp hgt
      by_cases e : node.timestep = t
      · have hnone : due_at t (hd :: rest) = [] := by
          unfold due_at
          rw [List.filter_eq_nil_iff]
          intro b hb
          have : hd.timestep ≤ b.timestep := by
            rcases List.mem_cons.mp hb with rfl | hb1
            · exact le_refl _
            · exact h2.1 b hb1
          simp only [decide_eq_true_eq]
          omega
        rw [if_pos e, hnone]
        have : due_at t (node :: hd :: rest) = node :: due_at t (hd :: rest) := by
          simp [due_at, e]
        rw [this, hnone]
        rfl
      · rw [if_neg e]
        simp [due_at, e]

theorem enqueue_all_sorted (events : List (MessageStruct × Int)) :
    ∀ q, queue_sorted q → queue_sorted (enqueue_all events q) := by
  induction events with
  | nil => intro q h; exact h
  | cons e rest ih =>
    intro q h
    show queue_sorted (enqueue_all rest (enqueue_message e.1 e.2 q))
    apply ih
    rw [enqueue_message, insert_message_sorted_eq]
    exact insert_after_sorted _ _ h

theorem enqueue_all_perm (events : List (MessageStruct × Int)) :
    ∀ q, (enqueue_all events q).Perm (q ++ events.map node_of) := by
  induction events with
  | nil => intro q; simp [enqueue_all]
  | cons e rest ih =>
    intro q
    show (enqueue_all rest (enqueue_message e.1 e.2 q)).Perm _
    refine (ih _).trans ?_
    rw [enqueue_message, insert_message_sorted_eq, List.map_cons]
    have h1 := insert_after_perm ⟨e.2, e.1⟩ q
    have h2 : (⟨e.2, e.1⟩ :: q).Perm (q ++ [node_of e]) := by
      simpa [node_of] using (List.perm_append_singleton (⟨e.2, e.1⟩ : ScheduledMessage) q).symm
    have := (h1.trans h2).append_right (rest.map node_of)
    simpa using this

theorem enqueue_all_due_at (t : Int) (events : List (MessageStruct × Int)) :
    ∀ q, queue_sorted q →
      due_at t (enqueue_all events q) = due_at t q ++ due_at t (events.map node_of) := by
  induction events with
  | nil => intro q _; simp [enqueue_all, due_at]
  | cons e rest ih =>
    intro q h
    show due_at t (enqueue_all rest (enqueue_message e.1 e.2 q)) = _
    have hs : queue_sorted (enqueue_message e.1 e.2 q) := by
      rw [enqueue_message, insert_message_sorted_eq]
      exact insert_after_sorted _ _ h
    rw [ih _ hs, enqueue_message, insert_message_sorted_eq, due_at_insert_after _ _ _ h]
    by_cases e1 : e.2 = t
    · simp [due_at, node_of, e1]
    · simp [due_at, node_of, e1]

/-- C7: for every sequence of `enqueue_message` calls from the empty queue the
result is the stable sort of the enqueued events by due timestep: it holds the
same nodes, due timesteps never decrease along it, and for each timestep the
nodes due then stand in the order in which they were enqueued. -/
theorem enqueue_all_stable_sort (events : List (MessageStruct × Int)) :
    (enqueue_all events []).Perm (events.map node_of) ∧
    queue_sorted (enqueue_all events []) ∧
    ∀ t, due_at t (enqueue_all events []) = due_at t (events.map node_of) := by
  refine ⟨?_, enqueue_all_sorted events [] List.Pairwise.nil, ?_⟩
  · simpa using enqueue_all_perm events []
  · intro t
    simpa [due_at] using enqueue_all_due_at t events [] List.Pairwise.nil

/-! ## Lemmas on flushing -/

theorem flush_loop_of_sorted (t : Int) (q : List ScheduledMessage) (hs : queue_sorted q)
    (hge : ∀ n ∈ q, t ≤ n.timestep) :
    flush_loop t q = ((due_at t q).map ScheduledMessage.message, not_due_at t q) := by
  induction q with
  | nil => rfl
  | cons hd rest ih =>
    have h2 := List.pairwise_cons.mp hs
    rw [flush_loop]
    by_cases e : hd.timestep = t
    · rw [if_pos e, ih h2.2 (fun n hn => hge n (List.mem_cons_of_mem _ hn))]
      simp [due_at, not_due_at, e]
    · rw [if_neg e]
      have hlt : t < hd.timestep := lt_of_le_of_ne (hge hd (List.mem_cons_self _ _)) (Ne.symm e)
      have hall : ∀ b ∈ hd :: rest, b.timestep ≠ t := by
        intro b hb
        rcases List.mem_cons.mp hb with rfl | hb1
        · exact e
        · have := h2.1 b hb1
          omega
      have h1 : due_at t (hd :: rest) = [] := by
        unfold due_at
        rw [List.filter_eq_nil_iff]
        intro b hb
        simpa using hall b hb
      have h3 : not_due_at t (hd :: rest) = hd :: rest := by
        unfold not_due_at
        rw [List.filter_eq_self]
        intro b hb
        simpa using hall b hb
      rw [h1, h3]
      rfl

/-- C8, refuted as stated: in a queue built by `enqueue_message` in which an
event due at timestep 1 is still queued, `flush_messages` at timestep 2 sends
nothing and removes nothing, although an event due at timestep 2 is queued. -/
theorem flush_messages_misses_due_behind_stale :
    stale_state.messageQueue = enqueue_all
      [({ mtype := 4, cargoId := 0 }, 1), ({ mtype := 4, cargoId := 1 }, 2)] [] ∧
    (due_at stale_state.currentTimestep stale_state.messageQueue).map
      ScheduledMessage.message = [{ mtype := 4, cargoId := 1 }] ∧
    (flush_messages stale_state).sent = [] ∧
    (flush_messages stale_state).messageQueue = stale_state.messageQueue := by
  decide

/-- C8, amended: for every queue built by `enqueue_message` from the empty
queue in which no event is due before the current timestep `t`,
`flush_messages` sends exactly the queued events due at `t`, in queue order,
after what was sent before, and leaves exactly the other events, in their
previous order; nothing else of the state changes. -/
theorem flush_messages_sends_due (events : List (MessageStruct × Int)) (st : State)
    (hq : st.messageQueue = enqueue_all events [])
    (hge : ∀ n ∈ st.messageQueue, st.currentTimestep ≤ n.timestep) :
    flush_messages st =
      { st with
        sent := st.sent ++
          (due_at st.currentTimestep st.messageQueue).map ScheduledMessage.message
        messageQueue := not_due_at st.currentTimestep st.messageQueue } := by
  have hs : queue_sorted st.messageQueue := by
    rw [hq]
    exact enqueue_all_sorted events [] List.Pairwise.nil
  unfold flush_messages
  rw [flush_loop_of_sorted _ _ hs hge]

theorem flush_messages_sends_due_witness :
    flush_messages fresh_state =
      { fresh_state with
        sent := fresh_state.sent ++
          (due_at fresh_state.currentTimestep fresh_state.messageQueue).map
            ScheduledMessage.message
        messageQueue := not_due_at fresh_state.currentTimestep fresh_state.messageQueue } :=
  flush_messages_sends_due
    [({ mtype := 4, cargoId := 0 }, 2), ({ mtype := 4, cargoId := 1 }, 3), ({ mtype := 2 }, 2)]
    fresh_state rfl (by decide)

/-! ## Lemmas on `dock_ship` -/

theorem count_dock_events_enqueue (msg : MessageStruct) (t : Int) (q : List ScheduledMessage) :
    count_dock_events (enqueue_message msg t q) =
      count_dock_events q + (if msg.mtype = 2 then 1 else 0) := by
  unfold count_dock_events
  rw [enqueue_message, insert_message_sorted_eq,
    (insert_after_perm ⟨t, msg⟩ q).countP_eq, List.countP_cons]
  simp

theorem move_item_count_dock_events (s : Ship) (dock : Dock) (simulate moved_at : Int)
    (c : Cargo) (p : Progress) :
    count_dock_events (move_item s dock simulate moved_at c p).queue =
      count_dock_events p.queue := by
  unfold move_item
  by_cases h : simulate = 0
  · simp only [h, if_true]
    rw [count_dock_events_enqueue]
    simp
  · simp only [h, if_false]

theorem process_round_count_dock_events (s : Ship) (dock : Dock) (simulate moved_at : Int) :
    ∀ (l : List Cargo) (p : Progress),
      count_dock_events (process_round s dock simulate moved_at l p).queue =
        count_dock_events p.queue := by
  intro l
  induction l with
  | nil => intro p; rfl
  | cons a rest ih =>
    intro p
    rw [process_round]
    split
    · split
      · exact ih p
      · split
        · rw [ih, move_item_count_dock_events]
        · exact ih p
    · rfl

theorem process_while_count_dock_events (s : Ship) (dock : Dock) (simulate t : Int) :
    ∀ (fuel : Nat) (moved_at : Int) (p : Progress) (r : Int × List ScheduledMessage),
      process_while s dock simulate t fuel moved_at p = some r →
      count_dock_events r.2 = count_dock_events p.queue := by
  intro fuel
  induction fuel with
  | zero => intro _ _ r h; simp [process_while] at h
  | succ n ih =>
    intro moved_at p r h
    rw [process_while] at h
    split at h
    · have := ih _ _ r h
      rw [this]
      exact process_round_count_dock_events s dock simulate moved_at s.cargo p
    · cases h
      rfl

/-- The state that `dock_ship` produces when `process_ship` returns `(p, q1)`. -/
theorem dock_ship_eq (fuel dcs i : Nat) (st : State) (s : Ship) (d : Dock) (p : Int)
    (q1 : List ScheduledMessage) (hs : st.allShips[i]? = some s) (hd : st.docks[dcs]? = some d)
    (hp : process_ship fuel s d 0 st.currentTimestep st.messageQueue = some (p, q1)) :
    dock_ship fuel dcs i st = some
      { st with
        docks := st.docks.set dcs
          { d with dockFreeAt := st.currentTimestep + p + 2
                   pendingUndock := st.currentTimestep + p + 1 }
        allShips := st.allShips.set i
          { s with docked := 1
                   dockId := d.dockId
                   dockTime := st.currentTimestep
                   undockTime := st.currentTimestep + p + 1 }
        messageQueue := enqueue_message (dock_message d s) st.currentTimestep q1
        assigned := st.assigned ++ [(dcs, i)] } := by
  unfold dock_ship
  rw [hs, hd]
  simp only [hp]
  rfl

/-- C2: when `process_ship` returns the processing time `p` for ship `i` and
dock `dcs` at the current timestep `t`, `dock_ship` returns a state in which
the dock has `dockFreeAt = t + p + 2`, the ship is docked with `dockTime = t`,
`undockTime = t + p + 1` and the dock id of that dock, and the queue is the one
left by `process_ship` with one dock-assignment event (kind 2, with the dock
id, ship id and direction) enqueued for timestep `t`; the number of queued
kind-2 events has grown by exactly one. -/
theorem dock_ship_effect (fuel dcs i : Nat) (st : State) (s : Ship) (d : Dock) (p : Int)
    (q1 : List ScheduledMessage) (hs : st.allShips[i]? = some s) (hd : st.docks[dcs]? = some d)
    (hp : process_ship fuel s d 0 st.currentTimestep st.messageQueue = some (p, q1)) :
    ∃ st1 d1 s1, dock_ship fuel dcs i st = some st1 ∧
      st1.docks[dcs]? = some d1 ∧ d1.dockFreeAt = st.currentTimestep + p + 2 ∧
      st1.allShips[i]? = some s1 ∧ s1.docked = 1 ∧ s1.dockTime = st.currentTimestep ∧
      s1.undockTime = st.currentTimestep + p + 1 ∧ s1.dockId = d.dockId ∧
      st1.messageQueue =
        enqueue_message
          { mtype := 2, dockId := d.dockId, shipId := s.shipId, direction := s.direction }
          st.currentTimestep q1 ∧
      count_dock_events st1.messageQueue = count_dock_events st.messageQueue + 1 := by
  have hi : i < st.allShips.length := (List.getElem?_eq_some_iff.mp hs).1
  have hj : dcs < st.docks.length := (List.getElem?_eq_some_iff.mp hd).1
  refine ⟨_,
    { d with dockFreeAt := st.currentTimestep + p + 2
             pendingUndock := st.currentTimestep + p + 1 },
    { s with docked := 1
             dockId := d.dockId
             dockTime := st.currentTimestep
             undockTime := st.currentTimestep + p + 1 },
    dock_ship_eq fuel dcs i st s d p q1 hs hd hp, ?_, rfl, ?_, rfl, rfl, rfl, rfl, rfl, ?_⟩
  · simp [hj]
  · simp [hi]
  · show count_dock_events (enqueue_message (dock_message d s) st.currentTimestep q1) = _
    rw [count_dock_events_enqueue]
    have := process_while_count_dock_events s d 0 st.currentTimestep fuel _ _ _ hp
    simp only at this
    rw [this]
    simp [dock_message]

theorem dock_ship_effect_witness :
    ∃ st1 d1 s1, dock_ship 5 0 0 scenario_state = some st1 ∧
      st1.docks[0]? = some d1 ∧ d1.dockFreeAt = 5 ∧
      st1.allShips[0]? = some s1 ∧ s1.docked = 1 ∧ s1.dockTime = 1 ∧
      s1.undockTime = 4 ∧ s1.dockId = 0 ∧
      st1.messageQueue =
        enqueue_message { mtype := 2, dockId := 0, shipId := 7, direction := 1 } 1
          [⟨2, { mtype := 4, shipId := 7, direction := 1, cargoId := 0, data := 0 }⟩,
           ⟨2, { mtype := 4, shipId := 7, direction := 1, cargoId := 1, data := 1 }⟩,
           ⟨3, { mtype := 4, shipId := 7, direction := 1, cargoId := 2, data := 0 }⟩] ∧
      count_dock_events st1.messageQueue = 1 :=
  dock_ship_effect 5 0 0 scenario_state scenario_ship scenario_dock 2
    [⟨2, { mtype := 4, shipId := 7, direction := 1, cargoId := 0, data := 0 }⟩,
     ⟨2, { mtype := 4, shipId := 7, direction := 1, cargoId := 1, data := 1 }⟩,
     ⟨3, { mtype := 4, shipId := 7, direction := 1, cargoId := 2, data := 0 }⟩]
    (by decide) (by decide) (by decide)

/-! ## Lemmas on the allocation engine -/

theorem process_while_result_ge (s : Ship) (dock : Dock) (simulate t : Int) :
    ∀ (fuel : Nat) (moved_at : Int) (p : Progress) (r : Int × List ScheduledMessage),
      process_while s dock simulate t fuel moved_at p = some r → moved_at - t - 1 ≤ r.1 := by
  intro fuel
  induction fuel with
  | zero => intro _ _ r h; simp [process_while] at h
  | succ n ih =>
    intro moved_at p r h
    rw [process_while] at h
    split at h
    · have := ih _ _ r h
      omega
    · cases h
      exact le_refl _

theorem process_ship_result_nonneg (fuel : Nat) (s : Ship) (dock : Dock) (simulate t : Int)
    (q : List ScheduledMessage) (r : Int × List ScheduledMessage)
    (h : process_ship fuel s dock simulate t q = some r) : 0 ≤ r.1 := by
  have := process_while_result_ge s dock simulate t fuel (t + 1) _ r h
  omega

theorem dock_ship_some (fuel dcs i : Nat) (st st1 : State)
    (h : dock_ship fuel dcs i st = some st1) :
    ∃ s d p q1, st.allShips[i]? = some s ∧ st.docks[dcs]? = some d ∧
      process_ship fuel s d 0 st.currentTimestep st.messageQueue = some (p, q1) ∧ 0 ≤ p ∧
      st1 = docked_state st dcs i s d p q1 := by
  unfold dock_ship at h
  split at h
  · rename_i s d hs hd
    split at h
    · cases h
    · rename_i p q1 hp
      cases h
      exact ⟨s, d, p, q1, hs, hd, hp, process_ship_result_nonneg _ _ _ _ _ _ _ hp, rfl⟩
  · cases h

theorem dock_fits_iff (st : State) (s : Ship) (dcs : Nat) (d : Dock)
    (hd : st.docks[dcs]? = some d) :
    dock_fits st.currentTimestep d s = true ↔ fits_at st s dcs := by
  unfold dock_fits fits_at
  constructor
  · intro h
    simp only [Bool.and_eq_true, decide_eq_true_eq] at h
    exact ⟨d, hd, h.1, h.2⟩
  · rintro ⟨d1, hd1, h1, h2⟩
    rw [hd] at hd1
    cases hd1
    simp only [Bool.and_eq_true, decide_eq_true_eq]
    exact ⟨h1, h2⟩

/-- The dock scan from index `n - 1` down: it calls `dock_ship` on the highest
fitting index below `n`, and leaves the state alone if there is none. -/
theorem scan_docks_spec (fuel i : Nat) (s : Ship) (st : State) :
    ∀ n, n ≤ st.numDocks →
      ((∀ j, j < n → ¬ fits_at st s j) ∧ scan_docks fuel i s n st = some st) ∨
      (∃ dcs, dcs < n ∧ fits_at st s dcs ∧ (∀ j, dcs < j → j < n → ¬ fits_at st s j) ∧
        scan_docks fuel i s n st = dock_ship fuel dcs i st) := by
  intro n
  induction n with
  | zero =>
    intro _
    exact Or.inl ⟨fun j hj => absurd hj (Nat.not_lt_zero _), rfl⟩
  | succ k ih =>
    intro hk
    have hlt : k < st.docks.length := hk
    have hd : st.docks[k]? = some st.docks[k] := List.getElem?_eq_getElem hlt
    rw [scan_docks, hd]
    by_cases hf : dock_fits st.currentTimestep st.docks[k] s = true
    · right
      refine ⟨k, Nat.lt_succ_self k, (dock_fits_iff st s k _ hd).mp hf, ?_, ?_⟩
      · intro j h1 h2
        omega
      · simp only [hf, if_true]
    · have hnf : ¬ fits_at st s k := fun h => hf ((dock_fits_iff st s k _ hd).mpr h)
      simp only [hf]
      rcases ih (Nat.le_of_succ_le hk) with ⟨h1, h2⟩ | ⟨dcs, h1, h2, h3, h4⟩
      · left
        refine ⟨?_, h2⟩
        intro j hj
        rcases Nat.lt_succ_iff_lt_or_eq.mp hj with h | h
        · exact h1 j h
        · exact h ▸ hnf
      · right
        refine ⟨dcs, Nat.lt_succ_of_lt h1, h2, ?_, h4⟩
        intro j hj1 hj2
        rcases Nat.lt_succ_iff_lt_or_eq.mp hj2 with h | h
        · exact h3 j hj1 h
        · exact h ▸ hnf

theorem fits_at_lt (st : State) (s : Ship) (j : Nat) (h : fits_at st s j) : j < st.numDocks := by
  obtain ⟨d, hd, _⟩ := h
  exact (List.getElem?_eq_some_iff.mp hd).1

/-- The body of either loop for a ship that is not skipped. -/
theorem consider_ship_spec (fuel : Nat) ( emergencyOnly : Bool) (i : Nat) (st : State) (s : Ship)
    (hs : st.allShips[i]? = some s) (hskip : skip_ship emergencyOnly s = false) :
    ((∀ j, ¬ fits_at st s j) ∧ consider_ship fuel emergencyOnly i st = some st) ∨
    (∃ dcs, highest_fit st s dcs ∧
      consider_ship fuel emergencyOnly i st = dock_ship fuel dcs i st) := by
  unfold consider_ship
  rw [hs]
  simp only [hskip]
  rcases scan_docks_spec fuel i s st st.numDocks (le_refl _) with ⟨h1, h2⟩ | ⟨dcs, h1, h2, h3, h4⟩
  · left
    refine ⟨?_, by simpa using h2⟩
    intro j hj
    exact h1 j (fits_at_lt st s j hj) hj
  · right
    refine ⟨dcs, ⟨h2, ?_⟩, by simpa using h4⟩
    intro j hj hfit
    exact h3 j hj (fits_at_lt st s j hfit) hfit

/-! ## The invariant of one allocation call -/

theorem AssignInv.start (st : State) : AssignInv st st [] where
  time := rfl
  ndocks := rfl
  nships := rfl
  solvers := rfl
  sent_eq := rfl
  auth_eq := rfl
  log_eq := by simp
  docks_nodup := List.nodup_nil
  ships_nodup := List.nodup_nil
  dock_same := fun _ _ => rfl
  ship_same := fun _ _ => rfl
  done := fun a ha => absurd ha (List.not_mem_nil a)

theorem skip_ship_false_waiting ( emergencyOnly : Bool) (s : Ship)
    (h : skip_ship emergencyOnly s = false) : waiting s := by
  unfold skip_ship at h
  simp only [Bool.or_eq_false_iff, decide_eq_false_iff_not, ne_eq, not_not] at h
  exact ⟨h.1.1, h.1.2⟩

/-- A dock that the call has already assigned does not fit any ship. -/
theorem AssignInv.not_fits_assigned {st0 st : State} {log : List (Nat × Nat)}
    (inv : AssignInv st0 st log) (s : Ship) (dcs : Nat) (hin : dcs ∈ log.map Prod.fst) :
    ¬ fits_at st s dcs := by
  rintro ⟨d, hd, hfree, _⟩
  obtain ⟨a, ha, rfl⟩ := List.mem_map.mp hin
  obtain ⟨s1, d1, p, _, _, _, _, _, hp, hd1, _⟩ := inv.done a ha
  rw [hd1] at hd
  cases hd
  rw [inv.time] at hfree
  simp only [dock_after] at hfree
  omega

/-- A ship that the call has already docked is not waiting. -/
theorem AssignInv.not_waiting_assigned {st0 st : State} {log : List (Nat × Nat)}
    (inv : AssignInv st0 st log) (s : Ship) (i : Nat) (hin : i ∈ log.map Prod.snd)
    (hs : st.allShips[i]? = some s) : ¬ waiting s := by
  rintro ⟨_, hdocked⟩
  obtain ⟨a, ha, rfl⟩ := List.mem_map.mp hin
  obtain ⟨s1, d1, p, _, _, _, _, _, _, _, hs1⟩ := inv.done a ha
  rw [hs1] at hs
  cases hs
  simp [ship_after] at hdocked

/-- Docking a waiting ship at a fitting dock extends the invariant. -/
theorem AssignInv.dock {st0 st st1 : State} {log : List (Nat × Nat)}
    (inv : AssignInv st0 st log) (fuel dcs i : Nat) (s : Ship)
    (hs : st.allShips[i]? = some s) (hw : waiting s) (hfit : fits_at st s dcs)
    (h : dock_ship fuel dcs i st = some st1) : AssignInv st0 st1 (log ++ [(dcs, i)]) := by
  obtain ⟨s1, d, p, q1, hs1, hd, _, hp, rfl⟩ := dock_ship_some fuel dcs i st st1 h
  rw [hs] at hs1
  cases hs1
  have hdn : dcs ∉ log.map Prod.fst := fun hin => inv.not_fits_assigned s dcs hin hfit
  have hin : i ∉ log.map Prod.snd := fun hin => inv.not_waiting_assigned s i hin hs hw
  have hi : i < st.allShips.length := (List.getElem?_eq_some_iff.mp hs).1
  have hj : dcs < st.docks.length := (List.getElem?_eq_some_iff.mp hd).1
  obtain ⟨d1, hd1, hfree, hcat⟩ := hfit
  rw [hd] at hd1
  cases hd1
  refine
    { time := inv.time
      ndocks := by simp [docked_state, inv.ndocks]
      nships := by simp [docked_state, inv.nships]
      solvers := inv.solvers
      sent_eq := inv.sent_eq
      auth_eq := inv.auth_eq
      log_eq := by simp [docked_state, inv.log_eq]
      docks_nodup := ?_
      ships_nodup := ?_
      dock_same := ?_
      ship_same := ?_
      done := ?_ }
  · rw [List.map_append, List.nodup_append]
    refine ⟨inv.docks_nodup, by simp, ?_⟩
    intro x hx hx1
    simp only [List.map_cons, List.map_nil, List.mem_singleton] at hx1
    exact hdn (hx1 ▸ hx)
  · rw [List.map_append, List.nodup_append]
    refine ⟨inv.ships_nodup, by simp, ?_⟩
    intro x hx hx1
    simp only [List.map_cons, List.map_nil, List.mem_singleton] at hx1
    exact hin (hx1 ▸ hx)
  · intro j hj1
    simp only [List.map_append, List.map_cons, List.map_nil, List.mem_append,
      List.mem_singleton, not_or] at hj1
    show (st.docks.set dcs _)[j]? = _
    rw [List.getElem?_set_ne (Ne.symm hj1.2)]
    exact inv.dock_same j hj1.1
  · intro j hj1
    simp only [List.map_append, List.map_cons, List.map_nil, List.mem_append,
      List.mem_singleton, not_or] at hj1
    show (st.allShips.set i _)[j]? = _
    rw [List.getElem?_set_ne (Ne.symm hj1.2)]
    exact inv.ship_same j hj1.1
  · intro a ha
    rcases List.mem_append.mp ha with ha1 | ha1
    · obtain ⟨s2, d2, p2, h1, h2, h3, h4, h5, h6, h7, h8⟩ := inv.done a ha1
      have hne1 : dcs ≠ a.1 := fun e => hdn (e ▸ List.mem_map_of_mem Prod.fst ha1)
      have hne2 : i ≠ a.2 := fun e => hin (e ▸ List.mem_map_of_mem Prod.snd ha1)
      refine ⟨s2, d2, p2, h1, h2, h3, h4, h5, h6, ?_, ?_⟩
      · show (st.docks.set dcs _)[a.1]? = _
        rw [List.getElem?_set_ne hne1]
        exact h7
      · show (st.allShips.set i _)[a.2]? = _
        rw [List.getElem?_set_ne hne2]
        exact h8
    · simp only [List.mem_singleton] at ha1
      subst ha1
      refine ⟨s, d, p, ?_, ?_, hw, ?_, hcat, hp, ?_, ?_⟩
      · rw [← inv.ship_same i hin]; exact hs
      · rw [← inv.dock_same dcs hdn]; exact hd
      · rw [← inv.time]; exact hfree
      · show (st.docks.set dcs _)[dcs]? = _
        rw [List.getElem?_set_self hj, inv.time]
      · show (st.allShips.set i _)[i]? = _
        rw [List.getElem?_set_self hi, inv.time]

/-- Considering one ship keeps the invariant, with at most one more assignment,
which is then of that ship. -/
theorem AssignInv.consider {st0 st st1 : State} {log : List (Nat × Nat)}
    (inv : AssignInv st0 st log) (fuel : Nat) ( emergencyOnly : Bool) (i : Nat)
    (h : consider_ship fuel emergencyOnly i st = some st1) :
    (st1 = st ∧ AssignInv st0 st1 log) ∨
    (∃ dcs s, st.allShips[i]? = some s ∧ skip_ship emergencyOnly s = false ∧
      highest_fit st s dcs ∧ dock_ship fuel dcs i st = some st1 ∧
      AssignInv st0 st1 (log ++ [(dcs, i)])) := by
  rcases Option.eq_none_or_eq_some (st.allShips[i]?) with hs | ⟨s, hs⟩
  · simp [consider_ship, hs] at h
  · by_cases hskip : skip_ship emergencyOnly s = true
    · left
      simp only [consider_ship, hs, hskip, if_true, Option.some.injEq] at h
      subst h
      exact ⟨rfl, inv⟩
    · have hskip1 : skip_ship emergencyOnly s = false := by simpa using hskip
      rcases consider_ship_spec fuel emergencyOnly i st s hs hskip1 with
        ⟨_, h2⟩ | ⟨dcs, h1, h2⟩
      · left
        rw [h2] at h
        cases h
        exact ⟨rfl, inv⟩
      · right
        rw [h2] at h
        exact ⟨dcs, s, hs, hskip1, h1, h,
          inv.dock fuel dcs i s hs (skip_ship_false_waiting _ s hskip1) h1.1 h⟩

/-- A whole loop keeps the invariant and only appends to the log. -/
theorem AssignInv.pass (fuel : Nat) ( emergencyOnly : Bool) (st0 : State) :
    ∀ (l : List Nat) (st st1 : State) (log : List (Nat × Nat)), AssignInv st0 st log →
      assign_pass fuel emergencyOnly l st = some st1 →
      ∃ ext, AssignInv st0 st1 (log ++ ext) := by
  intro l
  induction l with
  | nil =>
    intro st st1 log inv h
    simp only [assign_pass, Option.some.injEq] at h
    subst h
    exact ⟨[], by simpa using inv⟩
  | cons i rest ih =>
    intro st st1 log inv h
    rw [assign_pass] at h
    cases hc : consider_ship fuel emergencyOnly i st with
    | none => simp [hc] at h
    | some st2 =>
      simp only [hc] at h
      rcases inv.consider fuel emergencyOnly i hc with ⟨_, inv2⟩ | ⟨dcs, s, _, _, _, _, inv2⟩
      · exact ih st2 st1 log inv2 h
      · obtain ⟨ext, inv3⟩ := ih st2 st1 _ inv2 h
        exact ⟨(dcs, i) :: ext, by simpa using inv3⟩

theorem AssignInv.greedy (fuel : Nat) (st st1 : State)
    (h : assign_ships_greedy fuel st = some st1) : ∃ log, AssignInv st st1 log := by
  unfold assign_ships_greedy at h
  cases hp : assign_pass fuel true (List.range st.numShips) st with
  | none => simp [hp] at h
  | some st2 =>
    simp only [hp] at h
    obtain ⟨ext, inv2⟩ := AssignInv.pass fuel true st _ st st2 [] (AssignInv.start st) hp
    obtain ⟨ext2, inv3⟩ := AssignInv.pass fuel false st _ st2 st1 _ inv2 h
    exact ⟨_, inv3⟩

/-! ## Soundness and choice of the allocation -/

theorem assign_pass_eq_foldlM (fuel : Nat) ( emergencyOnly : Bool) :
    ∀ (l : List Nat) (st : State),
      assign_pass fuel emergencyOnly l st =
        l.foldlM (fun acc k => consider_ship fuel emergencyOnly k acc) st := by
  intro l
  induction l with
  | nil => intro st; rfl
  | cons i rest ih =>
    intro st
    rw [assign_pass, List.foldlM_cons]
    cases consider_ship fuel emergencyOnly i st with
    | none => rfl
    | some st1 => exact ih st1

/-- C3: when a call of `assign_ships_greedy` returns, the assignments it made
(the pairs of dock index and ship index it appended to the log) name no dock
twice and no ship twice, and each pairs a ship with a dock of at least the
ship's category that was free at the current timestep; a dock and a ship are
untouched until their own assignment, so these are their values in the state
before the call.  The last part states the same at the moment of assignment:
whenever the loop body for a ship changes the state, it has appended one pair
whose dock, in the state just before, is free and of sufficient category. -/
theorem assign_ships_greedy_sound (fuel : Nat) (st st1 : State)
    (h : assign_ships_greedy fuel st = some st1) :
    (∃ log, st1.assigned = st.assigned ++ log ∧
      (log.map Prod.fst).Nodup ∧ (log.map Prod.snd).Nodup ∧
      ∀ a ∈ log, ∃ s d, st.allShips[a.2]? = some s ∧ st.docks[a.1]? = some d ∧
        d.category ≥ s.category ∧ d.dockFreeAt ≤ st.currentTimestep) ∧
    (∀ ( emergencyOnly : Bool) (i : Nat) (stm stm1 : State),
      consider_ship fuel emergencyOnly i stm = some stm1 →
      stm1 = stm ∨
      ∃ dcs s d, stm.allShips[i]? = some s ∧ stm.docks[dcs]? = some d ∧
        d.category ≥ s.category ∧ d.dockFreeAt ≤ stm.currentTimestep ∧
        stm1.assigned = stm.assigned ++ [(dcs, i)]) := by
  constructor
  · obtain ⟨log, inv⟩ := AssignInv.greedy fuel st st1 h
    refine ⟨log, inv.log_eq, inv.docks_nodup, inv.ships_nodup, ?_⟩
    intro a ha
    obtain ⟨s, d, p, h1, h2, _, h4, h5, _⟩ := inv.done a ha
    exact ⟨s, d, h1, h2, h5, h4⟩
  · intro emergencyOnly i stm stm1 hc
    rcases (AssignInv.start stm).consider fuel emergencyOnly i hc with
      ⟨e, _⟩ | ⟨dcs, s, hs, _, hfit, _, inv⟩
    · exact Or.inl e
    · obtain ⟨d, hd, hfree, hcat⟩ := hfit.1
      exact Or.inr ⟨dcs, s, d, hs, hd, hcat, hfree, by simpa using inv.log_eq⟩

theorem assign_ships_greedy_sound_witness :
    (∃ log, scenario_docked.assigned = scenario_state.assigned ++ log ∧
      (log.map Prod.fst).Nodup ∧ (log.map Prod.snd).Nodup ∧
      ∀ a ∈ log, ∃ s d, scenario_state.allShips[a.2]? = some s ∧
        scenario_state.docks[a.1]? = some d ∧
        d.category ≥ s.category ∧ d.dockFreeAt ≤ scenario_state.currentTimestep) ∧
    (∀ ( emergencyOnly : Bool) (i : Nat) (stm stm1 : State),
      consider_ship 5 emergencyOnly i stm = some stm1 →
      stm1 = stm ∨
      ∃ dcs s d, stm.allShips[i]? = some s ∧ stm.docks[dcs]? = some d ∧
        d.category ≥ s.category ∧ d.dockFreeAt ≤ stm.currentTimestep ∧
        stm1.assigned = stm.assigned ++ [(dcs, i)]) :=
  assign_ships_greedy_sound 5 scenario_state scenario_docked (by decide)

/-- C4: `assign_ships_greedy` considers the ships in roster order, index 0
first, in a pass over the emergency ships and then in a pass over all ships;
and when a ship that is not skipped is considered in state `st`, either no
dock is free and of sufficient category in `st` and the state, the ship with
it, stays as it is, or the ship is docked by `dock_ship` at the highest index
of a dock that is free and of sufficient category in `st`. -/
theorem assign_ships_greedy_roster_order_highest_dock (fuel : Nat) ( emergencyOnly : Bool)
    (i : Nat) (st : State) (s : Ship) (hs : st.allShips[i]? = some s)
    (hskip : skip_ship emergencyOnly s = false) :
    assign_ships_greedy fuel st =
      ((List.range st.numShips).foldlM (fun acc k => consider_ship fuel true k acc) st).bind
        (fun st1 =>
          (List.range st1.numShips).foldlM (fun acc k => consider_ship fuel false k acc) st1) ∧
    (((∀ j, ¬ fits_at st s j) ∧ consider_ship fuel emergencyOnly i st = some st) ∨
      (∃ dcs, highest_fit st s dcs ∧
        consider_ship fuel emergencyOnly i st = dock_ship fuel dcs i st)) := by
  refine ⟨?_, consider_ship_spec fuel emergencyOnly i st s hs hskip⟩
  unfold assign_ships_greedy
  rw [assign_pass_eq_foldlM]
  cases (List.range st.numShips).foldlM (fun acc k => consider_ship fuel true k acc) st with
  | none => rfl
  | some st1 => exact assign_pass_eq_foldlM fuel false _ st1

theorem assign_ships_greedy_roster_order_highest_dock_witness :
    assign_ships_greedy 5 harbour_state =
      ((List.range harbour_state.numShips).foldlM
          (fun acc k => consider_ship 5 true k acc) harbour_state).bind
        (fun st1 =>
          (List.range st1.numShips).foldlM (fun acc k => consider_ship 5 false k acc) st1) ∧
    (((∀ j, ¬ fits_at harbour_state urgent_ship j) ∧
        consider_ship 5 true 1 harbour_state = some harbour_state) ∨
      (∃ dcs, highest_fit harbour_state urgent_ship dcs ∧
        consider_ship 5 true 1 harbour_state = dock_ship 5 dcs 1 harbour_state)) :=
  assign_ships_greedy_roster_order_highest_dock 5 true 1 harbour_state urgent_ship (by decide)
    (by decide)

/-! ## Dock availability over time -/

theorem add_ships_docks (reqs : List ShipRequest) :
    ∀ st : State, (add_ships reqs st).docks = st.docks ∧
      (add_ships reqs st).currentTimestep = st.currentTimestep := by
  induction reqs with
  | nil => intro st; exact ⟨rfl, rfl⟩
  | cons r rest ih =>
    intro st
    exact ih (add_ship r st)

theorem undock_fold_frame (start_guessing : Int → Int → Int → List Char) (l : List Ship) :
    ∀ acc : State,
      (l.foldl (fun acc s => undock_ship start_guessing s acc) acc).docks = acc.docks ∧
      (l.foldl (fun acc s => undock_ship start_guessing s acc) acc).allShips = acc.allShips ∧
      (l.foldl (fun acc s => undock_ship start_guessing s acc) acc).currentTimestep =
        acc.currentTimestep ∧
      (l.foldl (fun acc s => undock_ship start_guessing s acc) acc).messageQueue =
        acc.messageQueue := by
  induction l with
  | nil => intro acc; exact ⟨rfl, rfl, rfl, rfl⟩
  | cons s rest ih =>
    intro acc
    rw [List.foldl_cons]
    obtain ⟨h1, h2, h3, h4⟩ := ih (undock_ship start_guessing s acc)
    rw [h1, h2, h3, h4]
    unfold undock_ship
    split <;> exact ⟨rfl, rfl, rfl, rfl⟩

theorem update_dock_status_frame (start_guessing : Int → Int → Int → List Char)
    (st : State) :
    (update_dock_status start_guessing st).docks = st.docks ∧
    (update_dock_status start_guessing st).allShips = st.allShips ∧
    (update_dock_status start_guessing st).currentTimestep = st.currentTimestep ∧
    (update_dock_status start_guessing st).messageQueue = st.messageQueue :=
  undock_fold_frame start_guessing st.allShips st

theorem docks_monotone_refl (l : List Dock) : docks_monotone l l := by
  refine ⟨rfl, ?_⟩
  intro j d d1 h h1
  rw [h] at h1
  cases h1
  exact le_refl _

theorem AssignInv.docks_monotone {st0 st : State} {log : List (Nat × Nat)}
    (inv : AssignInv st0 st log) : docks_monotone st0.docks st.docks := by
  refine ⟨inv.ndocks.symm, ?_⟩
  intro j d d1 h h1
  by_cases hj : j ∈ log.map Prod.fst
  · obtain ⟨a, ha, rfl⟩ := List.mem_map.mp hj
    obtain ⟨s2, d2, p, _, hd2, _, hfree, _, hp, hd3, _⟩ := inv.done a ha
    rw [h] at hd2
    rw [h1] at hd3
    cases hd2
    cases hd3
    simp only [dock_after]
    omega
  · rw [inv.dock_same j hj, h] at h1
    cases h1
    exact le_refl _

theorem scheduler_step_docks_monotone (fuel : Nat) (n : Int) (table : List ShipRequest)
    (st st1 : State) (h : scheduler_step fuel n table st = some st1) :
    docks_monotone st.docks st1.docks := by
  unfold scheduler_step at h
  obtain ⟨log, inv⟩ := AssignInv.greedy fuel _ st1 h
  have := inv.docks_monotone
  have e : (expire_ships (add_ships (List.take n.toNat table) st)).docks = st.docks :=
    (add_ships_docks _ st).1
  rw [e] at this
  exact this

/-- C9: over a controller step that returns, every dock keeps its index and
its `dockFreeAt` does not decrease; and the same holds for each of the three
parts of the step: `update_dock_status` and `flush_messages` leave the dock
table as it is, and `scheduler_step`, whenever it returns, leaves no dock with
a smaller `dockFreeAt`. -/
theorem dockFreeAt_never_decreases (fuel : Nat) (start_guessing : Int → Int → Int → List Char)
    (recvMsg : MessageStruct) (table : List ShipRequest) (st st1 : State)
    (h : controller_step fuel start_guessing recvMsg table st = some st1) :
    docks_monotone st.docks st1.docks ∧
    (∀ sta : State, (update_dock_status start_guessing sta).docks = sta.docks) ∧
    (∀ sta : State, (flush_messages sta).docks = sta.docks) ∧
    (∀ (n : Int) (sta stb : State), scheduler_step fuel n table sta = some stb →
      docks_monotone sta.docks stb.docks) := by
  refine ⟨?_, fun sta => (update_dock_status_frame start_guessing sta).1, fun _ => rfl,
    fun n sta stb hs => scheduler_step_docks_monotone fuel n table sta stb hs⟩
  unfold controller_step at h
  simp only at h
  split at h
  · rename_i st2 hs
    cases h
    have := scheduler_step_docks_monotone fuel _ table _ st2 hs
    rw [(update_dock_status_frame start_guessing _).1] at this
    exact this
  · cases h

theorem dockFreeAt_never_decreases_witness :
    docks_monotone scenario_state.docks
      { flush_messages scenario_docked with
        sent := (flush_messages scenario_docked).sent ++ [({ mtype := 5 } : MessageStruct)] }.docks ∧
    (∀ sta : State, (update_dock_status no_search sta).docks = sta.docks) ∧
    (∀ sta : State, (flush_messages sta).docks = sta.docks) ∧
    (∀ (n : Int) (sta stb : State), scheduler_step 5 n [] sta = some stb →
      docks_monotone sta.docks stb.docks) :=
  dockFreeAt_never_decreases 5 no_search { mtype := 1, timestep := 1 } [] scenario_state _
    (by decide)

/-! ## Wait-tolerance expiry -/

theorem add_ships_allShips (reqs : List ShipRequest) :
    ∀ st : State, (add_ships reqs st).allShips = st.allShips ++ reqs.map new_ship := by
  induction reqs with
  | nil => intro st; simp [add_ships]
  | cons r rest ih =>
    intro st
    show (add_ships rest (add_ship r st)).allShips = _
    rw [ih]
    simp [add_ship]

theorem add_ships_getElem? (reqs : List ShipRequest) (st : State) (i : Nat) (s : Ship)
    (hs : st.allShips[i]? = some s) : (add_ships reqs st).allShips[i]? = some s := by
  rw [add_ships_allShips, List.getElem?_append_left (List.getElem?_eq_some_iff.mp hs).1]
  exact hs

theorem expire_ships_getElem? (st : State) (i : Nat) (s : Ship)
    (hs : st.allShips[i]? = some s) :
    (expire_ships st).allShips[i]? = some (expire_ship st.currentTimestep s) := by
  simp [expire_ships, List.getElem?_map, hs]

theorem expire_ship_inactive (t : Int) (s : Ship) (h : s.active = 0) : expire_ship t s = s := by
  simp [expire_ship, h]

/-- An inactive ship is not touched by a call of `assign_ships_greedy`. -/
theorem assign_ships_greedy_inactive (fuel : Nat) (st st1 : State) (i : Nat) (s : Ship)
    (hs : st.allShips[i]? = some s) (hin : s.active = 0)
    (h : assign_ships_greedy fuel st = some st1) : st1.allShips[i]? = some s := by
  obtain ⟨log, inv⟩ := AssignInv.greedy fuel st st1 h
  have hnot : i ∉ log.map Prod.snd := by
    intro hmem
    obtain ⟨a, ha, rfl⟩ := List.mem_map.mp hmem
    obtain ⟨s2, _, _, hs2, _, hw, _⟩ := inv.done a ha
    rw [hs] at hs2
    cases hs2
    exact hw.1 hin
  rw [inv.ship_same i hnot]
  exact hs

theorem scheduler_step_inactive (fuel : Nat) (n : Int) (table : List ShipRequest)
    (st st1 : State) (i : Nat) (s : Ship) (hs : st.allShips[i]? = some s) (hin : s.active = 0)
    (h : scheduler_step fuel n table st = some st1) : st1.allShips[i]? = some s := by
  unfold scheduler_step at h
  refine assign_ships_greedy_inactive fuel _ st1 i s ?_ hin h
  rw [expire_ships_getElem? _ i s (add_ships_getElem? _ st i s hs), expire_ship_inactive _ s hin]

theorem controller_step_inactive (fuel : Nat) (start_guessing : Int → Int → Int → List Char)
    (recvMsg : MessageStruct) (table : List ShipRequest) (st st1 : State) (i : Nat) (s : Ship)
    (hs : st.allShips[i]? = some s) (hin : s.active = 0)
    (h : controller_step fuel start_guessing recvMsg table st = some st1) :
    st1.allShips[i]? = some s := by
  unfold controller_step at h
  simp only at h
  split at h
  · rename_i st2 hstep
    cases h
    refine scheduler_step_inactive fuel _ table _ st2 i s ?_ hin hstep
    rw [(update_dock_status_frame start_guessing _).2.1]
    exact hs
  · cases h

theorem run_inactive (fuel : Nat) (start_guessing : Int → Int → Int → List Char) :
    ∀ (inputs : List (MessageStruct × List ShipRequest)) (st st1 : State) (i : Nat) (s : Ship),
      st.allShips[i]? = some s → s.active = 0 → run fuel start_guessing inputs st = some st1 →
      st1.allShips[i]? = some s := by
  intro inputs
  induction inputs with
  | nil =>
    intro st st1 i s hs _ h
    simp only [run, Option.some.injEq] at h
    subst h
    exact hs
  | cons x rest ih =>
    intro st st1 i s hs hin h
    obtain ⟨recvMsg, table⟩ := x
    rw [run] at h
    split at h
    · cases h
      exact hs
    · split at h
      · rename_i st2 hstep
        exact ih st2 st1 i s
          (controller_step_inactive fuel start_guessing recvMsg table st st2 i s hs hin hstep)
          hin h
      · cases h

theorem allocation_input_getElem? (start_guessing : Int → Int → Int → List Char)
    (recvMsg : MessageStruct) (table : List ShipRequest) (st : State) (k : Nat) (s : Ship)
    (hs : st.allShips[k]? = some s) :
    (allocation_input start_guessing recvMsg table st).allShips[k]? =
      some (expire_ship recvMsg.timestep s) := by
  unfold allocation_input
  have h0 : (update_dock_status start_guessing
      { st with currentTimestep := recvMsg.timestep }).allShips[k]? = some s := by
    rw [(update_dock_status_frame start_guessing _).2.1]
    exact hs
  rw [expire_ships_getElem? _ k s (add_ships_getElem? _ _ k s h0), (add_ships_docks _ _).2,
    (update_dock_status_frame start_guessing _).2.2.1]

/-- C6: let ship `i` be waiting (active and undocked), not an emergency and
inbound, and let the controller step run at a timestep beyond its arrival plus
wait tolerance.  Then in the state that `scheduler_step` hands to
`assign_ships_greedy` (after its expiry loop) the ship is already inactive; and when the step returns,
and after every further run of controller steps, the ship is still the same
record with `active = 0`, so inactive and undocked, never assigned a dock. -/
theorem wait_tolerance_expiry (fuel : Nat) (start_guessing : Int → Int → Int → List Char)
    (recvMsg : MessageStruct) (table : List ShipRequest) (st : State) (i : Nat) (s : Ship)
    (hs : st.allShips[i]? = some s) (hw : waiting s) (hem : s.emergency = 0)
    (hdir : s.direction = 1) (ht : recvMsg.timestep > s.arrival + s.waitingTime) :
    ({ s with active := 0 } : Ship).active = 0 ∧
    ({ s with active := 0 } : Ship).docked = 0 ∧
    (allocation_input start_guessing recvMsg table st).allShips[i]? =
      some { s with active := 0 } ∧
    ∀ st1, controller_step fuel start_guessing recvMsg table st = some st1 →
      st1.allShips[i]? = some { s with active := 0 } ∧
      ∀ inputs st2, run fuel start_guessing inputs st1 = some st2 →
        st2.allShips[i]? = some { s with active := 0 } := by
  have hexp : (allocation_input start_guessing recvMsg table st).allShips[i]? =
      some { s with active := 0 } := by
    rw [allocation_input_getElem? start_guessing recvMsg table st i s hs]
    simp [expire_ship, hw.1, hw.2, hem, hdir, ht]
  refine ⟨rfl, hw.2, hexp, ?_⟩
  intro st1 h1
  have hst1 : st1.allShips[i]? = some { s with active := 0 } := by
    unfold controller_step at h1
    simp only at h1
    split at h1
    · rename_i st2 hstep
      cases h1
      unfold scheduler_step at hstep
      exact assign_ships_greedy_inactive fuel _ st2 i _ hexp rfl hstep
    · cases h1
  refine ⟨hst1, ?_⟩
  intro inputs st2 h2
  exact run_inactive fuel start_guessing inputs st1 st2 i _ hst1 rfl h2

theorem wait_tolerance_expiry_witness :
    ({ waiting_ship with active := 0 } : Ship).active = 0 ∧
    ({ waiting_ship with active := 0 } : Ship).docked = 0 ∧
    (allocation_input no_search { mtype := 1, timestep := 10 } [] harbour_state).allShips[0]? =
      some { waiting_ship with active := 0 } ∧
    ∀ st1, controller_step 5 no_search { mtype := 1, timestep := 10 } [] harbour_state
        = some st1 →
      st1.allShips[0]? = some { waiting_ship with active := 0 } ∧
      ∀ inputs st2, run 5 no_search inputs st1 = some st2 →
        st2.allShips[0]? = some { waiting_ship with active := 0 } :=
  wait_tolerance_expiry 5 no_search { mtype := 1, timestep := 10 } [] harbour_state 0
    waiting_ship (by decide) (by decide) (by decide) (by decide) (by decide)

/-! ## Occupancy intervals -/

theorem nodup_map_index_inj {α β : Type} (f : α → β) (l : List α) (h : (l.map f).Nodup)
    (m n : Nat) (d e : α) (hm : l[m]? = some d) (hn : l[n]? = some e) (hf : f d = f e) :
    m = n := by
  have hm1 : (l.map f)[m]? = some (f d) := by rw [List.getElem?_map, hm]; rfl
  have hn1 : (l.map f)[n]? = some (f e) := by rw [List.getElem?_map, hn]; rfl
  obtain ⟨hml, hme⟩ := List.getElem?_eq_some_iff.mp hm1
  obtain ⟨hnl, hne⟩ := List.getElem?_eq_some_iff.mp hn1
  exact (List.Nodup.getElem_inj_iff h).mp (by rw [hme, hne, hf])

theorem getElem?_set_cases {α : Type} (l : List α) (i k : Nat) (a b : α)
    (h : (l.set i a)[k]? = some b) : (k = i ∧ b = a) ∨ (k ≠ i ∧ l[k]? = some b) := by
  by_cases e : i = k
  · subst e
    left
    have hlt : i < l.length := by
      have := (List.getElem?_eq_some_iff.mp h).1
      simpa using this
    rw [List.getElem?_set_self hlt] at h
    cases h
    exact ⟨rfl, rfl⟩
  · right
    rw [List.getElem?_set_ne e] at h
    exact ⟨fun e1 => e e1.symm, h⟩

/-- Docking a waiting ship at a dock that is free keeps the bookkeeping. -/
theorem occupancy_ok_dock_ship (fuel dcs i : Nat) (st st1 : State) (s : Ship)
    (hok : occupancy_ok st.docks st.allShips) (hs : st.allShips[i]? = some s)
    (hfit : fits_at st s dcs) (h : dock_ship fuel dcs i st = some st1) :
    occupancy_ok st1.docks st1.allShips := by
  obtain ⟨s1, d, p, q1, hs1, hd, _, hp, rfl⟩ := dock_ship_some fuel dcs i st st1 h
  rw [hs] at hs1
  cases hs1
  obtain ⟨d1, hd1, hfree, _⟩ := hfit
  rw [hd] at hd1
  cases hd1
  obtain ⟨hinj, hbusy, hdisj⟩ := hok
  -- a dock of the new table is a dock of the old one with the same id
  have hdock : ∀ (m : Nat) (e : Dock),
      (st.docks.set dcs (dock_after d st.currentTimestep p))[m]? = some e →
      ∃ e0, st.docks[m]? = some e0 ∧ e0.dockId = e.dockId ∧
        (m = dcs → e = dock_after d st.currentTimestep p) ∧ (m ≠ dcs → e = e0) := by
    intro m e he
    rcases getElem?_set_cases _ _ _ _ _ he with ⟨rfl, rfl⟩ | ⟨hne, he0⟩
    · exact ⟨d, hd, rfl, fun _ => rfl, fun hne => absurd rfl hne⟩
    · exact ⟨e, he0, rfl, fun e1 => absurd e1 hne, fun _ => rfl⟩
  -- an old docked ship at this dock has left before the current timestep
  have hleft : ∀ (k : Nat) (sk : Ship), st.allShips[k]? = some sk → sk.docked ≠ 0 →
      sk.dockId = d.dockId → sk.undockTime < st.currentTimestep := by
    intro k sk hk hdk hid
    have := (hbusy k sk hk hdk).2 dcs d hd hid.symm
    omega
  refine ⟨?_, ?_, ?_⟩
  · intro m n e1 e2 h1 h2 hid
    obtain ⟨a1, ha1, hida1, _⟩ := hdock m e1 h1
    obtain ⟨a2, ha2, hida2, _⟩ := hdock n e2 h2
    exact hinj m n a1 a2 ha1 ha2 (by rw [hida1, hida2, hid])
  · intro k sk hk hdk
    rcases getElem?_set_cases _ _ _ _ _ hk with ⟨rfl, rfl⟩ | ⟨hne, hk0⟩
    · refine ⟨by simp only [ship_after]; omega, ?_⟩
      intro m e he hid
      obtain ⟨e0, he0, hide0, hsame, _⟩ := hdock m e he
      have hm : m = dcs := hinj m dcs e0 d he0 hd (by rw [hide0, hid]; rfl)
      rw [hsame hm]
      simp only [ship_after, dock_after]
      omega
    · obtain ⟨hlt, hall⟩ := hbusy k sk hk0 hdk
      refine ⟨hlt, ?_⟩
      intro m e he hid
      obtain ⟨e0, he0, hide0, hsame, hother⟩ := hdock m e he
      by_cases hm : m = dcs
      · rw [hsame hm]
        subst hm
        rw [hd] at he0
        cases he0
        have := hleft k sk hk0 hdk (by rw [← hid, ← hide0])
        simp only [dock_after]
        omega
      · rw [hother hm]
        exact hall m e0 he0 (by rw [hide0, hid])
  · intro a b sa sb hab ha hb hda hdb hid
    rcases getElem?_set_cases _ _ _ _ _ ha with ⟨rfl, rfl⟩ | ⟨hnea, ha0⟩
    · rcases getElem?_set_cases _ _ _ _ _ hb with ⟨rfl, _⟩ | ⟨_, hb0⟩
      · exact absurd rfl hab
      · right
        exact hleft b sb hb0 hdb hid.symm
    · rcases getElem?_set_cases _ _ _ _ _ hb with ⟨rfl, rfl⟩ | ⟨_, hb0⟩
      · left
        exact hleft a sa ha0 hda hid
      · exact hdisj a b sa sb hab ha0 hb0 hda hdb hid

theorem occupancy_ok_consider (fuel : Nat) ( emergencyOnly : Bool) (i : Nat) (st st1 : State)
    (hok : occupancy_ok st.docks st.allShips)
    (h : consider_ship fuel emergencyOnly i st = some st1) :
    occupancy_ok st1.docks st1.allShips := by
  rcases (AssignInv.start st).consider fuel emergencyOnly i h with
    ⟨rfl, _⟩ | ⟨dcs, s, hs, _, hfit, hdock, _⟩
  · exact hok
  · exact occupancy_ok_dock_ship fuel dcs i st st1 s hok hs hfit.1 hdock

theorem occupancy_ok_pass (fuel : Nat) ( emergencyOnly : Bool) :
    ∀ (l : List Nat) (st st1 : State), occupancy_ok st.docks st.allShips →
      assign_pass fuel emergencyOnly l st = some st1 → occupancy_ok st1.docks st1.allShips := by
  intro l
  induction l with
  | nil =>
    intro st st1 hok h
    simp only [assign_pass, Option.some.injEq] at h
    subst h
    exact hok
  | cons i rest ih =>
    intro st st1 hok h
    rw [assign_pass] at h
    split at h
    · rename_i st2 hc
      exact ih st2 st1 (occupancy_ok_consider fuel emergencyOnly i st st2 hok hc) h
    · cases h

theorem occupancy_ok_greedy (fuel : Nat) (st st1 : State)
    (hok : occupancy_ok st.docks st.allShips) (h : assign_ships_greedy fuel st = some st1) :
    occupancy_ok st1.docks st1.allShips := by
  unfold assign_ships_greedy at h
  split at h
  · rename_i st2 hp
    exact occupancy_ok_pass fuel false _ st2 st1 (occupancy_ok_pass fuel true _ st st2 hok hp) h
  · cases h

/-- Ships that differ from the old ones only in `active`, followed by ships
that are not docked, keep the bookkeeping. -/
theorem occupancy_ok_of_ships (docks : List Dock) (ships ships1 : List Ship)
    (hok : occupancy_ok docks ships)
    (hrel : ∀ (k : Nat) (s1 : Ship), ships1[k]? = some s1 → s1.docked ≠ 0 →
      ∃ s, ships[k]? = some s ∧ s.docked = s1.docked ∧ s.dockId = s1.dockId ∧
        s.dockTime = s1.dockTime ∧ s.undockTime = s1.undockTime) :
    occupancy_ok docks ships1 := by
  obtain ⟨hinj, hbusy, hdisj⟩ := hok
  refine ⟨hinj, ?_, ?_⟩
  · intro k s1 hk hdk
    obtain ⟨s, hs, e1, e2, e3, e4⟩ := hrel k s1 hk hdk
    have := hbusy k s hs (by rw [e1]; exact hdk)
    rw [e2, e3, e4] at this
    exact this
  · intro a b sa sb hab ha hb hda hdb hid
    obtain ⟨sa0, hsa, a1, a2, a3, a4⟩ := hrel a sa ha hda
    obtain ⟨sb0, hsb, b1, b2, b3, b4⟩ := hrel b sb hb hdb
    have := hdisj a b sa0 sb0 hab hsa hsb (by rw [a1]; exact hda) (by rw [b1]; exact hdb)
      (by rw [a2, b2]; exact hid)
    rw [a3, a4, b3, b4] at this
    exact this

theorem expire_ship_fields (t : Int) (s : Ship) :
    (expire_ship t s).docked = s.docked ∧ (expire_ship t s).dockId = s.dockId ∧
    (expire_ship t s).dockTime = s.dockTime ∧ (expire_ship t s).undockTime = s.undockTime := by
  unfold expire_ship
  split <;> exact ⟨rfl, rfl, rfl, rfl⟩

theorem new_ship_docked (req : ShipRequest) : (new_ship req).docked = 0 := rfl

theorem occupancy_ok_scheduler_step (fuel : Nat) (n : Int) (table : List ShipRequest)
    (st st1 : State) (hok : occupancy_ok st.docks st.allShips)
    (h : scheduler_step fuel n table st = some st1) : occupancy_ok st1.docks st1.allShips := by
  unfold scheduler_step at h
  refine occupancy_ok_greedy fuel _ st1 ?_ h
  have hd : (expire_ships (add_ships (List.take n.toNat table) st)).docks = st.docks :=
    (add_ships_docks _ st).1
  rw [hd]
  apply occupancy_ok_of_ships st.docks st.allShips _ hok
  intro k s1 hk hdk
  simp only [expire_ships, List.getElem?_map, add_ships_allShips] at hk
  rcases Option.map_eq_some'.mp hk with ⟨s0, hs0, rfl⟩
  obtain ⟨e1, e2, e3, e4⟩ := expire_ship_fields
    (add_ships (List.take n.toNat table) st).currentTimestep s0
  rw [e1] at hdk
  by_cases hlt : k < st.allShips.length
  · rw [List.getElem?_append_left hlt] at hs0
    exact ⟨s0, hs0, e1.symm, e2.symm, e3.symm, e4.symm⟩
  · rw [List.getElem?_append_right (not_lt.mp hlt), List.getElem?_map] at hs0
    rcases Option.map_eq_some'.mp hs0 with ⟨r, _, rfl⟩
    exact absurd (new_ship_docked r) hdk

theorem occupancy_ok_controller_step (fuel : Nat)
    (start_guessing : Int → Int → Int → List Char) (recvMsg : MessageStruct)
    (table : List ShipRequest) (st st1 : State) (hok : occupancy_ok st.docks st.allShips)
    (h : controller_step fuel start_guessing recvMsg table st = some st1) :
    occupancy_ok st1.docks st1.allShips := by
  unfold controller_step at h
  simp only at h
  split at h
  · rename_i st2 hstep
    cases h
    refine occupancy_ok_scheduler_step fuel _ table _ st2 ?_ hstep
    rw [(update_dock_status_frame start_guessing _).1,
      (update_dock_status_frame start_guessing _).2.1]
    exact hok
  · cases h

theorem occupancy_ok_initial (st : State) (h : Initial st) :
    occupancy_ok st.docks st.allShips := by
  obtain ⟨hships, _, _, hnd⟩ := h
  rw [hships]
  refine ⟨fun m n d e hm hn hid => nodup_map_index_inj Dock.dockId st.docks hnd m n d e hm hn hid,
    ?_, ?_⟩
  · intro k s hk
    simp at hk
  · intro i j si sj _ hi
    simp at hi

theorem occupancy_ok_reachable (st : State) (h : Reachable st) :
    occupancy_ok st.docks st.allShips := by
  induction h with
  | init st hi => exact occupancy_ok_initial st hi
  | step fuel sg recvMsg table st st1 _ hstep ih =>
    exact occupancy_ok_controller_step fuel sg recvMsg table st st1 ih hstep

/-! ## Start-up establishes an initial state -/

theorem read_docks_dockId (config : List (Int × List Int)) :
    ∀ i : Nat, (read_docks i config).map Dock.dockId =
      (List.range' i config.length).map (fun k : Nat => (k : Int)) := by
  induction config with
  | nil => intro i; rfl
  | cons c rest ih =>
    intro i
    obtain ⟨category, capacities⟩ := c
    simp only [read_docks, List.map_cons, List.length_cons, List.range'_succ, ih (i + 1)]

theorem read_docks_dockFreeAt (config : List (Int × List Int)) :
    ∀ i : Nat, ∀ d ∈ read_docks i config, d.dockFreeAt = 1 := by
  induction config with
  | nil => intro i d hd; simp [read_docks] at hd
  | cons c rest ih =>
    intro i d hd
    obtain ⟨category, capacities⟩ := c
    simp only [read_docks, List.mem_cons] at hd
    rcases hd with rfl | hd
    · rfl
    · exact ih (i + 1) d hd

theorem read_input_initial (numSolvers : Int) (config : List (Int × List Int)) :
    Initial (read_input numSolvers config) := by
  refine ⟨rfl, rfl, ?_, ?_⟩
  · intro d hd
    have hd1 := (List.perm_insertionSort _ _).subset hd
    obtain ⟨d0, hd0, rfl⟩ := List.mem_map.mp hd1
    exact read_docks_dockFreeAt config 0 d0 hd0
  · have hperm : ((read_input numSolvers config).docks.map Dock.dockId).Perm
        ((read_docks 0 config).map Dock.dockId) := by
      have h1 := (List.perm_insertionSort (fun a b : Dock => a.category ≥ b.category)
        ((read_docks 0 config).map (fun d =>
          { d with cranes := d.cranes.insertionSort (fun a b => a.capacity ≥ b.capacity) }))).map
        Dock.dockId
      have h2 : ((read_docks 0 config).map (fun d =>
          { d with cranes := d.cranes.insertionSort (fun a b => a.capacity ≥ b.capacity) })).map
          Dock.dockId = (read_docks 0 config).map Dock.dockId := by
        rw [List.map_map]
        rfl
      rw [h2] at h1
      exact h1
    rw [hperm.nodup_iff, read_docks_dockId]
    exact (List.nodup_range' 0 _).map (fun a b h => by exact_mod_cast h)

theorem run_reachable (fuel : Nat) (start_guessing : Int → Int → Int → List Char) :
    ∀ (inputs : List (MessageStruct × List ShipRequest)) (st st1 : State),
      Reachable st → run fuel start_guessing inputs st = some st1 → Reachable st1 := by
  intro inputs
  induction inputs with
  | nil =>
    intro st st1 hr h
    simp only [run, Option.some.injEq] at h
    subst h
    exact hr
  | cons x rest ih =>
    intro st st1 hr h
    obtain ⟨recvMsg, table⟩ := x
    rw [run] at h
    split at h
    · cases h
      exact hr
    · split at h
      · rename_i st2 hstep
        exact ih st2 st1 (Reachable.step fuel start_guessing recvMsg table st st2 hr hstep) h
      · cases h

/-- C10: in every state reachable from an initial state by controller steps,
two distinct ships of the roster that are docked and carry the same dock id
(dock ids are distinct, so they were docked at the same dock) each have
`dockTime < undockTime`, their intervals from `dockTime` to `undockTime` are
disjoint, and the ship docked later, the one with the greater `dockTime`, has
a `dockTime` strictly greater than the `undockTime` of the other. -/
theorem occupancy_intervals_disjoint (st : State) (hr : Reachable st) (i j : Nat)
    (si sj : Ship) (hij : i ≠ j) (hi : st.allShips[i]? = some si)
    (hj : st.allShips[j]? = some sj) (hdi : si.docked ≠ 0) (hdj : sj.docked ≠ 0)
    (hsame : si.dockId = sj.dockId) :
    si.dockTime < si.undockTime ∧ sj.dockTime < sj.undockTime ∧
    (si.undockTime < sj.dockTime ∨ sj.undockTime < si.dockTime) ∧
    (si.dockTime ≤ sj.dockTime → si.undockTime < sj.dockTime) := by
  obtain ⟨_, hbusy, hdisj⟩ := occupancy_ok_reachable st hr
  have h1 := (hbusy i si hi hdi).1
  have h2 := (hbusy j sj hj hdj).1
  have h3 := hdisj i j si sj hij hi hj hdi hdj hsame
  refine ⟨h1, h2, h3, ?_⟩
  intro hle
  rcases h3 with h | h
  · exact h
  · omega

theorem occupancy_intervals_disjoint_witness :
    two_arrivals_state.allShips.map (fun s => (s.docked, s.dockId, s.dockTime, s.undockTime)) =
      [(1, 0, 1, 3), (1, 0, 4, 7)] ∧
    (1 : Int) < 3 ∧ (4 : Int) < 7 ∧ ((3 : Int) < 4 ∨ (7 : Int) < 1) ∧
    ((1 : Int) ≤ 4 → (3 : Int) < 4) :=
  ⟨by decide,
    occupancy_intervals_disjoint two_arrivals_state
      (run_reachable 3 no_search two_arrivals one_dock_start two_arrivals_state
        (Reachable.init _ (read_input_initial 2 [(1, [10])])) (by decide))
      0 1
      { active := 1, shipId := 1, direction := 1, category := 1, emergency := 0, arrival := 1,
        waitingTime := 3, cargo := [⟨4, 0⟩], docked := 1, dockId := 0, dockTime := 1,
        undockTime := 3 }
      { active := 1, shipId := 2, direction := -1, category := 1, emergency := 0, arrival := 4,
        waitingTime := 3, cargo := [⟨6, 1⟩, ⟨5, 0⟩], docked := 1, dockId := 0, dockTime := 4,
        undockTime := 7 }
      (by decide) (by decide) (by decide) (by decide) (by decide) (by decide)⟩

/-! ## An emergency ship and an ordinary ship at a single free dock -/

theorem add_ships_eq (reqs : List ShipRequest) :
    ∀ st : State, add_ships reqs st = { st with allShips := st.allShips ++ reqs.map new_ship } := by
  induction reqs with
  | nil => intro st; simp [add_ships]
  | cons r rest ih =>
    intro st
    show add_ships rest (add_ship r st) = _
    rw [ih]
    simp [add_ship]

theorem expire_ship_not_waiting (t : Int) (s : Ship) (h : ¬ waiting s) : expire_ship t s = s := by
  unfold expire_ship
  rw [if_neg]
  rintro ⟨h1, h2, _⟩
  exact h ⟨h1, h2⟩

theorem expire_ship_emergency (t : Int) (s : Ship) (h : s.emergency ≠ 0) :
    expire_ship t s = s := by
  unfold expire_ship
  rw [if_neg]
  rintro ⟨_, _, h3, _⟩
  exact h h3

theorem expire_ship_in_time (t : Int) (s : Ship)
    (h : ¬ (s.direction = 1 ∧ t > s.arrival + s.waitingTime)) : expire_ship t s = s := by
  unfold expire_ship
  rw [if_neg]
  rintro ⟨_, _, _, h4, h5⟩
  exact h ⟨h4, h5⟩

theorem skip_ship_of_not_waiting ( emergencyOnly : Bool) (s : Ship) (h : ¬ waiting s) :
    skip_ship emergencyOnly s = true := by
  by_contra hne
  exact h (skip_ship_false_waiting emergencyOnly s (by simpa using hne))

theorem skip_ship_false_of_waiting (s : Ship) (h : waiting s) : skip_ship false s = false := by
  unfold skip_ship
  simp [h.1, h.2]

/-- A loop over ships that are skipped or find no dock leaves the state as it is. -/
theorem assign_pass_noop (fuel : Nat) ( emergencyOnly : Bool) (st : State) :
    ∀ l : List Nat,
      (∀ k ∈ l, ∃ s, st.allShips[k]? = some s ∧
        (skip_ship emergencyOnly s = true ∨ ∀ m, ¬ fits_at st s m)) →
      assign_pass fuel emergencyOnly l st = some st := by
  intro l
  induction l with
  | nil => intro _; rfl
  | cons k rest ih =>
    intro h
    obtain ⟨s, hs, hcase⟩ := h k (List.mem_cons_self _ _)
    have hc : consider_ship fuel emergencyOnly k st = some st := by
      by_cases hskip : skip_ship emergencyOnly s = true
      · simp [consider_ship, hs, hskip]
      · have hskip1 : skip_ship emergencyOnly s = false := by simpa using hskip
        have hno : ∀ m, ¬ fits_at st s m := by
          rcases hcase with h1 | h1
          · exact absurd h1 hskip
          · exact h1
        rcases consider_ship_spec fuel emergencyOnly k st s hs hskip1 with
          ⟨_, h2⟩ | ⟨dcs, h1, _⟩
        · exact h2
        · exact absurd h1.1 (hno dcs)
    rw [assign_pass, hc]
    exact ih (fun k1 hk1 => h k1 (List.mem_cons_of_mem _ hk1))

/-- A loop in which exactly one ship is not skipped, and that ship is docked. -/
theorem assign_pass_single (fuel : Nat) ( emergencyOnly : Bool) (i dcs : Nat) (s : Ship)
    (st1 : State) :
    ∀ (l : List Nat) (st : State), l.Nodup → i ∈ l → st.allShips[i]? = some s →
      skip_ship emergencyOnly s = false → highest_fit st s dcs →
      dock_ship fuel dcs i st = some st1 →
      (∀ k ∈ l, k ≠ i → ∃ sk, st.allShips[k]? = some sk ∧ skip_ship emergencyOnly sk = true) →
      assign_pass fuel emergencyOnly l st = some st1 := by
  intro l
  induction l with
  | nil => intro st _ hi; simp at hi
  | cons k rest ih =>
    intro st hnd hi hs hskip hfit hdock hothers
    obtain ⟨hk, hnd1⟩ := List.nodup_cons.mp hnd
    by_cases hki : k = i
    · subst hki
      have hc : consider_ship fuel emergencyOnly k st = some st1 := by
        rcases consider_ship_spec fuel emergencyOnly k st s hs hskip with
          ⟨h1, _⟩ | ⟨dcs1, h1, h2⟩
        · exact absurd hfit.1 (h1 dcs)
        · have hd : dcs1 = dcs := by
            by_contra hne
            rcases Nat.lt_or_gt_of_ne hne with hlt | hgt
            · exact h1.2 dcs hlt hfit.1
            · exact hfit.2 dcs1 hgt h1.1
          rw [h2, hd]
          exact hdock
      rw [assign_pass, hc]
      apply assign_pass_noop
      intro k1 hk1
      have hne : k1 ≠ k := fun e => hk (e ▸ hk1)
      obtain ⟨sk, hsk, hskipk⟩ := hothers k1 (List.mem_cons_of_mem _ hk1) hne
      obtain ⟨s1, d, p, q1, _, _, _, _, rfl⟩ := dock_ship_some fuel dcs k st st1 hdock
      refine ⟨sk, ?_, Or.inl hskipk⟩
      show (st.allShips.set k _)[k1]? = _
      rw [List.getElem?_set_ne (Ne.symm hne)]
      exact hsk
    · obtain ⟨sk, hsk, hskipk⟩ := hothers k (List.mem_cons_self _ _) hki
      have hc : consider_ship fuel emergencyOnly k st = some st := by
        simp [consider_ship, hsk, hskipk]
      rw [assign_pass, hc]
      have hi1 : i ∈ rest := by
        rcases List.mem_cons.mp hi with e | h1
        · exact absurd e.symm hki
        · exact h1
      exact ih st hnd1 hi1 hs hskip hfit hdock
        (fun k1 hk1 hne => hothers k1 (List.mem_cons_of_mem _ hk1) hne)

/-- The state handed to the allocation when no ship of the roster expires. -/
theorem scheduler_step_input_eq (n : Int) (table : List ShipRequest) (st : State)
    (hkeep : ∀ (k : Nat) (s : Ship), (roster_with st n table)[k]? = some s →
      expire_ship st.currentTimestep s = s) :
    expire_ships (add_ships (table.take n.toNat) st) =
      { st with allShips := roster_with st n table } := by
  rw [add_ships_eq]
  unfold expire_ships roster_with
  simp only
  congr 1
  apply List.ext_getElem?
  intro k
  rw [List.getElem?_map]
  unfold roster_with at hkeep
  rcases Option.eq_none_or_eq_some
    ((st.allShips ++ List.map new_ship (List.take n.toNat table))[k]?) with h | ⟨s, h⟩
  · rw [h]
    rfl
  · rw [h, Option.map_some', hkeep k s h]

/-- C5, amended: let the roster, once the arriving ships are added, hold
exactly two waiting ships, an emergency ship at index `i` and an ordinary ship
at index `j`, in either order; let dock `dcs` be free and of sufficient
category for both and the only dock that fits either; let `process_ship` return
for the emergency ship at that dock, and let the wait tolerance of the ordinary
ship not have elapsed at the current timestep `t`.  Then `scheduler_step`
returns, the emergency ship is docked at that dock, and the ordinary ship stays
as it was, active and undocked.  At the next timestep the allocation gets the
ordinary ship after the expiry test of `t + 1`: it is then still waiting, and
not skipped by the second loop, if its tolerance has not elapsed at `t + 1`. -/
theorem emergency_ship_takes_single_dock (fuel : Nat) (n : Int) (table : List ShipRequest)
    (st : State) (i j dcs : Nat) (e o : Ship) (d : Dock) (p : Int)
    (q1 : List ScheduledMessage) (hij : i ≠ j)
    (he : (roster_with st n table)[i]? = some e) (ho : (roster_with st n table)[j]? = some o)
    (hwe : waiting e) (hee : e.emergency ≠ 0) (hwo : waiting o) (hoe : o.emergency = 0)
    (hothers : ∀ (k : Nat) (s : Ship), k ≠ i → k ≠ j → (roster_with st n table)[k]? = some s →
      ¬ waiting s)
    (hd : st.docks[dcs]? = some d) (hfree : d.dockFreeAt ≤ st.currentTimestep)
    (hce : d.category ≥ e.category) (_hco : d.category ≥ o.category)
    (honly : ∀ m, m ≠ dcs → ¬ fits_at st e m ∧ ¬ fits_at st o m)
    (hp : process_ship fuel e d 0 st.currentTimestep st.messageQueue = some (p, q1))
    (hkeep : ¬ (o.direction = 1 ∧ st.currentTimestep > o.arrival + o.waitingTime)) :
    ∃ st1, scheduler_step fuel n table st = some st1 ∧
      st1.allShips[i]? = some (ship_after e d st.currentTimestep p) ∧
      st1.docks[dcs]? = some (dock_after d st.currentTimestep p) ∧
      st1.allShips[j]? = some o ∧
      (∀ (start_guessing : Int → Int → Int → List Char) (recvMsg : MessageStruct)
        (table1 : List ShipRequest), recvMsg.timestep = st.currentTimestep + 1 →
        (allocation_input start_guessing recvMsg table1 (finish_step st1)).allShips[j]? =
          some (expire_ship (st.currentTimestep + 1) o)) ∧
      (¬ (o.direction = 1 ∧ st.currentTimestep + 1 > o.arrival + o.waitingTime) →
        waiting (expire_ship (st.currentTimestep + 1) o) ∧
        skip_ship false (expire_ship (st.currentTimestep + 1) o) = false) := by
  have hinput : expire_ships (add_ships (table.take n.toNat) st) =
      { st with allShips := roster_with st n table } := by
    apply scheduler_step_input_eq
    intro k s hk
    by_cases hki : k = i
    · rw [hki, he] at hk
      cases hk
      exact expire_ship_emergency _ _ hee
    · by_cases hkj : k = j
      · rw [hkj, ho] at hk
        cases hk
        exact expire_ship_in_time _ _ hkeep
      · exact expire_ship_not_waiting _ _ (hothers k s hki hkj hk)
  have hpn : 0 ≤ p := process_ship_result_nonneg _ _ _ _ _ _ _ hp
  have hi : i < (roster_with st n table).length := (List.getElem?_eq_some_iff.mp he).1
  have hj : j < (roster_with st n table).length := (List.getElem?_eq_some_iff.mp ho).1
  have hdl : dcs < st.docks.length := (List.getElem?_eq_some_iff.mp hd).1
  -- the state after the emergency ship was docked
  have hdock : dock_ship fuel dcs i { st with allShips := roster_with st n table } =
      some (docked_state { st with allShips := roster_with st n table } dcs i e d p q1) := by
    unfold dock_ship
    simp only [he, hd, hp]
    rfl
  have hfit : highest_fit { st with allShips := roster_with st n table } e dcs := by
    refine ⟨⟨d, hd, hfree, hce⟩, ?_⟩
    intro m hm hfm
    exact (honly m (Nat.ne_of_gt hm)).1 hfm
  have hpass1 : assign_pass fuel true (List.range (roster_with st n table).length)
      { st with allShips := roster_with st n table } =
      some (docked_state { st with allShips := roster_with st n table } dcs i e d p q1) := by
    apply assign_pass_single fuel true i dcs e _ _ _ (List.nodup_range _)
      (List.mem_range.mpr hi) he ?_ hfit hdock
    · intro k hk hki
      have hkl : k < (roster_with st n table).length := List.mem_range.mp hk
      by_cases hkj : k = j
      · subst hkj
        exact ⟨o, ho, by simp [skip_ship, hoe]⟩
      · exact ⟨_, List.getElem?_eq_getElem hkl, skip_ship_of_not_waiting _ _
          (hothers k _ hki hkj (List.getElem?_eq_getElem hkl))⟩
    · simp [skip_ship, hwe.1, hwe.2, hee]
  have hj1 : (docked_state { st with allShips := roster_with st n table } dcs i e d p
      q1).allShips[j]? = some o := by
    show ((roster_with st n table).set i _)[j]? = _
    rw [List.getElem?_set_ne hij]
    exact ho
  have hi1 : (docked_state { st with allShips := roster_with st n table } dcs i e d p
      q1).allShips[i]? = some (ship_after e d st.currentTimestep p) := by
    show ((roster_with st n table).set i _)[i]? = _
    rw [List.getElem?_set_self hi]
  have hd1 : (docked_state { st with allShips := roster_with st n table } dcs i e d p
      q1).docks[dcs]? = some (dock_after d st.currentTimestep p) := by
    show (st.docks.set dcs _)[dcs]? = _
    rw [List.getElem?_set_self hdl]
  have hpass2 : assign_pass fuel false (List.range (roster_with st n table).length)
      (docked_state { st with allShips := roster_with st n table } dcs i e d p q1) =
      some (docked_state { st with allShips := roster_with st n table } dcs i e d p q1) := by
    apply assign_pass_noop
    intro k hk
    have hkl : k < (roster_with st n table).length := List.mem_range.mp hk
    by_cases hki : k = i
    · subst hki
      exact ⟨_, hi1, Or.inl (by simp [skip_ship, ship_after])⟩
    · have hsame : (docked_state { st with allShips := roster_with st n table } dcs i e d p
          q1).allShips[k]? = (roster_with st n table)[k]? := by
        show ((roster_with st n table).set i _)[k]? = _
        rw [List.getElem?_set_ne (Ne.symm hki)]
      by_cases hkj : k = j
      · subst hkj
        refine ⟨o, hj1, Or.inr ?_⟩
        intro m hfm
        by_cases hm : m = dcs
        · subst hm
          obtain ⟨d2, hd2, hfree2, _⟩ := hfm
          rw [hd1] at hd2
          cases hd2
          simp only [dock_after, docked_state] at hfree2
          omega
        · obtain ⟨d2, hd2, hfree2, hcat2⟩ := hfm
          have hd3 : st.docks[m]? = some d2 := by
            have : (st.docks.set dcs (dock_after d st.currentTimestep p))[m]? = some d2 := hd2
            rw [List.getElem?_set_ne (Ne.symm hm)] at this
            exact this
          exact (honly m hm).2 ⟨d2, hd3, hfree2, hcat2⟩
      · refine ⟨(roster_with st n table)[k], ?_, Or.inl ?_⟩
        · rw [hsame]
          exact List.getElem?_eq_getElem hkl
        · exact skip_ship_of_not_waiting _ _
            (hothers k _ hki hkj (List.getElem?_eq_getElem hkl))
  refine ⟨docked_state { st with allShips := roster_with st n table } dcs i e d p q1, ?_, hi1,
    hd1, hj1, ?_, ?_⟩
  · unfold scheduler_step
    rw [hinput]
    unfold assign_ships_greedy
    have hlen : (docked_state { st with allShips := roster_with st n table } dcs i e d p
        q1).numShips = (roster_with st n table).length := by
      simp [State.numShips, docked_state]
    show (match assign_pass fuel true (List.range (roster_with st n table).length) _ with
      | some st1 => assign_pass fuel false (List.range st1.numShips) st1
      | none => none) = _
    rw [hpass1]
    simp only
    rw [hlen]
    exact hpass2
  · intro sg recvMsg table1 ht
    rw [← ht]
    apply allocation_input_getElem?
    exact hj1
  · intro hnext
    rw [expire_ship_in_time _ _ hnext]
    exact ⟨hwo, skip_ship_false_of_waiting o hwo⟩

theorem emergency_ship_takes_single_dock_witness :
    ∃ st1, scheduler_step 3 2 (rush_table 2) quay_state = some st1 ∧
      st1.allShips[1]? = some (ship_after rush_emergency quay_dock 5 2) ∧
      st1.docks[0]? = some (dock_after quay_dock 5 2) ∧
      st1.allShips[0]? = some (rush_ordinary 2) ∧
      (∀ (start_guessing : Int → Int → Int → List Char) (recvMsg : MessageStruct)
        (table1 : List ShipRequest), recvMsg.timestep = 5 + 1 →
        (allocation_input start_guessing recvMsg table1 (finish_step st1)).allShips[0]? =
          some (expire_ship (5 + 1) (rush_ordinary 2))) ∧
      (¬ ((rush_ordinary 2).direction = 1 ∧
          (5 : Int) + 1 > (rush_ordinary 2).arrival + (rush_ordinary 2).waitingTime) →
        waiting (expire_ship (5 + 1) (rush_ordinary 2)) ∧
        skip_ship false (expire_ship (5 + 1) (rush_ordinary 2)) = false) :=
  emergency_ship_takes_single_dock 3 2 (rush_table 2) quay_state 1 0 0 rush_emergency
    (rush_ordinary 2) quay_dock 2
    [⟨6, { mtype := 4, shipId := 22, direction := 1, cargoId := 0, data := 0 }⟩,
     ⟨7, { mtype := 4, shipId := 22, direction := 1, cargoId := 1, data := 0 }⟩]
    (by decide) (by decide) (by decide) (by decide) (by decide) (by decide) (by decide)
    (by
      intro k s h1 h0 hk
      match k, h1, h0, hk with
      | 0, _, h0, _ => exact absurd rfl h0
      | 1, h1, _, _ => exact absurd rfl h1
      | k + 2, _, _, hk => simp [roster_with, quay_state, rush_table] at hk)
    (by decide) (by decide) (by decide) (by decide)
    (by
      intro m hm
      have hnone : quay_state.docks[m]? = none := by
        match m, hm with
        | 0, hm => exact absurd rfl hm
        | m + 1, _ => rfl
      constructor <;> rintro ⟨d, hd, _⟩ <;> rw [hnone] at hd <;> cases hd)
    (by decide) (by decide)

/-- C5, refuted as stated: two ships of category 1 arrive at timestep 5 at a
quay with a single free dock, an ordinary inbound ship with wait tolerance 0 and
an emergency ship.  After `scheduler_step` the emergency ship is docked and the
ordinary ship is active and undocked; but in the state handed to the allocation
at timestep 6 the ordinary ship is inactive, and both loops skip every ship:
it is not considered again. -/
theorem ordinary_ship_dropped_at_next_timestep :
    scheduler_step 3 2 (rush_table 0) quay_state = some (rush_result 0) ∧
    (rush_result 0).allShips.map (fun s => (s.shipId, s.emergency, s.active, s.docked)) =
      [(21, 0, 1, 0), (22, 1, 1, 1)] ∧
    (allocation_input no_search { mtype := 1, timestep := 6 } []
        (finish_step (rush_result 0))).allShips.map
      (fun s => (s.shipId, s.emergency, s.active, s.docked)) =
      [(21, 0, 0, 0), (22, 1, 1, 1)] ∧
    ∀ s ∈ (allocation_input no_search { mtype := 1, timestep := 6 } []
        (finish_step (rush_result 0))).allShips, skip_ship false s = true := by
  decide

/-! ## Simulate mode -/

/-- Two progress records that agree except on the queue. -/
theorem process_round_simulate (s : Ship) (dock : Dock) (simulate moved_at : Int)
    (hsim : simulate ≠ 0) :
    ∀ (l : List Cargo) (p p0 : Progress), p.moved = p0.moved → p.cargos = p0.cargos →
      p.currentCrane = p0.currentCrane →
      (process_round s dock simulate moved_at l p).moved =
        (process_round s dock 0 moved_at l p0).moved ∧
      (process_round s dock simulate moved_at l p).cargos =
        (process_round s dock 0 moved_at l p0).cargos ∧
      (process_round s dock simulate moved_at l p).currentCrane =
        (process_round s dock 0 moved_at l p0).currentCrane ∧
      (process_round s dock simulate moved_at l p).queue = p.queue := by
  intro l
  induction l with
  | nil => intro p p0 h1 h2 h3; exact ⟨h1, h2, h3, rfl⟩
  | cons a rest ih =>
    intro p p0 h1 h2 h3
    have hcr : current_crane dock p = current_crane dock p0 := by
      unfold current_crane
      rw [h3]
    by_cases hc : p.currentCrane < dock.numCranes
    · have hc0 : p0.currentCrane < dock.numCranes := h3 ▸ hc
      by_cases hm : a.id ∈ p.cargos
      · have hm0 : a.id ∈ p0.cargos := h2 ▸ hm
        rw [process_round_marked s dock simulate moved_at a rest p hc hm,
          process_round_marked s dock 0 moved_at a rest p0 hc0 hm0]
        exact ih p p0 h1 h2 h3
      · have hm0 : a.id ∉ p0.cargos := h2 ▸ hm
        by_cases hw : (current_crane dock p).capacity ≥ a.weight
        · have hw0 : (current_crane dock p0).capacity ≥ a.weight := hcr ▸ hw
          rw [process_round_move s dock simulate moved_at a rest p hc hm hw,
            process_round_move s dock 0 moved_at a rest p0 hc0 hm0 hw0]
          obtain ⟨e1, e2, e3, e4⟩ := ih (move_item s dock simulate moved_at a p)
            (move_item s dock 0 moved_at a p0)
            (by simp only [move_item]; rw [h1])
            (by simp only [move_item]; rw [h2])
            (by simp only [move_item]; rw [h3])
          refine ⟨e1, e2, e3, ?_⟩
          rw [e4]
          simp only [move_item, if_neg hsim]
        · have hw0 : ¬ (current_crane dock p0).capacity ≥ a.weight := hcr ▸ hw
          rw [process_round_heavy s dock simulate moved_at a rest p hc hm hw,
            process_round_heavy s dock 0 moved_at a rest p0 hc0 hm0 hw0]
          exact ih p p0 h1 h2 h3
    · have hc0 : ¬ p0.currentCrane < dock.numCranes := h3 ▸ hc
      rw [process_round_stop s dock simulate moved_at a rest p hc,
        process_round_stop s dock 0 moved_at a rest p0 hc0]
      exact ⟨h1, h2, h3, rfl⟩

theorem process_while_simulate (s : Ship) (dock : Dock) (simulate t : Int) (hsim : simulate ≠ 0) :
    ∀ (fuel : Nat) (moved_at : Int) (p p0 : Progress), p.moved = p0.moved →
      p.cargos = p0.cargos → p.currentCrane = p0.currentCrane →
      process_while s dock simulate t fuel moved_at p =
        (process_while s dock 0 t fuel moved_at p0).map (fun r => (r.1, p.queue)) := by
  intro fuel
  induction fuel with
  | zero => intro _ _ _ _ _ _; rfl
  | succ n ih =>
    intro moved_at p p0 h1 h2 h3
    rw [process_while, process_while]
    by_cases hlt : p.moved < s.numCargo
    · have hlt0 : p0.moved < s.numCargo := h1 ▸ hlt
      rw [if_pos hlt, if_pos hlt0]
      obtain ⟨e1, e2, _, e4⟩ := process_round_simulate s dock simulate moved_at hsim s.cargo p p0
        h1 h2 h3
      have := ih (moved_at + 1)
        { process_round s dock simulate moved_at s.cargo p with currentCrane := 0 }
        { process_round s dock 0 moved_at s.cargo p0 with currentCrane := 0 } e1 e2 rfl
      rw [this]
      simp only [e4]
    · have hlt0 : ¬ p0.moved < s.numCargo := h1 ▸ hlt
      rw [if_neg hlt, if_neg hlt0]
      rfl

/-- C15: `process_ship` has no assignment to the ship or the dock, so the
model returns only the count and the queue.  With `simulate` set (to 1 or any
value other than 0) it returns exactly when the call with `simulate = 0` on
the same inputs returns, with the same timestep count, and the event queue it
leaves is the queue it was given. -/
theorem process_ship_simulate_frame (fuel : Nat) (s : Ship) (dock : Dock) (simulate t : Int)
    (q : List ScheduledMessage) (hsim : simulate ≠ 0) :
    process_ship fuel s dock simulate t q =
      (process_ship fuel s dock 0 t q).map (fun r => (r.1, q)) := by
  unfold process_ship
  exact process_while_simulate s dock simulate t hsim fuel (t + 1) _ _ rfl rfl rfl

theorem process_ship_simulate_frame_witness :
    process_ship 5 scenario_ship scenario_dock 1 1 [] = some (2, []) ∧
    (process_ship 5 scenario_ship scenario_dock 0 1 []).map Prod.fst = some 2 ∧
    process_ship 5 scenario_ship scenario_dock 1 1 [] =
      (process_ship 5 scenario_ship scenario_dock 0 1 []).map (fun r => (r.1, [])) :=
  ⟨by decide, by decide,
    process_ship_simulate_frame 5 scenario_ship scenario_dock 1 1 [] (by decide)⟩

/-! ## An item that no crane can lift -/

/-- The marked slots are distinct, are as many as the items counted as moved,
and belong to items that some crane can lift. -/
theorem process_round_marks_liftable (s : Ship) (dock : Dock) (simulate moved_at : Int) :
    ∀ (l : List Cargo) (p : Progress), (∀ c ∈ l, c ∈ s.cargo) →
      (p.cargos.Nodup ∧ p.moved = p.cargos.length ∧
        ∀ x ∈ p.cargos, x ∈ (s.cargo.filter (liftable dock)).map Cargo.id) →
      ((process_round s dock simulate moved_at l p).cargos.Nodup ∧
        (process_round s dock simulate moved_at l p).moved =
          (process_round s dock simulate moved_at l p).cargos.length ∧
        ∀ x ∈ (process_round s dock simulate moved_at l p).cargos,
          x ∈ (s.cargo.filter (liftable dock)).map Cargo.id) := by
  intro l
  induction l with
  | nil => intro p _ h; exact h
  | cons a rest ih =>
    intro p hl h
    have hl1 : ∀ c ∈ rest, c ∈ s.cargo := fun c hc => hl c (List.mem_cons_of_mem _ hc)
    by_cases hc : p.currentCrane < dock.numCranes
    · by_cases hm : a.id ∈ p.cargos
      · rw [process_round_marked s dock simulate moved_at a rest p hc hm]
        exact ih p hl1 h
      · by_cases hw : (current_crane dock p).capacity ≥ a.weight
        · rw [process_round_move s dock simulate moved_at a rest p hc hm hw]
          apply ih _ hl1
          obtain ⟨h1, h2, h3⟩ := h
          refine ⟨List.nodup_cons.mpr ⟨hm, h1⟩, by simp only [move_item, List.length_cons]; rw [h2],
            ?_⟩
          intro x hx
          rcases List.mem_cons.mp hx with rfl | hx1
          · apply List.mem_map_of_mem
            rw [List.mem_filter]
            refine ⟨hl a (List.mem_cons_self _ _), ?_⟩
            unfold liftable
            rw [List.any_eq_true]
            exact ⟨current_crane dock p, current_crane_mem dock p hc, by simpa using hw⟩
          · exact h3 x hx1
        · rw [process_round_heavy s dock simulate moved_at a rest p hc hm hw]
          exact ih p hl1 h
    · rw [process_round_stop s dock simulate moved_at a rest p hc]
      exact h

theorem process_while_never_returns (s : Ship) (dock : Dock) (simulate t : Int)
    (hlt : (s.cargo.filter (liftable dock)).length < s.numCargo) :
    ∀ (fuel : Nat) (moved_at : Int) (p : Progress),
      (p.cargos.Nodup ∧ p.moved = p.cargos.length ∧
        ∀ x ∈ p.cargos, x ∈ (s.cargo.filter (liftable dock)).map Cargo.id) →
      process_while s dock simulate t fuel moved_at p = none := by
  intro fuel
  induction fuel with
  | zero => intro _ _ _; rfl
  | succ n ih =>
    intro moved_at p h
    have hle : p.cargos.length ≤ ((s.cargo.filter (liftable dock)).map Cargo.id).length :=
      (List.subperm_of_subset h.1 h.2.2).length_le
    rw [List.length_map] at hle
    have hmoved : p.moved < s.numCargo := by
      rw [h.2.1]
      omega
    rw [process_while, if_pos hmoved]
    apply ih
    exact process_round_marks_liftable s dock simulate moved_at s.cargo p (fun _ hc => hc) h

/-- C16, on the code: when the ship has an item heavier than the capacity of
every crane of the dock, the `while` loop of `process_ship` never ends: the
item is never counted as moved, so for every fuel bound there is no result. -/
theorem process_ship_heavy_item_never_returns (fuel : Nat) (s : Ship) (dock : Dock)
    (simulate t : Int) (q : List ScheduledMessage) (x : Cargo) (hx : x ∈ s.cargo)
    (hheavy : ∀ cr ∈ dock.cranes, cr.capacity < x.weight) :
    process_ship fuel s dock simulate t q = none := by
  have hnot : liftable dock x = false := by
    unfold liftable
    rw [List.any_eq_false]
    intro cr hcr
    have := hheavy cr hcr
    simp only [decide_eq_true_eq, ge_iff_le, not_le]
    exact this
  have hlt : (s.cargo.filter (liftable dock)).length < s.numCargo := by
    unfold Ship.numCargo
    apply List.length_filter_lt_length_iff_exists.mpr
    exact ⟨x, hx, by simp [hnot]⟩
  unfold process_ship
  exact process_while_never_returns s dock simulate t hlt fuel (t + 1) _
    ⟨List.nodup_nil, rfl, fun x hx => absurd hx (List.not_mem_nil x)⟩

theorem process_ship_heavy_item_never_returns_witness :
    heavy_ship.cargo = [⟨20, 0⟩, ⟨4, 1⟩] ∧
    process_ship 1000 heavy_ship scenario_dock 0 1 [] = none :=
  ⟨by decide,
    process_ship_heavy_item_never_returns 1000 heavy_ship scenario_dock 0 1 [] ⟨20, 0⟩
      (by decide) (by decide)⟩

/-! ## The moves and events of `process_ship` in commit mode -/

theorem enqueue_all_append (a b : List (MessageStruct × Int)) (q : List ScheduledMessage) :
    enqueue_all (a ++ b) q = enqueue_all b (enqueue_all a q) := by
  unfold enqueue_all
  rw [List.foldl_append]

/-- The round of `process_ship` in commit mode, in terms of its moves. -/
theorem process_round_commit (s : Ship) (dock : Dock) (moved_at : Int) :
    ∀ (l : List Cargo) (p : Progress),
      process_round s dock 0 moved_at l p =
        { moved := p.moved + (round_moves dock l p.cargos p.currentCrane).length
          cargos := ((round_moves dock l p.cargos p.currentCrane).map
            (fun m => m.1.id)).reverse ++ p.cargos
          currentCrane := p.currentCrane + (round_moves dock l p.cargos p.currentCrane).length
          queue := enqueue_all
            (round_events s dock moved_at (round_moves dock l p.cargos p.currentCrane))
            p.queue } := by
  intro l
  induction l with
  | nil => intro p; simp [process_round, round_moves, round_events, enqueue_all]
  | cons a rest ih =>
    intro p
    by_cases hc : p.currentCrane < dock.numCranes
    · by_cases hm : a.id ∈ p.cargos
      · rw [process_round_marked s dock 0 moved_at a rest p hc hm, ih p]
        simp only [round_moves, if_pos hc, if_pos hm]
      · by_cases hw : (current_crane dock p).capacity ≥ a.weight
        · have hw1 : (dock.cranes.getD p.currentCrane ⟨0, 0⟩).capacity ≥ a.weight := hw
          rw [process_round_move s dock 0 moved_at a rest p hc hm hw, ih]
          simp only [round_moves, if_pos hc, if_neg hm, if_pos hw1]
          simp only [move_item, if_true, List.length_cons, List.map_cons, List.reverse_cons,
            List.append_assoc, List.singleton_append, round_events, enqueue_all, List.foldl_cons,
            transfer_message, current_crane]
          congr 1 <;> omega
        · have hw1 : ¬ (dock.cranes.getD p.currentCrane ⟨0, 0⟩).capacity ≥ a.weight := hw
          rw [process_round_heavy s dock 0 moved_at a rest p hc hm hw, ih p]
          simp only [round_moves, if_pos hc, if_neg hm, if_neg hw1]
    · rw [process_round_stop s dock 0 moved_at a rest p hc]
      simp [round_moves, hc, round_events, enqueue_all]

/-- What the moves of a round are: items of the list with unmarked slots, each
lifted by a crane of sufficient capacity, the cranes taken in index order, and
no slot marked twice. -/
theorem round_moves_spec (dock : Dock) :
    ∀ (l : List Cargo) (cargos : List Int) (cc : Nat),
      (∀ m ∈ round_moves dock l cargos cc, m.1 ∈ l ∧ m.1.id ∉ cargos ∧
        ∃ cr, dock.cranes[m.2]? = some cr ∧ cr.capacity ≥ m.1.weight) ∧
      (round_moves dock l cargos cc).map Prod.snd =
        List.range' cc (round_moves dock l cargos cc).length ∧
      ((round_moves dock l cargos cc).map (fun m => m.1.id)).Nodup := by
  intro l
  induction l with
  | nil =>
    intro cargos cc
    simp [round_moves]
  | cons a rest ih =>
    intro cargos cc
    by_cases hc : cc < dock.numCranes
    · by_cases hm : a.id ∈ cargos
      · simp only [round_moves, if_pos hc, if_pos hm]
        obtain ⟨h1, h2, h3⟩ := ih cargos cc
        exact ⟨fun m hmem => ⟨List.mem_cons_of_mem _ (h1 m hmem).1, (h1 m hmem).2⟩, h2, h3⟩
      · by_cases hw : (dock.cranes.getD cc ⟨0, 0⟩).capacity ≥ a.weight
        · simp only [round_moves, if_pos hc, if_neg hm, if_pos hw]
          obtain ⟨h1, h2, h3⟩ := ih (a.id :: cargos) (cc + 1)
          refine ⟨?_, ?_, ?_⟩
          · intro m hmem
            rcases List.mem_cons.mp hmem with rfl | hmem1
            · refine ⟨List.mem_cons_self _ _, hm, dock.cranes.getD cc ⟨0, 0⟩, ?_, hw⟩
              have hlt : cc < dock.cranes.length := hc
              rw [List.getD_eq_getElem _ _ hlt]
              exact List.getElem?_eq_getElem hlt
            · obtain ⟨g1, g2, g3⟩ := h1 m hmem1
              exact ⟨List.mem_cons_of_mem _ g1, fun hin => g2 (List.mem_cons_of_mem _ hin), g3⟩
          · simp only [List.map_cons, List.length_cons, List.range'_succ, h2]
          · simp only [List.map_cons]
            refine List.nodup_cons.mpr ⟨?_, h3⟩
            intro hin
            obtain ⟨m, hmem, hid⟩ := List.mem_map.mp hin
            exact (h1 m hmem).2.1 (hid ▸ List.mem_cons_self _ _)
        · simp only [round_moves, if_pos hc, if_neg hm, if_neg hw]
          obtain ⟨h1, h2, h3⟩ := ih cargos cc
          exact ⟨fun m hmem => ⟨List.mem_cons_of_mem _ (h1 m hmem).1, (h1 m hmem).2⟩, h2, h3⟩
    · simp [round_moves, hc]

/-- A round without a move repeats for ever. -/
theorem process_while_empty_round (s : Ship) (dock : Dock) (t : Int) :
    ∀ (fuel : Nat) (moved_at : Int) (p : Progress), p.currentCrane = 0 →
      p.moved < s.numCargo → round_moves dock s.cargo p.cargos 0 = [] →
      process_while s dock 0 t fuel moved_at p = none := by
  intro fuel
  induction fuel with
  | zero => intro _ _ _ _ _; rfl
  | succ n ih =>
    intro moved_at p h0 hlt hempty
    rw [process_while, if_pos hlt, process_round_commit, h0, hempty]
    exact ih _ _ rfl (by simpa using hlt) (by simpa using hempty)

/-- The `while` loop of `process_ship` in commit mode, when it returns, in
terms of the moves of its rounds. -/
theorem process_while_commit (s : Ship) (dock : Dock) (t : Int) :
    ∀ (fuel : Nat) (moved_at : Int) (p : Progress) (r : Int) (q1 : List ScheduledMessage),
      p.currentCrane = 0 → p.cargos.Nodup →
      process_while s dock 0 t fuel moved_at p = some (r, q1) →
      ∃ rounds : List (List (Cargo × Nat)),
        r = moved_at + (rounds.length : Int) - t - 1 ∧
        q1 = enqueue_all (event_rounds s dock moved_at rounds).flatten p.queue ∧
        (∀ M ∈ rounds, M ≠ [] ∧ M.map Prod.snd = List.range' 0 M.length ∧
          ∀ m ∈ M, m.1 ∈ s.cargo ∧
            ∃ cr, dock.cranes[m.2]? = some cr ∧ cr.capacity ≥ m.1.weight) ∧
        ((rounds.flatten.map (fun m => m.1.id)).reverse ++ p.cargos).Nodup ∧
        s.numCargo ≤ p.moved + rounds.flatten.length := by
  intro fuel
  induction fuel with
  | zero => intro _ _ r q1 _ _ h; simp [process_while] at h
  | succ n ih =>
    intro moved_at p r q1 h0 hnd h
    by_cases hlt : p.moved < s.numCargo
    · have horig := h
      rw [process_while, if_pos hlt, process_round_commit, h0] at h
      obtain ⟨hm1, hm2, hm3⟩ := round_moves_spec dock s.cargo p.cargos 0
      have hne : round_moves dock s.cargo p.cargos 0 ≠ [] := by
        intro hempty
        rw [process_while_empty_round s dock t (n + 1) moved_at p h0 hlt hempty] at horig
        cases horig
      have hnd1 : (((round_moves dock s.cargo p.cargos 0).map (fun m => m.1.id)).reverse ++
          p.cargos).Nodup := by
        rw [List.nodup_append]
        refine ⟨List.nodup_reverse.mpr hm3, hnd, ?_⟩
        intro x hx hx1
        rw [List.mem_reverse] at hx
        obtain ⟨m, hmem, rfl⟩ := List.mem_map.mp hx
        exact (hm1 m hmem).2.1 hx1
      obtain ⟨rounds, e1, e2, e3, e4, e5⟩ := ih _ _ r q1 rfl hnd1 h
      refine ⟨round_moves dock s.cargo p.cargos 0 :: rounds, ?_, ?_, ?_, ?_, ?_⟩
      · rw [e1]
        simp only [List.length_cons]
        push_cast
        ring
      · rw [e2]
        simp only [event_rounds, List.flatten_cons, enqueue_all_append]
      · intro M hM
        rcases List.mem_cons.mp hM with rfl | hM1
        · exact ⟨hne, hm2, fun m hmem => ⟨(hm1 m hmem).1, (hm1 m hmem).2.2⟩⟩
        · exact e3 M hM1
      · simpa [List.append_assoc] using e4
      · simp only [List.flatten_cons, List.length_append]
        simp only at e5
        omega
    · rw [process_while, if_neg hlt] at h
      cases h
      refine ⟨[], by simp, by simp [event_rounds, enqueue_all], ?_, by simpa using hnd,
        by simpa using hlt⟩
      intro M hM
      cases hM

/-- The commit-mode call of `process_ship`, when it returns `p`, in terms of
the moves of its rounds: there are `p` rounds, none empty, each round takes the
cranes in index order, every move pairs an item with a crane that lifts it,
and the moved items are the cargo of the ship, each once. -/
theorem process_ship_commit (fuel : Nat) (s : Ship) (dock : Dock) (t : Int)
    (q : List ScheduledMessage) (p : Int) (q1 : List ScheduledMessage)
    (h : process_ship fuel s dock 0 t q = some (p, q1)) :
    ∃ rounds : List (List (Cargo × Nat)),
      (rounds.length : Int) = p ∧
      q1 = enqueue_all (event_rounds s dock (t + 1) rounds).flatten q ∧
      (∀ M ∈ rounds, M ≠ [] ∧ M.map Prod.snd = List.range' 0 M.length ∧
        ∀ m ∈ M, m.1 ∈ s.cargo ∧
          ∃ cr, dock.cranes[m.2]? = some cr ∧ cr.capacity ≥ m.1.weight) ∧
      (rounds.flatten.map Prod.fst).Perm s.cargo ∧
      ((rounds.flatten.map Prod.fst).map Cargo.id).Nodup := by
  obtain ⟨rounds, e1, e2, e3, e4, e5⟩ :=
    process_while_commit s dock t fuel (t + 1) ⟨0, [], 0, q⟩ p q1 rfl List.nodup_nil h
  refine ⟨rounds, by omega, e2, e3, ?_⟩
  suffices hgoal : ((rounds.flatten.map Prod.fst).map Cargo.id).Nodup ∧
      (rounds.flatten.map Prod.fst).Perm s.cargo from ⟨hgoal.2, hgoal.1⟩
  have hids : (rounds.flatten.map (fun m => m.1.id)).Nodup := by
    have := e4
    simp only [List.append_nil] at this
    exact List.nodup_reverse.mp this
  have h1 : (rounds.flatten.map (fun m => m.1.id)) =
      (rounds.flatten.map Prod.fst).map Cargo.id := by
    rw [List.map_map]
    rfl
  rw [h1] at hids
  refine ⟨hids, ?_⟩
  have hnd : (rounds.flatten.map Prod.fst).Nodup := List.Nodup.of_map _ hids
  have hsub : rounds.flatten.map Prod.fst ⊆ s.cargo := by
    intro c hc
    obtain ⟨m, hmem, rfl⟩ := List.mem_map.mp hc
    obtain ⟨M, hM, hmM⟩ := List.mem_flatten.mp hmem
    exact ((e3 M hM).2.2 m hmM).1
  apply (List.subperm_of_subset hnd hsub).perm_of_length_le
  rw [List.length_map]
  simp only [Nat.zero_add] at e5
  exact e5

/-! ## The cargo-transfer events of a commit-mode call -/

theorem event_rounds_cargoId (s : Ship) (dock : Dock) :
    ∀ (rounds : List (List (Cargo × Nat))) (moved_at : Int),
      (event_rounds s dock moved_at rounds).flatten.map (fun e => e.1.cargoId) =
        (rounds.flatten.map Prod.fst).map Cargo.id := by
  intro rounds
  induction rounds with
  | nil => intro _; rfl
  | cons M rest ih =>
    intro moved_at
    simp only [event_rounds, List.flatten_cons, List.map_append, ih (moved_at + 1)]
    congr 1
    simp [round_events, transfer_message]

theorem event_rounds_getElem? (s : Ship) (dock : Dock) :
    ∀ (rounds : List (List (Cargo × Nat))) (moved_at : Int) (r : Nat)
      (R : List (MessageStruct × Int)),
      (event_rounds s dock moved_at rounds)[r]? = some R →
      ∃ M, rounds[r]? = some M ∧ R = round_events s dock (moved_at + (r : Int)) M := by
  intro rounds
  induction rounds with
  | nil => intro _ r R h; simp [event_rounds] at h
  | cons M rest ih =>
    intro moved_at r R h
    cases r with
    | zero =>
      simp only [event_rounds, List.getElem?_cons_zero, Option.some.injEq] at h
      exact ⟨M, List.getElem?_cons_zero, by rw [← h]; simp⟩
    | succ k =>
      simp only [event_rounds, List.getElem?_cons_succ] at h
      obtain ⟨M1, h1, h2⟩ := ih (moved_at + 1) k R h
      refine ⟨M1, by simpa using h1, ?_⟩
      rw [h2]
      congr 1
      push_cast
      ring

theorem event_rounds_length (s : Ship) (dock : Dock) :
    ∀ (rounds : List (List (Cargo × Nat))) (moved_at : Int),
      (event_rounds s dock moved_at rounds).length = rounds.length := by
  intro rounds
  induction rounds with
  | nil => intro _; rfl
  | cons M rest ih => intro moved_at; simp [event_rounds, ih]

/-- Every event of the rounds is the transfer message of a move of a round,
due at the timestep of that round. -/
theorem event_rounds_mem (s : Ship) (dock : Dock) (rounds : List (List (Cargo × Nat)))
    (moved_at : Int) (e : MessageStruct × Int)
    (he : e ∈ (event_rounds s dock moved_at rounds).flatten) :
    ∃ (r : Nat) (M : List (Cargo × Nat)) (m : Cargo × Nat), rounds[r]? = some M ∧ m ∈ M ∧
      e = (transfer_message s dock m, moved_at + (r : Int)) := by
  obtain ⟨R, hR, heR⟩ := List.mem_flatten.mp he
  obtain ⟨r, hr⟩ := List.mem_iff_getElem?.mp hR
  obtain ⟨M, hM, rfl⟩ := event_rounds_getElem? s dock rounds moved_at r R hr
  obtain ⟨m, hm, rfl⟩ := List.mem_map.mp heR
  exact ⟨r, M, m, hM, hm, rfl⟩

/-- With distinct crane ids, no crane id occurs twice among the events of one
due timestep. -/
theorem event_rounds_crane_nodup (s : Ship) (dock : Dock)
    (hcr : (dock.cranes.map Crane.id).Nodup) :
    ∀ (rounds : List (List (Cargo × Nat))) (moved_at : Int),
      (∀ M ∈ rounds, M.map Prod.snd = List.range' 0 M.length ∧
        ∀ m ∈ M, ∃ cr, dock.cranes[m.2]? = some cr) →
      ((event_rounds s dock moved_at rounds).flatten.map (fun e => (e.2, e.1.data))).Nodup ∧
      ∀ x ∈ (event_rounds s dock moved_at rounds).flatten.map (fun e => (e.2, e.1.data)),
        moved_at ≤ x.1 := by
  intro rounds
  induction rounds with
  | nil => intro _ _; simp [event_rounds]
  | cons M rest ih =>
    intro moved_at h
    obtain ⟨ih1, ih2⟩ := ih (moved_at + 1) (fun M1 hM1 => h M1 (List.mem_cons_of_mem _ hM1))
    obtain ⟨hM1, hM2⟩ := h M (List.mem_cons_self _ _)
    have hround : ((round_events s dock moved_at M).map (fun e => (e.2, e.1.data))).Nodup := by
      have hsnd : (M.map Prod.snd).Nodup := by
        rw [hM1]
        exact List.nodup_range' 0 _
      have e : (round_events s dock moved_at M).map (fun e => (e.2, e.1.data)) =
          (M.map Prod.snd).map (fun k => (moved_at, (dock.cranes.getD k ⟨0, 0⟩).id)) := by
        simp [round_events, transfer_message, List.map_map, Function.comp]
      rw [e]
      apply List.Nodup.map_on _ hsnd
      intro x hx y hy hxy
      obtain ⟨mx, hmx, rfl⟩ := List.mem_map.mp hx
      obtain ⟨my, hmy, rfl⟩ := List.mem_map.mp hy
      obtain ⟨cx, hcx⟩ := hM2 mx hmx
      obtain ⟨cy, hcy⟩ := hM2 my hmy
      have hx1 := (List.getElem?_eq_some_iff.mp hcx).1
      have hy1 := (List.getElem?_eq_some_iff.mp hcy).1
      simp only [Prod.mk.injEq, true_and] at hxy
      rw [List.getD_eq_getElem _ _ hx1, List.getD_eq_getElem _ _ hy1] at hxy
      exact nodup_map_index_inj Crane.id dock.cranes hcr mx.2 my.2 _ _
        (List.getElem?_eq_getElem hx1) (List.getElem?_eq_getElem hy1) hxy
    constructor
    · simp only [event_rounds, List.flatten_cons, List.map_append]
      rw [List.nodup_append]
      refine ⟨hround, ih1, ?_⟩
      intro x hx hx1
      have h1 := ih2 x hx1
      obtain ⟨e, he, rfl⟩ := List.mem_map.mp hx
      obtain ⟨m, _, rfl⟩ := List.mem_map.mp he
      simp only at h1
      omega
    · intro x hx
      simp only [event_rounds, List.flatten_cons, List.map_append, List.mem_append] at hx
      rcases hx with hx | hx
      · obtain ⟨e, he, rfl⟩ := List.mem_map.mp hx
        obtain ⟨m, _, rfl⟩ := List.mem_map.mp he
        exact le_refl _
      · have := ih2 x hx
        omega

/-- C18: whenever `process_ship` returns in commit mode, the queue it leaves
is the given queue with a list of events enqueued in which every cargo item of
the ship has exactly one event and there is no other (cargo ids are then
distinct; with a repeated id the call does not return); every event is a
cargo-transfer message that names an item of the ship and a crane of the dock
whose capacity is at least the weight of that item; and, the crane ids of the
dock being distinct, no crane id occurs in two events with the same due
timestep. -/
theorem process_ship_commit_one_event_per_item (fuel : Nat) (s : Ship) (dock : Dock) (t : Int)
    (q : List ScheduledMessage) (p : Int) (q1 : List ScheduledMessage)
    (h : process_ship fuel s dock 0 t q = some (p, q1)) :
    ∃ evs : List (MessageStruct × Int), q1 = enqueue_all evs q ∧
      (evs.map (fun e => e.1.cargoId)).Perm (s.cargo.map Cargo.id) ∧
      (s.cargo.map Cargo.id).Nodup ∧
      (∀ e ∈ evs, e.1.mtype = 4 ∧ e.1.dockId = dock.dockId ∧ e.1.shipId = s.shipId ∧
        ∃ cr ∈ dock.cranes, ∃ c ∈ s.cargo,
          e.1.cargoId = c.id ∧ e.1.data = cr.id ∧ cr.capacity ≥ c.weight) ∧
      ((dock.cranes.map Crane.id).Nodup → (evs.map (fun e => (e.2, e.1.data))).Nodup) := by
  obtain ⟨rounds, _, e2, e3, e4, e5⟩ := process_ship_commit fuel s dock t q p q1 h
  have hperm : ((event_rounds s dock (t + 1) rounds).flatten.map
      (fun e => e.1.cargoId)).Perm (s.cargo.map Cargo.id) := by
    rw [event_rounds_cargoId]
    exact e4.map Cargo.id
  refine ⟨(event_rounds s dock (t + 1) rounds).flatten, e2, hperm, ?_, ?_, ?_⟩
  · rw [← hperm.nodup_iff, event_rounds_cargoId]
    exact e5
  · intro e he
    obtain ⟨r, M, m, hM, hm, rfl⟩ := event_rounds_mem s dock rounds (t + 1) e he
    obtain ⟨_, _, hmoves⟩ := e3 M (List.mem_iff_getElem?.mpr ⟨r, hM⟩)
    obtain ⟨hin, cr, hcr, hcap⟩ := hmoves m hm
    have hlt := (List.getElem?_eq_some_iff.mp hcr).1
    have hcr1 : dock.cranes.getD m.2 ⟨0, 0⟩ = cr := by
      rw [List.getD_eq_getElem _ _ hlt]
      exact (List.getElem?_eq_some_iff.mp hcr).2
    refine ⟨rfl, rfl, rfl, cr, List.mem_iff_getElem?.mpr ⟨m.2, hcr⟩, m.1, hin, rfl, ?_, hcap⟩
    simp only [transfer_message, hcr1]
  · intro hcr
    apply (event_rounds_crane_nodup s dock hcr rounds (t + 1) ?_).1
    intro M hM
    obtain ⟨_, h1, h2⟩ := e3 M hM
    exact ⟨h1, fun m hm => ⟨(h2 m hm).2.choose, (h2 m hm).2.choose_spec.1⟩⟩

theorem process_ship_commit_one_event_per_item_witness :
    ∃ evs : List (MessageStruct × Int),
      [⟨2, { mtype := 4, shipId := 7, direction := 1, cargoId := 0, data := 0 }⟩,
       ⟨2, { mtype := 4, shipId := 7, direction := 1, cargoId := 1, data := 1 }⟩,
       (⟨3, { mtype := 4, shipId := 7, direction := 1, cargoId := 2, data := 0 }⟩ :
         ScheduledMessage)] = enqueue_all evs [] ∧
      (evs.map (fun e => e.1.cargoId)).Perm (scenario_ship.cargo.map Cargo.id) ∧
      (scenario_ship.cargo.map Cargo.id).Nodup ∧
      (∀ e ∈ evs, e.1.mtype = 4 ∧ e.1.dockId = scenario_dock.dockId ∧
        e.1.shipId = scenario_ship.shipId ∧
        ∃ cr ∈ scenario_dock.cranes, ∃ c ∈ scenario_ship.cargo,
          e.1.cargoId = c.id ∧ e.1.data = cr.id ∧ cr.capacity ≥ c.weight) ∧
      ((scenario_dock.cranes.map Crane.id).Nodup →
        (evs.map (fun e => (e.2, e.1.data))).Nodup) :=
  process_ship_commit_one_event_per_item 5 scenario_ship scenario_dock 1 [] 2 _ (by decide)

/-- The rounds of a commit-mode call as lists of enqueued events. -/
theorem process_ship_commit_rounds (fuel : Nat) (s : Ship) (dock : Dock) (t : Int)
    (q : List ScheduledMessage) (p : Int) (q1 : List ScheduledMessage)
    (h : process_ship fuel s dock 0 t q = some (p, q1)) :
    ∃ rounds : List (List (MessageStruct × Int)),
      q1 = enqueue_all rounds.flatten q ∧ (rounds.length : Int) = p ∧
      (∀ (r : Nat) (R : List (MessageStruct × Int)), rounds[r]? = some R →
        R ≠ [] ∧ ∀ e ∈ R, e.1.mtype = 4 ∧ e.2 = t + ((r : Int) + 1)) ∧
      (∀ e ∈ rounds.flatten, t < e.2 ∧ e.2 < t + p + 1) := by
  obtain ⟨rounds, e1, e2, e3, _⟩ := process_ship_commit fuel s dock t q p q1 h
  have hround : ∀ (r : Nat) (R : List (MessageStruct × Int)),
      (event_rounds s dock (t + 1) rounds)[r]? = some R →
      R ≠ [] ∧ ∀ e ∈ R, e.1.mtype = 4 ∧ e.2 = t + ((r : Int) + 1) := by
    intro r R hR
    obtain ⟨M, hM, rfl⟩ := event_rounds_getElem? s dock rounds (t + 1) r R hR
    have hne := (e3 M (List.mem_iff_getElem?.mpr ⟨r, hM⟩)).1
    refine ⟨?_, ?_⟩
    · intro hempty
      apply hne
      simpa [round_events] using hempty
    · intro e he
      obtain ⟨m, _, rfl⟩ := List.mem_map.mp he
      exact ⟨rfl, by simp only; ring⟩
  refine ⟨event_rounds s dock (t + 1) rounds, e2, by rw [event_rounds_length]; exact e1, hround,
    ?_⟩
  intro e he
  obtain ⟨R, hR, heR⟩ := List.mem_flatten.mp he
  obtain ⟨r, hr⟩ := List.mem_iff_getElem?.mp hR
  have hlt : r < rounds.length := by
    have := (List.getElem?_eq_some_iff.mp hr).1
    rwa [event_rounds_length] at this
  have hdue := ((hround r R hr).2 e heR).2
  have hlt1 : (r : Int) < (rounds.length : Int) := by exact_mod_cast hlt
  omega

/-- C19: whenever `process_ship` returns `p` in commit mode for ship `i` and
dock `dcs` at the current timestep `t`, `dock_ship` returns, and the queue it
leaves is the given queue with the events of `p` rounds and then the
dock-assignment event enqueued: round `r` (counted from 1) is not empty and
its events are cargo-transfer messages due at `t + r`, so each of the
timesteps `t + 1` to `t + p` has a transfer event, and every transfer event
is due strictly after the `dockTime = t` and strictly before the
`undockTime = t + p + 1` that `dock_ship` records on the ship. -/
theorem transfer_events_between_dock_and_undock (fuel dcs i : Nat) (st : State) (s : Ship)
    (d : Dock) (p : Int) (q1 : List ScheduledMessage) (hs : st.allShips[i]? = some s)
    (hd : st.docks[dcs]? = some d)
    (hp : process_ship fuel s d 0 st.currentTimestep st.messageQueue = some (p, q1)) :
    ∃ (st1 : State) (s1 : Ship) (rounds : List (List (MessageStruct × Int))),
      dock_ship fuel dcs i st = some st1 ∧ st1.allShips[i]? = some s1 ∧
      q1 = enqueue_all rounds.flatten st.messageQueue ∧
      st1.messageQueue = enqueue_message (dock_message d s) st.currentTimestep q1 ∧
      (rounds.length : Int) = p ∧
      (∀ (r : Nat) (R : List (MessageStruct × Int)), rounds[r]? = some R →
        R ≠ [] ∧ ∀ e ∈ R, e.1.mtype = 4 ∧ e.2 = st.currentTimestep + ((r : Int) + 1)) ∧
      s1.dockTime = st.currentTimestep ∧ s1.undockTime = st.currentTimestep + p + 1 ∧
      (∀ e ∈ rounds.flatten, s1.dockTime < e.2 ∧ e.2 < s1.undockTime) := by
  obtain ⟨rounds, e1, e2, e3, e4⟩ :=
    process_ship_commit_rounds fuel s d st.currentTimestep st.messageQueue p q1 hp
  have hi : i < st.allShips.length := (List.getElem?_eq_some_iff.mp hs).1
  refine ⟨_,
    { s with docked := 1
             dockId := d.dockId
             dockTime := st.currentTimestep
             undockTime := st.currentTimestep + p + 1 },
    rounds, dock_ship_eq fuel dcs i st s d p q1 hs hd hp, ?_, e1, rfl, e2, e3, rfl, rfl, e4⟩
  simp [hi]

theorem transfer_events_between_dock_and_undock_witness :
    process_ship 5 scenario_ship scenario_dock 0 1 [] = some (2,
      [⟨2, { mtype := 4, shipId := 7, direction := 1, cargoId := 0, data := 0 }⟩,
       ⟨2, { mtype := 4, shipId := 7, direction := 1, cargoId := 1, data := 1 }⟩,
       ⟨3, { mtype := 4, shipId := 7, direction := 1, cargoId := 2, data := 0 }⟩]) ∧
    scenario_ship.cargo = [⟨8, 0⟩, ⟨4, 1⟩, ⟨3, 2⟩] ∧
    scenario_dock.cranes = [⟨10, 0⟩, ⟨5, 1⟩] ∧
    ∃ (st1 : State) (s1 : Ship) (rounds : List (List (MessageStruct × Int))),
      dock_ship 5 0 0 scenario_state = some st1 ∧ st1.allShips[0]? = some s1 ∧
      [⟨2, { mtype := 4, shipId := 7, direction := 1, cargoId := 0, data := 0 }⟩,
       ⟨2, { mtype := 4, shipId := 7, direction := 1, cargoId := 1, data := 1 }⟩,
       (⟨3, { mtype := 4, shipId := 7, direction := 1, cargoId := 2, data := 0 }⟩ :
         ScheduledMessage)] = enqueue_all rounds.flatten [] ∧
      st1.messageQueue = enqueue_message (dock_message scenario_dock scenario_ship) 1
        [⟨2, { mtype := 4, shipId := 7, direction := 1, cargoId := 0, data := 0 }⟩,
         ⟨2, { mtype := 4, shipId := 7, direction := 1, cargoId := 1, data := 1 }⟩,
         ⟨3, { mtype := 4, shipId := 7, direction := 1, cargoId := 2, data := 0 }⟩] ∧
      (rounds.length : Int) = 2 ∧
      (∀ (r : Nat) (R : List (MessageStruct × Int)), rounds[r]? = some R →
        R ≠ [] ∧ ∀ e ∈ R, e.1.mtype = 4 ∧ e.2 = 1 + ((r : Int) + 1)) ∧
      s1.dockTime = 1 ∧ s1.undockTime = 1 + 2 + 1 ∧
      (∀ e ∈ rounds.flatten, s1.dockTime < e.2 ∧ e.2 < s1.undockTime) :=
  ⟨by decide, by decide, by decide,
    transfer_events_between_dock_and_undock 5 0 0 scenario_state scenario_ship scenario_dock 2
      _ (by decide) (by decide) (by decide)⟩

/-! ## The order of a controller step -/

theorem undock_fold_sent (start_guessing : Int → Int → Int → List Char) (l : List Ship) :
    ∀ acc : State,
      (l.foldl (fun acc s => undock_ship start_guessing s acc) acc).sent =
        acc.sent ++ (l.filter
          (fun s => decide (s.docked ≠ 0 ∧ s.undockTime = acc.currentTimestep))).map
          unlock_message := by
  induction l with
  | nil => intro acc; simp
  | cons s rest ih =>
    intro acc
    rw [List.foldl_cons, ih]
    by_cases hc : s.docked ≠ 0 ∧ s.undockTime = acc.currentTimestep
    · simp only [undock_ship, if_pos hc, List.filter_cons, hc, decide_True, and_self, if_true,
        List.map_cons, List.append_assoc, List.singleton_append, ne_eq, not_false_eq_true]
      rfl
    · have h1 : undock_ship start_guessing s acc = acc := by
        simp only [undock_ship, if_neg hc]
      rw [h1]
      simp only [List.filter_cons, hc, decide_False]
      rfl

theorem update_dock_status_sent (start_guessing : Int → Int → Int → List Char) (st : State) :
    (update_dock_status start_guessing st).sent = st.sent ++ unlock_notices st :=
  undock_fold_sent start_guessing st.allShips st

theorem scheduler_step_sent (fuel : Nat) (n : Int) (table : List ShipRequest) (st st1 : State)
    (h : scheduler_step fuel n table st = some st1) :
    st1.sent = st.sent ∧ st1.currentTimestep = st.currentTimestep := by
  unfold scheduler_step at h
  obtain ⟨log, inv⟩ := AssignInv.greedy fuel _ st1 h
  rw [inv.sent_eq, inv.time, add_ships_eq]
  exact ⟨rfl, rfl⟩

/-- C20, amended: a controller step runs credential recovery first
(`update_dock_status`), then ingest, expiry and allocation (`scheduler_step`),
then the flush and the acknowledgment.  The unlock notice of a docked ship
whose undock timestep is the current timestep is sent by `update_dock_status`
itself and never enqueued, so the outbound stream of the step is: the unlock
notices, then the events sent by the flush, then the acknowledgment. -/
theorem unlock_notice_precedes_flushed (fuel : Nat)
    (start_guessing : Int → Int → Int → List Char) (recvMsg : MessageStruct)
    (table : List ShipRequest) (st st1 : State)
    (h : controller_step fuel start_guessing recvMsg table st = some st1) :
    controller_step fuel start_guessing recvMsg table st =
      (assign_ships_greedy fuel
        (expire_ships (add_ships (table.take recvMsg.data.toNat)
          (update_dock_status start_guessing
            { st with currentTimestep := recvMsg.timestep })))).map
        (fun st2 =>
          { flush_messages st2 with sent := (flush_messages st2).sent ++ [{ mtype := 5 }] }) ∧
    (update_dock_status start_guessing
      { st with currentTimestep := recvMsg.timestep }).messageQueue = st.messageQueue ∧
    ∃ st2, scheduler_step fuel recvMsg.data table
        (update_dock_status start_guessing { st with currentTimestep := recvMsg.timestep }) =
        some st2 ∧
      st1.sent = st.sent ++ unlock_notices { st with currentTimestep := recvMsg.timestep } ++
        (flush_loop recvMsg.timestep st2.messageQueue).1 ++ [{ mtype := 5 }] := by
  refine ⟨?_, (update_dock_status_frame start_guessing _).2.2.2, ?_⟩
  · unfold controller_step scheduler_step
    simp only
    cases assign_ships_greedy fuel
      (expire_ships (add_ships (table.take recvMsg.data.toNat)
        (update_dock_status start_guessing
          { st with currentTimestep := recvMsg.timestep }))) <;> rfl
  · unfold controller_step at h
    simp only at h
    split at h
    · rename_i st2 hstep
      refine ⟨st2, hstep, ?_⟩
      cases h
      obtain ⟨hsent, htime⟩ := scheduler_step_sent fuel _ table _ st2 hstep
      rw [update_dock_status_sent] at hsent
      rw [(update_dock_status_frame start_guessing _).2.2.1] at htime
      simp only [flush_messages, hsent, htime]
    · cases h

theorem unlock_notice_precedes_flushed_witness :
    controller_step 3 no_search { mtype := 1, timestep := 3, data := 1 }
        [{ shipId := 2, timestep := 3, category := 1, direction := -1, emergency := 0,
           waitingTime := 3, cargo := [5] }] before_unlock =
      (assign_ships_greedy 3
        (expire_ships (add_ships
          ([{ shipId := 2, timestep := 3, category := 1, direction := -1, emergency := 0,
              waitingTime := 3, cargo := [5] }] : List ShipRequest)
          (update_dock_status no_search
            { before_unlock with currentTimestep := 3 })))).map
        (fun st2 =>
          { flush_messages st2 with sent := (flush_messages st2).sent ++ [{ mtype := 5 }] }) ∧
    (update_dock_status no_search
      { before_unlock with currentTimestep := 3 }).messageQueue = before_unlock.messageQueue ∧
    ∃ st2, scheduler_step 3 1
        [{ shipId := 2, timestep := 3, category := 1, direction := -1, emergency := 0,
           waitingTime := 3, cargo := [5] }]
        (update_dock_status no_search { before_unlock with currentTimestep := 3 }) =
        some st2 ∧
      after_unlock.sent = before_unlock.sent ++
        unlock_notices { before_unlock with currentTimestep := 3 } ++
        (flush_loop 3 st2.messageQueue).1 ++ [{ mtype := 5 }] :=
  unlock_notice_precedes_flushed 3 no_search { mtype := 1, timestep := 3, data := 1 }
    [{ shipId := 2, timestep := 3, category := 1, direction := -1, emergency := 0,
       waitingTime := 3, cargo := [5] }] before_unlock after_unlock (by decide)

/-- C20, refuted as stated: the first ship is docked at dock 1 and undocks at
timestep 3; at timestep 3 a second ship arrives and is docked at dock 0.  The
queue never holds an unlock notice, and in the outbound stream of timestep 3
the unlock notice of the first ship (kind 3) comes before the dock-assignment
notice of the second ship (kind 2), which the flush sends, not after it. -/
theorem unlock_notice_sent_before_allocation :
    controller_step 3 no_search { mtype := 1, timestep := 3, data := 1 }
      [{ shipId := 2, timestep := 3, category := 1, direction := -1, emergency := 0,
         waitingTime := 3, cargo := [5] }] before_unlock = some after_unlock ∧
    before_unlock.allShips.map (fun s => (s.shipId, s.docked, s.dockId, s.undockTime)) =
      [(1, 1, 1, 3)] ∧
    (after_unlock.sent.drop before_unlock.sent.length).map
      (fun m => (m.mtype, m.shipId, m.dockId)) = [(3, 1, 1), (2, 2, 0), (5, 0, 0)] ∧
    (update_dock_status no_search { before_unlock with currentTimestep := 3 }).messageQueue
      = [] ∧
    after_unlock.messageQueue.map (fun n => (n.timestep, n.message.mtype)) = [(4, 4)] := by
  decide

/-! ## The partitions of the numeral range -/

theorem chunk_end_of_not_last (start stop c : Int) (n i : Nat) (h : i + 1 < n) :
    chunk_end start stop c n i = start + (i : Int) * c + c - 1 := by
  unfold chunk_end chunk_start
  rw [if_neg]
  omega

theorem chunk_end_last (start stop c : Int) (n : Nat) (hn : 1 ≤ n) :
    chunk_end start stop c n (n - 1) = stop := by
  unfold chunk_end
  rw [if_pos]
  omega

theorem mul_chunk_le (c : Int) (hc : 0 ≤ c) (i j : Nat) (h : i ≤ j) :
    (i : Int) * c ≤ (j : Int) * c :=
  mul_le_mul_of_nonneg_right (by exact_mod_cast h) hc

/-- C13: for a numeral range from `start` to `stop` and `n ≥ 1` threads, with
`c` the chunk size that `start_guessing` computes: `c` is the floor of the
range size over `n`; the first partition begins at `start` and the last ends
at `stop`; each partition but the last has exactly `c` numerals and is
followed at once by the next; the last has `c` plus the remainder; earlier
partitions lie wholly before later ones; and every numeral of the range lies
in exactly one partition. -/
theorem chunks_partition (start stop c : Int) (n : Nat) (hse : start ≤ stop) (hn : 1 ≤ n)
    (hc : c = Int.tdiv (stop - start + 1) (n : Int)) :
    c = (stop - start + 1) / (n : Int) ∧
    chunk_start start c 0 = start ∧
    chunk_end start stop c n (n - 1) = stop ∧
    (∀ i, i + 1 < n →
      chunk_end start stop c n i - chunk_start start c i + 1 = c ∧
      chunk_end start stop c n i + 1 = chunk_start start c (i + 1)) ∧
    stop - chunk_start start c (n - 1) + 1 = c + (stop - start + 1) % (n : Int) ∧
    (∀ i j, i < j → j < n → chunk_end start stop c n i < chunk_start start c j) ∧
    (∀ x, start ≤ x → x ≤ stop →
      ∃ i, i < n ∧ chunk_start start c i ≤ x ∧ x ≤ chunk_end start stop c n i ∧
        ∀ j, j < n → chunk_start start c j ≤ x → x ≤ chunk_end start stop c n j → j = i) := by
  have hnpos : (0 : Int) < (n : Int) := by exact_mod_cast hn
  have hR : (0 : Int) ≤ stop - start + 1 := by omega
  have hfloor : c = (stop - start + 1) / (n : Int) := by
    rw [hc, Int.tdiv_eq_ediv hR (le_of_lt hnpos)]
  have hc0 : 0 ≤ c := by
    rw [hfloor]
    exact Int.ediv_nonneg hR (le_of_lt hnpos)
  have hdm := Int.ediv_add_emod (stop - start + 1) (n : Int)
  rw [← hfloor] at hdm
  have hm0 := Int.emod_nonneg (stop - start + 1) (ne_of_gt hnpos)
  have hm1 := Int.emod_lt_of_pos (stop - start + 1) hnpos
  have hlast : ((n - 1 : Nat) : Int) * c = (n : Int) * c - c := by
    have : ((n - 1 : Nat) : Int) = (n : Int) - 1 := by omega
    rw [this]
    ring
  refine ⟨hfloor, by simp [chunk_start], chunk_end_last start stop c n hn, ?_, ?_, ?_, ?_⟩
  · intro i hi
    rw [chunk_end_of_not_last start stop c n i hi]
    unfold chunk_start
    constructor
    · ring
    · push_cast
      ring
  · unfold chunk_start
    rw [hlast]
    omega
  · intro i j hij hj
    rw [chunk_end_of_not_last start stop c n i (by omega)]
    unfold chunk_start
    have := mul_chunk_le c hc0 (i + 1) j hij
    push_cast at this
    have e : ((i : Int) + 1) * c = (i : Int) * c + c := by ring
    omega
  · intro x hx1 hx2
    by_cases hx : start + ((n - 1 : Nat) : Int) * c ≤ x
    · refine ⟨n - 1, by omega, hx, by rw [chunk_end_last start stop c n hn]; exact hx2, ?_⟩
      intro j hj hj1 hj2
      by_contra hne
      have hjn : j + 1 < n := by omega
      rw [chunk_end_of_not_last start stop c n j hjn] at hj2
      have := mul_chunk_le c hc0 (j + 1) (n - 1) (by omega)
      push_cast at this
      have e : ((j : Int) + 1) * c = (j : Int) * c + c := by ring
      omega
    · have hxlt : x < start + ((n - 1 : Nat) : Int) * c := not_le.mp hx
      have hcpos : 0 < c := by
        by_contra hcn
        have : c = 0 := by omega
        rw [this] at hxlt
        simp at hxlt
        omega
      have hy0 : 0 ≤ x - start := by omega
      have hq0 : 0 ≤ (x - start) / c := Int.ediv_nonneg hy0 hc0
      have hq1 := Int.ediv_mul_le (x - start) (ne_of_gt hcpos)
      have hq2 := Int.lt_ediv_add_one_mul_self (x - start) hcpos
      have hqi : (((x - start) / c).toNat : Int) = (x - start) / c := Int.toNat_of_nonneg hq0
      have hqlt : (x - start) / c < ((n - 1 : Nat) : Int) := by
        apply Int.ediv_lt_of_lt_mul hcpos
        omega
      have hin : ((x - start) / c).toNat + 1 < n := by omega
      refine ⟨((x - start) / c).toNat, by omega, ?_, ?_, ?_⟩
      · unfold chunk_start
        rw [hqi]
        omega
      · rw [chunk_end_of_not_last start stop c n _ hin, hqi]
        have e : ((x - start) / c + 1) * c = (x - start) / c * c + c := by ring
        omega
      · intro j hj hj1 hj2
        unfold chunk_start at hj1
        have hjn : j + 1 < n := by
          by_contra hcon
          have : j = n - 1 := by omega
          rw [this] at hj1
          omega
        rw [chunk_end_of_not_last start stop c n j hjn] at hj2
        have hjle : (j : Int) ≤ (x - start) / c := Int.le_ediv_of_mul_le hcpos (by omega)
        have hjge : (x - start) / c < (j : Int) + 1 := by
          apply Int.ediv_lt_of_lt_mul hcpos
          have e : ((j : Int) + 1) * c = (j : Int) * c + c := by ring
          omega
        omega

theorem chunks_partition_witness :
    (4 : Int) = (35 - 7 + 1) / ((6 : Nat) : Int) ∧
    chunk_start 7 4 0 = 7 ∧
    chunk_end 7 35 4 (6 : Nat) (6 - 1) = 35 ∧
    (∀ i, i + 1 < 6 →
      chunk_end 7 35 4 (6 : Nat) i - chunk_start 7 4 i + 1 = 4 ∧
      chunk_end 7 35 4 (6 : Nat) i + 1 = chunk_start 7 4 (i + 1)) ∧
    35 - chunk_start 7 4 (6 - 1) + 1 = 4 + (35 - 7 + 1) % ((6 : Nat) : Int) ∧
    (∀ i j, i < j → j < 6 → chunk_end 7 35 4 (6 : Nat) i < chunk_start 7 4 j) ∧
    (∀ x, (7 : Int) ≤ x → x ≤ 35 →
      ∃ i, i < 6 ∧ chunk_start 7 4 i ≤ x ∧ x ≤ chunk_end 7 35 4 (6 : Nat) i ∧
        ∀ j, j < 6 → chunk_start 7 4 j ≤ x → x ≤ chunk_end 7 35 4 (6 : Nat) j → j = i) :=
  chunks_partition 7 35 4 6 (by decide) (by decide) (by decide)

/-! ## Base-6 numerals and their strings -/

theorem map_getD_mem (d : Nat) (h : d < 6) : map.getD d '.' ∈ map := by
  have : d = 0 ∨ d = 1 ∨ d = 2 ∨ d = 3 ∨ d = 4 ∨ d = 5 := by omega
  rcases this with rfl | rfl | rfl | rfl | rfl | rfl <;> decide

theorem map_getD_inj (d e : Nat) (hd : d < 6) (he : e < 6)
    (h : map.getD d '.' = map.getD e '.') : d = e := by
  have h1 : d = 0 ∨ d = 1 ∨ d = 2 ∨ d = 3 ∨ d = 4 ∨ d = 5 := by omega
  have h2 : e = 0 ∨ e = 1 ∨ e = 2 ∨ e = 3 ∨ e = 4 ∨ e = 5 := by omega
  rcases h1 with rfl | rfl | rfl | rfl | rfl | rfl <;>
    rcases h2 with rfl | rfl | rfl | rfl | rfl | rfl <;>
    first
      | rfl
      | exact absurd h (by decide)

theorem map_getD_eq_dot (d : Nat) (hd : d < 6) : map.getD d '.' = '.' ↔ d = 0 := by
  constructor
  · intro h
    exact map_getD_inj d 0 hd (by decide) h
  · rintro rfl
    rfl

theorem map_getD_indexOf (c : Char) (h : c ∈ map) : map.getD (map.indexOf c) '.' = c := by
  have hlt : map.indexOf c < map.length := List.indexOf_lt_length.mpr h
  rw [List.getD_eq_getElem _ _ hlt]
  exact List.getElem_indexOf hlt

theorem map_indexOf_lt (c : Char) (h : c ∈ map) : map.indexOf c < 6 :=
  List.indexOf_lt_length.mpr h

theorem map_indexOf_eq_zero (c : Char) (h : c ∈ map) : map.indexOf c = 0 ↔ c = '.' := by
  constructor
  · intro h0
    have := map_getD_indexOf c h
    rw [h0] at this
    exact this.symm
  · rintro rfl
    rfl

theorem map_at_natCast (d : Nat) (h : d < 6) : map_at (d : Int) = some (map.getD d '.') := by
  unfold map_at
  rw [if_pos (Int.natCast_nonneg d), Int.toNat_natCast]
  have hlt : d < map.length := h
  rw [List.getElem?_eq_getElem hlt, List.getD_eq_getElem _ _ hlt]

/-- On a numeral that is not negative the loop of `base6_to_guess` writes the
symbols of its low base-6 digits. -/
theorem base6_loop_natCast :
    ∀ (k num : Nat) (written : List Char),
      base6_loop k (num : Int) written = some (base6_symbols k num ++ written) := by
  intro k
  induction k with
  | zero => intro num written; rfl
  | succ j ih =>
    intro num written
    have h1 : Int.tmod (num : Int) 6 = ((num % 6 : Nat) : Int) := by
      rw [Int.tmod_eq_emod (Int.natCast_nonneg num) (by decide)]
      norm_cast
    have h2 : Int.tdiv (num : Int) 6 = ((num / 6 : Nat) : Int) := by
      rw [Int.tdiv_eq_ediv (Int.natCast_nonneg num) (by decide)]
      norm_cast
    rw [base6_loop, h1, map_at_natCast _ (Nat.mod_lt _ (by decide)), h2]
    simp only
    rw [ih]
    simp [base6_symbols]

theorem base6_to_guess_natCast (num length : Nat) :
    base6_to_guess (num : Int) length = some (base6_symbols length num) := by
  unfold base6_to_guess
  rw [base6_loop_natCast]
  simp

theorem base6_symbols_length : ∀ (k num : Nat), (base6_symbols k num).length = k := by
  intro k
  induction k with
  | zero => intro _; rfl
  | succ j ih => intro num; simp [base6_symbols, ih]

theorem base6_symbols_mem : ∀ (k num : Nat), ∀ c ∈ base6_symbols k num, c ∈ map := by
  intro k
  induction k with
  | zero => intro _ c hc; simp [base6_symbols] at hc
  | succ j ih =>
    intro num c hc
    simp only [base6_symbols, List.mem_append, List.mem_singleton] at hc
    rcases hc with hc | rfl
    · exact ih _ c hc
    · exact map_getD_mem _ (Nat.mod_lt _ (by decide))

/-- Symbol `i` is the symbol of the base-6 digit of weight `6 ^ (k - 1 - i)`. -/
theorem base6_symbols_getElem? :
    ∀ (k num i : Nat), i < k →
      (base6_symbols k num)[i]? = some (map.getD (num / 6 ^ (k - 1 - i) % 6) '.') := by
  intro k
  induction k with
  | zero => intro _ i hi; omega
  | succ j ih =>
    intro num i hi
    simp only [base6_symbols]
    by_cases hij : i < j
    · rw [List.getElem?_append_left (by rw [base6_symbols_length]; exact hij), ih _ i hij]
      have e : j + 1 - 1 - i = (j - 1 - i) + 1 := by omega
      rw [e, pow_succ, Nat.div_div_eq_div_mul, Nat.mul_comm]
    · have hi1 : i = j := by omega
      subst hi1
      rw [List.getElem?_append_right (by rw [base6_symbols_length]), base6_symbols_length]
      simp

/-- Numerals below `6 ^ k` with the same `k` symbols are equal. -/
theorem base6_symbols_inj :
    ∀ (k a b : Nat), a < 6 ^ k → b < 6 ^ k → base6_symbols k a = base6_symbols k b → a = b := by
  intro k
  induction k with
  | zero => intro a b ha hb _; simp at ha hb; omega
  | succ j ih =>
    intro a b ha hb h
    simp only [base6_symbols] at h
    obtain ⟨h1, h2⟩ := List.append_inj' h rfl
    have hd : a % 6 = b % 6 :=
      map_getD_inj _ _ (Nat.mod_lt _ (by decide)) (Nat.mod_lt _ (by decide))
        (by simpa using h2)
    have hq : a / 6 = b / 6 := by
      apply ih _ _ _ _ h1
      · rw [pow_succ] at ha
        omega
      · rw [pow_succ] at hb
        omega
    omega

theorem numeral_of_append (g : List Char) (c : Char) :
    numeral_of (g ++ [c]) = 6 * numeral_of g + map.indexOf c := by
  simp [numeral_of, List.foldl_append]

/-- A string over the alphabet is the string of its numeral, which is below
`6 ^ length`. -/
theorem base6_symbols_numeral_of (g : List Char) (hg : ∀ c ∈ g, c ∈ map) :
    base6_symbols g.length (numeral_of g) = g ∧ numeral_of g < 6 ^ g.length := by
  induction g using List.reverseRecOn with
  | nil => exact ⟨rfl, by simp [numeral_of]⟩
  | append_singleton l a ih =>
    obtain ⟨ih1, ih2⟩ := ih (fun c hc => hg c (List.mem_append_left _ hc))
    have ha : a ∈ map := hg a (by simp)
    have hlt := map_indexOf_lt a ha
    rw [numeral_of_append]
    have hlen : (l ++ [a]).length = l.length + 1 := by simp
    rw [hlen]
    constructor
    · simp only [base6_symbols]
      have e1 : (6 * numeral_of l + map.indexOf a) / 6 = numeral_of l := by omega
      have e2 : (6 * numeral_of l + map.indexOf a) % 6 = map.indexOf a := by omega
      rw [e1, e2, ih1, map_getD_indexOf a ha]
    · rw [pow_succ]
      omega

/-- Up to `2 ^ 31 - 1` the narrowing keeps the numeral, and `base6_to_guess`
writes the symbols of its base-6 digits, most significant first. -/
theorem base6_to_guess_narrow_small (num : Int) (length : Nat) (h0 : 0 ≤ num)
    (h1 : num < 2147483648) :
    base6_to_guess (to_int num) length = some (base6_symbols length num.toNat) := by
  have e : to_int num = ((num.toNat : Nat) : Int) := by
    unfold to_int
    omega
  rw [e, base6_to_guess_natCast]

/-! ## The numeral range and the keyspace -/

theorem binPow_loop_eq :
    ∀ (fuel : Nat) (x : Int) (n : Nat) (result : Int), n ≤ fuel →
      binPow_loop fuel x (n : Int) result = result * x ^ n := by
  intro fuel
  induction fuel with
  | zero =>
    intro x n result hn
    have : n = 0 := by omega
    subst this
    simp [binPow_loop]
  | succ f ih =>
    intro x n result hn
    rw [binPow_loop]
    by_cases hpos : (n : Int) > 0
    · rw [if_pos hpos]
      have h1 : Int.tmod (n : Int) 2 = ((n % 2 : Nat) : Int) := by
        rw [Int.tmod_eq_emod (Int.natCast_nonneg n) (by decide)]
        norm_cast
      have h2 : Int.tdiv (n : Int) 2 = ((n / 2 : Nat) : Int) := by
        rw [Int.tdiv_eq_ediv (Int.natCast_nonneg n) (by decide)]
        norm_cast
      have hn0 : 0 < n := by exact_mod_cast hpos
      rw [h1, h2, ih _ _ _ (by omega)]
      have hsplit : n = 2 * (n / 2) + n % 2 := by omega
      rcases Nat.mod_two_eq_zero_or_one n with hm | hm
      · rw [hm]
        simp only [Nat.cast_zero, zero_ne_one, if_false]
        have : n = 2 * (n / 2) := by omega
        conv_rhs => rw [this, pow_mul]
        rw [pow_two]
      · rw [hm]
        simp only [Nat.cast_one, if_true]
        have : n = 2 * (n / 2) + 1 := by omega
        conv_rhs => rw [this, pow_succ, pow_mul]
        rw [pow_two]
        ring
    · have : n = 0 := by omega
      subst this
      simp

theorem binPow_natCast (x : Int) (n : Nat) : binPow x (n : Int) = x ^ n := by
  unfold binPow
  rw [Int.toNat_natCast, binPow_loop_eq n x n 1 (le_refl _), one_mul]

theorem range_sum_eq (L : Nat) :
    (List.range L).foldl (fun (acc : Int) (i : Nat) => acc + 5 * binPow 6 (i : Int)) 0 =
      6 ^ L - 1 := by
  induction L with
  | zero => simp
  | succ k ih =>
    rw [List.range_succ, List.foldl_append, ih]
    simp only [List.foldl_cons, List.foldl_nil, binPow_natCast]
    rw [pow_succ]
    ring

/-- The range of `calculate_range`: from 1 to 5 for length 1, and from
`6 ^ (L - 1) + 1` to `6 ^ L - 1` for a greater length `L`. -/
theorem calculate_range_eq (L : Nat) (hL : 1 ≤ L) :
    calculate_range (L : Int) =
      (if L = 1 then 1 else 6 ^ (L - 1) + 1, 6 ^ L - 1) := by
  unfold calculate_range
  by_cases h1 : L = 1
  · subst h1
    simp
  · by_cases h2 : L = 2
    · subst h2
      simp
    · have e1 : ¬ (L : Int) = 1 := by omega
      have e2 : ¬ (L : Int) = 2 := by omega
      have e3 : (L : Int) - 1 = ((L - 1 : Nat) : Int) := by omega
      rw [if_neg e1, if_neg e2, if_neg h1, e3, binPow_natCast, Int.toNat_natCast, range_sum_eq]
      simp

theorem is_valid_guess_iff (g : List Char) (hg : g ≠ []) :
    is_valid_guess g (g.length : Int) = true ↔
      g.head? ≠ some '.' ∧ g.getLast? ≠ some '.' := by
  have hlen : 0 < g.length := List.length_pos.mpr hg
  have e : ((g.length : Int) - 1).toNat = g.length - 1 := by omega
  unfold is_valid_guess
  rw [e, Bool.and_eq_true, decide_eq_true_eq, decide_eq_true_eq, List.getLast?_eq_getElem?,
    List.head?_eq_getElem?, List.getD_eq_getElem _ _ hlen,
    List.getD_eq_getElem _ _ (by omega : g.length - 1 < g.length),
    List.getElem?_eq_getElem hlen, List.getElem?_eq_getElem (by omega : g.length - 1 < g.length)]
  simp

/-- The string of a numeral passes `is_valid_guess` exactly when its first and
its last base-6 digit are not 0. -/
theorem is_valid_guess_symbols (L num : Nat) (hL : 1 ≤ L) :
    is_valid_guess (base6_symbols L num) (L : Int) = true ↔
      num / 6 ^ (L - 1) % 6 ≠ 0 ∧ num % 6 ≠ 0 := by
  have hne : base6_symbols L num ≠ [] := by
    intro h
    have := base6_symbols_length L num
    rw [h] at this
    simp at this
    omega
  have h := is_valid_guess_iff (base6_symbols L num) hne
  rw [base6_symbols_length] at h
  rw [h, List.head?_eq_getElem?, List.getLast?_eq_getElem?, base6_symbols_length,
    base6_symbols_getElem? L num 0 (by omega), base6_symbols_getElem? L num (L - 1) (by omega)]
  have e1 : L - 1 - 0 = L - 1 := by omega
  have e2 : L - 1 - (L - 1) = 0 := by omega
  rw [e1, e2, pow_zero, Nat.div_one]
  simp only [ne_eq, Option.some.injEq]
  rw [map_getD_eq_dot _ (Nat.mod_lt _ (by decide)), map_getD_eq_dot _ (Nat.mod_lt _ (by decide))]

/-- A numeral below `2 ^ 31` yields a candidate exactly when its first and
its last base-6 digit are not 0. -/
theorem valid_candidate_eq (L num : Nat) (hL : 1 ≤ L) (hnum : num < 2147483648) :
    valid_candidate L num = decide (num / 6 ^ (L - 1) % 6 ≠ 0 ∧ num % 6 ≠ 0) := by
  unfold valid_candidate
  rw [base6_to_guess_narrow_small (num : Int) L (Int.natCast_nonneg num)
    (by exact_mod_cast hnum), Int.toNat_natCast]
  simp only
  rw [Bool.eq_iff_iff, is_valid_guess_symbols L num hL, decide_eq_true_eq]

theorem count_block (a : Nat) :
    ((List.range' (6 * a) 6).filter (fun k => decide (k % 6 ≠ 0))).length = 5 := by
  have e : List.range' (6 * a) 6 =
      [6 * a, 6 * a + 1, 6 * a + 2, 6 * a + 3, 6 * a + 4, 6 * a + 5] := by
    simp [List.range']
  rw [e]
  have h0 : (6 * a) % 6 = 0 := by omega
  have h1 : (6 * a + 1) % 6 = 1 := by omega
  have h2 : (6 * a + 2) % 6 = 2 := by omega
  have h3 : (6 * a + 3) % 6 = 3 := by omega
  have h4 : (6 * a + 4) % 6 = 4 := by omega
  have h5 : (6 * a + 5) % 6 = 5 := by omega
  simp [List.filter_cons, h0, h1, h2, h3, h4, h5]

/-- Among `6 * m` consecutive numerals from a multiple of 6 on, `5 * m` are
not multiples of 6. -/
theorem count_not_multiple (a : Nat) :
    ∀ m : Nat, ((List.range' (6 * a) (6 * m)).filter (fun k => decide (k % 6 ≠ 0))).length
      = 5 * m := by
  intro m
  induction m with
  | zero => simp
  | succ j ih =>
    have e : List.range' (6 * a) (6 * (j + 1)) =
        List.range' (6 * a) (6 * j) ++ List.range' (6 * (a + j)) 6 := by
      have := List.range'_append (6 * a) (6 * j) 6 1
      rw [Nat.one_mul] at this
      rw [show 6 * (j + 1) = 6 + 6 * j by ring, ← this]
      congr 2
      ring
    rw [e, List.filter_append, List.length_append, ih, count_block]
    ring

theorem keyspace_size_one : keyspace_size 1 = 5 := by decide

theorem pow_split (L : Nat) (hL : 2 ≤ L) :
    6 ^ (L - 1) = 6 * 6 ^ (L - 2) ∧ 6 ^ L = 36 * 6 ^ (L - 2) := by
  obtain ⟨k, rfl⟩ : ∃ k, L = k + 2 := ⟨L - 2, by omega⟩
  have e1 : k + 2 - 1 = k + 1 := by omega
  have e2 : k + 2 - 2 = k := by omega
  rw [e1, e2, pow_succ, pow_succ, pow_succ]
  constructor <;> ring

theorem first_digit_pos (A k : Nat) (h1 : 6 * A < k) (h2 : k < 36 * A) :
    k / (6 * A) % 6 ≠ 0 := by
  have hA : 0 < 6 * A := by omega
  have hq1 : 1 ≤ k / (6 * A) := (Nat.le_div_iff_mul_le hA).mpr (by omega)
  have hq2 : k / (6 * A) < 6 := (Nat.div_lt_iff_lt_mul hA).mpr (by omega)
  omega

theorem keyspace_size_eq (L : Nat) (hL : 2 ≤ L) (hL11 : L ≤ 11) :
    keyspace_size L = 25 * 6 ^ (L - 2) := by
  obtain ⟨p1, p2⟩ := pow_split L hL
  have hA : 0 < 6 ^ (L - 2) := Nat.pow_pos (by decide)
  have hpow : (6 : Nat) ^ L ≤ 6 ^ 11 := Nat.pow_le_pow_right (by decide) hL11
  have h611 : (6 : Nat) ^ 11 = 362797056 := by norm_num
  unfold keyspace_size
  rw [calculate_range_eq L (by omega), if_neg (by omega)]
  simp only
  have e1 : ((6 : Int) ^ (L - 1) + 1).toNat = 6 * 6 ^ (L - 2) + 1 := by
    have : ((6 : Int) ^ (L - 1) + 1) = ((6 * 6 ^ (L - 2) + 1 : Nat) : Int) := by
      rw [← p1]
      push_cast
      ring
    rw [this, Int.toNat_natCast]
  have e2 : ((6 : Int) ^ L - 1 - (6 ^ (L - 1) + 1) + 1).toNat = 30 * 6 ^ (L - 2) - 1 := by
    have h6 : ((6 : Int) ^ L) = ((36 * 6 ^ (L - 2) : Nat) : Int) := by
      rw [← p2]
      push_cast
      ring
    have h5 : ((6 : Int) ^ (L - 1)) = ((6 * 6 ^ (L - 2) : Nat) : Int) := by
      rw [← p1]
      push_cast
      ring
    rw [h6, h5]
    omega
  rw [e1, e2]
  have hcongr : (List.range' (6 * 6 ^ (L - 2) + 1) (30 * 6 ^ (L - 2) - 1)).filter
      (valid_candidate L) =
      (List.range' (6 * 6 ^ (L - 2) + 1) (30 * 6 ^ (L - 2) - 1)).filter
        (fun k => decide (k % 6 ≠ 0)) := by
    apply List.filter_congr
    intro k hk
    rw [List.mem_range'_1] at hk
    rw [valid_candidate_eq L k (by omega) (by omega), p1]
    have := first_digit_pos (6 ^ (L - 2)) k (by omega) (by omega)
    simp [this]
  have hcons : List.range' (6 * 6 ^ (L - 2)) (6 * (5 * 6 ^ (L - 2))) =
      6 * 6 ^ (L - 2) :: List.range' (6 * 6 ^ (L - 2) + 1) (30 * 6 ^ (L - 2) - 1) := by
    have : 6 * (5 * 6 ^ (L - 2)) = (30 * 6 ^ (L - 2) - 1) + 1 := by omega
    rw [this, List.range'_succ]
  have hcount := count_not_multiple (6 ^ (L - 2)) (5 * 6 ^ (L - 2))
  rw [hcons, List.filter_cons] at hcount
  have hz : (6 * 6 ^ (L - 2)) % 6 = 0 := by omega
  simp only [hz, ne_eq, not_true_eq_false, decide_False, Bool.false_eq_true, if_false] at hcount
  rw [hcongr]
  simp only [ne_eq] at hcount ⊢
  rw [hcount]
  ring

/-- Up to length 11, where every numeral of the range fits an `int` and the
narrowing in `guess_generator` changes none of them: `calculate_range` gives
the range from 1 to 5 for `L = 1` and from `6 ^ (L - 1) + 1` to `6 ^ L - 1`
otherwise; the strings that `base6_to_guess` writes for the numerals of the
range and that pass `is_valid_guess` are exactly the strings of `L` symbols of
the alphabet whose first and last symbol are not `'.'`; different numerals of
the range give different strings; and the number of numerals of the range
whose string passes is 5 for `L = 1` and
`6 ^ L - 2 * 6 ^ (L - 1) + 6 ^ (L - 2)` for `L ≥ 2`. -/
theorem keyspace_characterization (L : Nat) (hL : 1 ≤ L) (hL11 : L ≤ 11) :
    calculate_range (L : Int) = (if L = 1 then 1 else 6 ^ (L - 1) + 1, 6 ^ L - 1) ∧
    (∀ g : List Char,
      (∃ num : Int, (calculate_range (L : Int)).1 ≤ num ∧ num ≤ (calculate_range (L : Int)).2 ∧
        base6_to_guess (to_int num) L = some g ∧ is_valid_guess g (L : Int) = true) ↔
      (g.length = L ∧ (∀ c ∈ g, c ∈ map) ∧ g.head? ≠ some '.' ∧ g.getLast? ≠ some '.')) ∧
    (∀ a b : Int, (calculate_range (L : Int)).1 ≤ a → a ≤ (calculate_range (L : Int)).2 →
      (calculate_range (L : Int)).1 ≤ b → b ≤ (calculate_range (L : Int)).2 →
      base6_to_guess (to_int a) L = base6_to_guess (to_int b) L → a = b) ∧
    ((keyspace_size L : Int) =
      if L = 1 then 5 else 6 ^ L - 2 * 6 ^ (L - 1) + 6 ^ (L - 2)) ∧
    (∀ num : Int, (calculate_range (L : Int)).1 ≤ num →
      num ≤ (calculate_range (L : Int)).2 → to_int num = num) := by
  have hrange := calculate_range_eq L hL
  have hlo : (1 : Int) ≤ (calculate_range (L : Int)).1 := by
    rw [hrange]
    simp only
    split
    · exact le_refl _
    · have : (0 : Int) ≤ 6 ^ (L - 1) := by positivity
      omega
  have hhi : (calculate_range (L : Int)).2 = 6 ^ L - 1 := by rw [hrange]
  have hnat : ∀ num : Int, (calculate_range (L : Int)).1 ≤ num →
      num ≤ (calculate_range (L : Int)).2 → ∃ k : Nat, num = (k : Int) ∧ k < 6 ^ L := by
    intro num h1 h2
    refine ⟨num.toNat, by omega, ?_⟩
    rw [hhi] at h2
    have : (num.toNat : Int) < ((6 ^ L : Nat) : Int) := by
      push_cast
      omega
    exact_mod_cast this
  have hsmall : ∀ num : Int, (calculate_range (L : Int)).1 ≤ num →
      num ≤ (calculate_range (L : Int)).2 → to_int num = num := by
    intro num h1 h2
    rw [hhi] at h2
    have hpow : (6 : Int) ^ L ≤ 6 ^ 11 := by
      have : (6 : Nat) ^ L ≤ 6 ^ 11 := Nat.pow_le_pow_right (by decide) hL11
      exact_mod_cast this
    have h611 : (6 : Int) ^ 11 = 362797056 := by norm_num
    unfold to_int
    omega
  refine ⟨hrange, ?_, ?_, ?_, hsmall⟩
  · intro g
    constructor
    · rintro ⟨num, h1, h2, h3, h4⟩
      rw [hsmall num h1 h2] at h3
      obtain ⟨k, rfl, _⟩ := hnat num h1 h2
      rw [base6_to_guess_natCast] at h3
      cases h3
      have hlen := base6_symbols_length L k
      have hne : base6_symbols L k ≠ [] := by
        intro h
        rw [h] at hlen
        simp at hlen
        omega
      have hv := is_valid_guess_iff (base6_symbols L k) hne
      rw [hlen] at hv
      exact ⟨hlen, base6_symbols_mem L k, hv.mp h4⟩
    · rintro ⟨hlen, hmem, hends⟩
      obtain ⟨hsym, hlt⟩ := base6_symbols_numeral_of g hmem
      rw [hlen] at hsym hlt
      have hne : g ≠ [] := by
        intro h
        rw [h] at hlen
        simp at hlen
        omega
      have hv : is_valid_guess g (L : Int) = true := by
        have := is_valid_guess_iff g hne
        rw [hlen] at this
        exact this.mpr hends
      have hdig := hv
      rw [← hsym, is_valid_guess_symbols L (numeral_of g) hL] at hdig
      have hin1 : (calculate_range (L : Int)).1 ≤ (numeral_of g : Int) := by
        rw [hrange]
        simp only
        split
        · have : numeral_of g ≠ 0 := by
            intro h0
            rw [h0] at hdig
            simp at hdig
          omega
        · rename_i hL1
          obtain ⟨p1, _⟩ := pow_split L (by omega)
          have hge : 6 ^ (L - 1) ≤ numeral_of g := by
            by_contra hcon
            have := Nat.div_eq_of_lt (not_le.mp hcon)
            rw [this] at hdig
            simp at hdig
          have hne1 : numeral_of g ≠ 6 ^ (L - 1) := by
            intro heq
            have := hdig.2
            rw [heq, p1] at this
            omega
          have : ((6 ^ (L - 1) + 1 : Nat) : Int) ≤ (numeral_of g : Int) := by
            exact_mod_cast (by omega : 6 ^ (L - 1) + 1 ≤ numeral_of g)
          push_cast at this
          exact this
      have hin2 : (numeral_of g : Int) ≤ (calculate_range (L : Int)).2 := by
        rw [hhi]
        have : (numeral_of g : Int) + 1 ≤ ((6 ^ L : Nat) : Int) := by exact_mod_cast hlt
        push_cast at this
        omega
      refine ⟨(numeral_of g : Int), hin1, hin2, ?_, hv⟩
      rw [hsmall _ hin1 hin2, base6_to_guess_natCast, hsym]
  · intro a b ha1 ha2 hb1 hb2 hab
    rw [hsmall a ha1 ha2, hsmall b hb1 hb2] at hab
    obtain ⟨ka, rfl, hka⟩ := hnat a ha1 ha2
    obtain ⟨kb, rfl, hkb⟩ := hnat b hb1 hb2
    rw [base6_to_guess_natCast, base6_to_guess_natCast] at hab
    have := base6_symbols_inj L ka kb hka hkb (Option.some.inj hab)
    rw [this]
  · by_cases h1 : L = 1
    · subst h1
      rw [keyspace_size_one]
      rfl
    · rw [if_neg h1, keyspace_size_eq L (by omega) hL11]
      obtain ⟨p1, p2⟩ := pow_split L (by omega)
      have q1 : ((6 : Int) ^ (L - 1)) = 6 * 6 ^ (L - 2) := by exact_mod_cast p1
      have q2 : ((6 : Int) ^ L) = 36 * 6 ^ (L - 2) := by exact_mod_cast p2
      rw [q1, q2]
      push_cast
      ring

theorem keyspace_characterization_witness :
    calculate_range ((3 : Nat) : Int) = (if 3 = 1 then 1 else 6 ^ (3 - 1) + 1, 6 ^ 3 - 1) ∧
    (∀ g : List Char,
      (∃ num : Int, (calculate_range ((3 : Nat) : Int)).1 ≤ num ∧
        num ≤ (calculate_range ((3 : Nat) : Int)).2 ∧
        base6_to_guess (to_int num) 3 = some g ∧ is_valid_guess g ((3 : Nat) : Int) = true) ↔
      (g.length = 3 ∧ (∀ c ∈ g, c ∈ map) ∧ g.head? ≠ some '.' ∧ g.getLast? ≠ some '.')) ∧
    (∀ a b : Int, (calculate_range ((3 : Nat) : Int)).1 ≤ a →
      a ≤ (calculate_range ((3 : Nat) : Int)).2 →
      (calculate_range ((3 : Nat) : Int)).1 ≤ b → b ≤ (calculate_range ((3 : Nat) : Int)).2 →
      base6_to_guess (to_int a) 3 = base6_to_guess (to_int b) 3 → a = b) ∧
    ((keyspace_size 3 : Int) = if 3 = 1 then 5 else 6 ^ 3 - 2 * 6 ^ (3 - 1) + 6 ^ (3 - 2)) ∧
    (∀ num : Int, (calculate_range ((3 : Nat) : Int)).1 ≤ num →
      num ≤ (calculate_range ((3 : Nat) : Int)).2 → to_int num = num) :=
  keyspace_characterization 3 (by decide) (by decide)


/-! ## The keyspace from length 12 on -/

/-- For an `int` argument that is not positive, `base6_to_guess` reads `map`
outside the array or writes `'.'` at every position. -/
theorem base6_loop_nonpos :
    ∀ (i : Nat) (n : Int) (w : List Char), n ≤ 0 →
      base6_loop i n w = none ∨ base6_loop i n w = some (List.replicate i '.' ++ w) := by
  intro i
  induction i with
  | zero =>
    intro n w _
    right
    rfl
  | succ j ih =>
    intro n w hn
    obtain ⟨m, rfl⟩ : ∃ m : Nat, n = -(m : Int) := ⟨(-n).toNat, by omega⟩
    have hmod : Int.tmod (-(m : Int)) 6 = -((m % 6 : Nat) : Int) := by
      rw [Int.tmod_def, Int.neg_tdiv, Int.tdiv_eq_ediv (Int.natCast_nonneg m) (by decide)]
      push_cast
      omega
    have hdiv : Int.tdiv (-(m : Int)) 6 = -((m / 6 : Nat) : Int) := by
      rw [Int.neg_tdiv, Int.tdiv_eq_ediv (Int.natCast_nonneg m) (by decide)]
      norm_cast
    rw [base6_loop, hmod, hdiv]
    by_cases h0 : m % 6 = 0
    · rw [h0]
      have e : map_at (-((0 : Nat) : Int)) = some '.' := by decide
      rw [e]
      simp only
      rcases ih (-((m / 6 : Nat) : Int)) ('.' :: w) (by omega) with hnone | hsome
      · exact Or.inl hnone
      · right
        rw [hsome, List.replicate_succ', List.append_assoc]
        rfl
    · left
      have e : map_at (-((m % 6 : Nat) : Int)) = none := by
        unfold map_at
        rw [if_neg (by omega)]
      rw [e]

/-- From length 13 on no numeral yields a candidate: the `int` that
`base6_to_guess` receives is below `6 ^ 12` in absolute value, so the first
symbol written is `'.'`, unless `map` is read outside the array. -/
theorem valid_candidate_length_ge_13 (L num : Nat) (hL : 13 ≤ L) :
    valid_candidate L num = false := by
  unfold valid_candidate
  have hb : -2147483648 ≤ to_int (num : Int) ∧ to_int (num : Int) < 2147483648 := by
    unfold to_int
    omega
  by_cases hpos : 0 ≤ to_int (num : Int)
  · obtain ⟨k, hk⟩ : ∃ k : Nat, to_int (num : Int) = (k : Int) :=
      ⟨(to_int (num : Int)).toNat, by omega⟩
    rw [hk, base6_to_guess_natCast]
    simp only
    have hklt : k < 2147483648 := by omega
    have h612 : (6 : Nat) ^ 12 = 2176782336 := by norm_num
    have hpow : (6 : Nat) ^ 12 ≤ 6 ^ (L - 1) := Nat.pow_le_pow_right (by decide) (by omega)
    have hdiv : k / 6 ^ (L - 1) = 0 := Nat.div_eq_of_lt (by omega)
    cases hv : is_valid_guess (base6_symbols L k) (L : Int)
    · rfl
    · have := (is_valid_guess_symbols L k (by omega)).mp hv
      rw [hdiv] at this
      exact absurd rfl this.1
  · unfold base6_to_guess
    rcases base6_loop_nonpos L (to_int (num : Int)) [] (by omega) with hnone | hsome
    · rw [hnone]
    · rw [hsome]
      simp only
      obtain ⟨j, rfl⟩ : ∃ j, L = j + 1 := ⟨L - 1, by omega⟩
      unfold is_valid_guess
      simp [List.replicate_succ]

/-- C12, on the code: for length 13 the range of `calculate_range` holds the
numeral 2^32 of the string `599.5.8.599.8`, whose first and last symbol are
not `'.'`; but `guess_generator` hands the numeral to the `int` parameter of
`base6_to_guess`, which receives 0 and writes 13 symbols `'.'`, a string that
does not pass `is_valid_guess`.  From length 13 on no numeral at all yields a
candidate, so the number of candidates for length 13 is 0, not
`6 ^ 13 - 2 * 6 ^ 12 + 6 ^ 11 = 9069926400`.  For length 12 the numeral
2^31 + 1 of the range, whose string `997.76..9977` has first and last symbol
other than `'.'`, arrives as a negative `int` and `map` is read outside the
array. -/
theorem keyspace_length_13_empty :
    calculate_range 13 = (2176782337, 13060694015) ∧
    numeral_of ['5', '9', '9', '.', '5', '.', '8', '.', '5', '9', '9', '.', '8'] =
      4294967296 ∧
    is_valid_guess ['5', '9', '9', '.', '5', '.', '8', '.', '5', '9', '9', '.', '8'] 13 =
      true ∧
    to_int 4294967296 = 0 ∧
    base6_to_guess (to_int 4294967296) 13 = some (List.replicate 13 '.') ∧
    is_valid_guess (List.replicate 13 '.') 13 = false ∧
    valid_candidate 13 4294967296 = false ∧
    (∀ L num : Nat, 13 ≤ L → valid_candidate L num = false) ∧
    keyspace_size 13 = 0 ∧
    (6 : Int) ^ 13 - 2 * 6 ^ 12 + 6 ^ 11 = 9069926400 ∧
    calculate_range 12 = (362797057, 2176782335) ∧
    numeral_of ['9', '9', '7', '.', '7', '6', '.', '.', '9', '9', '7', '7'] = 2147483649 ∧
    to_int 2147483649 = -2147483647 ∧
    base6_to_guess (to_int 2147483649) 12 = none ∧
    valid_candidate 12 2147483649 = false := by
  refine ⟨by decide, by decide, by decide, by decide, by decide, by decide, by decide,
    fun L num hL => valid_candidate_length_ge_13 L num hL, ?_, by norm_num, by decide,
    by decide, by decide, by decide, by decide⟩
  unfold keyspace_size
  rw [List.length_eq_zero, List.filter_eq_nil_iff]
  intro num _
  rw [valid_candidate_length_ge_13 13 num (le_refl _)]
  exact Bool.false_ne_true

/-! ## The narrowing of the numeral in `guess_generator` -/

/-- C14, on the code: for length 13 the numerals 2^32 and 2^33 lie in the
range of `calculate_range`.  The most significant base-6 digit of 2^32 is 1,
with symbol `'5'`, and `base6_to_guess` writes `5..` for the numeral itself;
but `guess_generator` hands the numeral to an `int` parameter, which receives
0, and 13 symbols `'.'` are written, the same for 2^33.  For length 12 the
numeral 2^31 of the range arrives as -2^31, and `map` is read at index -2. -/
theorem base6_to_guess_narrowed :
    calculate_range 13 = (2176782337, 13060694015) ∧
    (4294967296 / 6 ^ 12 % 6 = 1 ∧ map.getD 1 '.' = '5') ∧
    base6_to_guess 4294967296 13 =
      some ['5', '9', '9', '.', '5', '.', '8', '.', '5', '9', '9', '.', '8'] ∧
    to_int 4294967296 = 0 ∧
    base6_to_guess (to_int 4294967296) 13 = some (List.replicate 13 '.') ∧
    base6_to_guess (to_int 8589934592) 13 = some (List.replicate 13 '.') ∧
    calculate_range 12 = (362797057, 2176782335) ∧
    to_int 2147483648 = -2147483648 ∧
    Int.tmod (-2147483648) 6 = -2 ∧
    base6_to_guess (to_int 2147483648) 12 = none := by
  decide

/-! ## The search for a planted string -/

/-- C11, on the code: with one worker that answers correct exactly for the
planted string of 13 symbols `'9'`, the scan of `start_guessing` begins at the
numeral `6 ^ 12 + 1`, which reaches `base6_to_guess` as a negative `int`, and
`map` is read at index -3: the behaviour is undefined and the planted string
is not returned. -/
theorem start_guessing_length_13 :
    (calculate_range 13).1 = 2176782337 ∧
    to_int 2176782337 = -2118184959 ∧
    Int.tmod (-2118184959) 6 = -3 ∧
    map_at (-3) = none ∧
    start_guessing (planted_workers (List.replicate 13 '9')) 13 1 0 = none := by
  decide


/-- The value that the shared variables take in a scan of the numerals from
`num` on, `k` of them, when `target` is the only numeral answered correct. -/
theorem guess_generator_loop_planted (solver : List Char → Bool) (L : Nat) (g : List Char)
    (target : Nat) (hsolver : ∀ guess, solver guess = decide (guess = g))
    (htarget : base6_symbols L target = g) (hlt : target < 6 ^ L)
    (hvalid : is_valid_guess g (L : Int) = true) :
    ∀ (k : Nat) (num : Int) (sh : Search),
      (∀ x : Int, num ≤ x → x < num + k → 0 ≤ x ∧ x < 2147483648 ∧ x.toNat < 6 ^ L) →
      guess_generator_loop solver (L : Int) k num sh =
        some (if sh.found ≠ 0 then sh
          else if num ≤ (target : Int) ∧ (target : Int) < num + k then
            { found := 1, correct_guess := g }
          else sh) := by
  intro k
  induction k with
  | zero =>
    intro num sh _
    rw [guess_generator_loop]
    by_cases hf : sh.found ≠ 0
    · rw [if_pos hf]
    · rw [if_neg hf, if_neg]
      push_cast
      omega
  | succ j ih =>
    intro num sh hrange
    rw [guess_generator_loop]
    by_cases hf : sh.found ≠ 0
    · rw [if_pos hf, if_pos hf]
    · rw [if_neg hf, if_neg hf]
      obtain ⟨h0, h1, h2⟩ := hrange num (le_refl _) (by push_cast; omega)
      rw [Int.toNat_natCast, base6_to_guess_narrow_small num L h0 h1]
      simp only
      have hrest := ih (num + 1) sh (fun x hx1 hx2 => hrange x (by omega) (by push_cast; omega))
      rw [if_neg hf] at hrest
      have hnum : num = (target : Int) ↔ base6_symbols L num.toNat = g := by
        constructor
        · intro e
          rw [e, Int.toNat_natCast, htarget]
        · intro e
          rw [← htarget] at e
          have := base6_symbols_inj L _ _ h2 hlt e
          omega
      by_cases hv : is_valid_guess (base6_symbols L num.toNat) (L : Int) = true
      · rw [if_pos hv, hsolver]
        by_cases hg : base6_symbols L num.toNat = g
        · have hn := hnum.mpr hg
          rw [if_pos (by simpa using hg), if_pos (by push_cast; omega), hg]
        · have hn : num ≠ (target : Int) := fun e => hg (hnum.mp e)
          rw [if_neg (by simpa using hg), hrest]
          congr 1
          by_cases hc : num + 1 ≤ (target : Int) ∧ (target : Int) < num + 1 + (j : Int)
          · rw [if_pos hc, if_pos (by push_cast; omega)]
          · rw [if_neg hc, if_neg (by push_cast; omega)]
      · rw [if_neg hv, hrest]
        have hn : num ≠ (target : Int) := by
          intro e
          apply hv
          rw [hnum.mp e]
          exact hvalid
        congr 1
        by_cases hc : num + 1 ≤ (target : Int) ∧ (target : Int) < num + 1 + (j : Int)
        · rw [if_pos hc, if_pos (by push_cast; omega)]
        · rw [if_neg hc, if_neg (by push_cast; omega)]

/-- The partitions stay inside the range. -/
theorem chunk_within (start stop c : Int) (n : Nat) (hse : start ≤ stop) (hn : 1 ≤ n)
    (hc : c = Int.tdiv (stop - start + 1) (n : Int)) (i : Nat) (hi : i < n) :
    start ≤ chunk_start start c i ∧ chunk_end start stop c n i ≤ stop := by
  have hnpos : (0 : Int) < (n : Int) := by exact_mod_cast hn
  have hR : (0 : Int) ≤ stop - start + 1 := by omega
  have hfloor : c = (stop - start + 1) / (n : Int) := by
    rw [hc, Int.tdiv_eq_ediv hR (le_of_lt hnpos)]
  have hc0 : 0 ≤ c := by
    rw [hfloor]
    exact Int.ediv_nonneg hR (le_of_lt hnpos)
  have hmul : (n : Int) * c ≤ stop - start + 1 := by
    rw [hfloor, mul_comm]
    exact Int.ediv_mul_le _ (ne_of_gt hnpos)
  constructor
  · unfold chunk_start
    have : 0 ≤ (i : Int) * c := mul_nonneg (Int.natCast_nonneg i) hc0
    omega
  · by_cases hlast : i + 1 < n
    · rw [chunk_end_of_not_last start stop c n i hlast]
      have := mul_chunk_le c hc0 (i + 1) n (by omega)
      push_cast at this
      have e : ((i : Int) + 1) * c = (i : Int) * c + c := by ring
      omega
    · have : i = n - 1 := by omega
      rw [this, chunk_end_last start stop c n hn]

/-- Every numeral of the range lies in the partition of some thread. -/
theorem chunk_cover (start stop c : Int) (n : Nat) (hn : 1 ≤ n)
    (hc : c = Int.tdiv (stop - start + 1) (n : Int)) (x : Int) (hx1 : start ≤ x)
    (hx2 : x ≤ stop) :
    ∃ i, i < n ∧ chunk_start start c i ≤ x ∧ x ≤ chunk_end start stop c n i := by
  have hnpos : (0 : Int) < (n : Int) := by exact_mod_cast hn
  have hR : (0 : Int) ≤ stop - start + 1 := by omega
  have hfloor : c = (stop - start + 1) / (n : Int) := by
    rw [hc, Int.tdiv_eq_ediv hR (le_of_lt hnpos)]
  have hc0 : 0 ≤ c := by
    rw [hfloor]
    exact Int.ediv_nonneg hR (le_of_lt hnpos)
  by_cases hx : chunk_start start c (n - 1) ≤ x
  · exact ⟨n - 1, by omega, hx, by rw [chunk_end_last start stop c n hn]; exact hx2⟩
  · unfold chunk_start at hx
    have hxlt : x < start + ((n - 1 : Nat) : Int) * c := not_le.mp hx
    have hcpos : 0 < c := by
      by_contra hcn
      have : c = 0 := by omega
      rw [this] at hxlt
      simp at hxlt
      omega
    have hy0 : 0 ≤ x - start := by omega
    have hq0 : 0 ≤ (x - start) / c := Int.ediv_nonneg hy0 hc0
    have hq1 := Int.ediv_mul_le (x - start) (ne_of_gt hcpos)
    have hq2 := Int.lt_ediv_add_one_mul_self (x - start) hcpos
    have hqi : (((x - start) / c).toNat : Int) = (x - start) / c := Int.toNat_of_nonneg hq0
    have hqlt : (x - start) / c < ((n - 1 : Nat) : Int) := by
      apply Int.ediv_lt_of_lt_mul hcpos
      omega
    have hin : ((x - start) / c).toNat + 1 < n := by omega
    refine ⟨((x - start) / c).toNat, by omega, ?_, ?_⟩
    · unfold chunk_start
      rw [hqi]
      omega
    · rw [chunk_end_of_not_last start stop c n _ hin, hqi]
      have e : ((x - start) / c + 1) * c = (x - start) / c * c + c := by ring
      omega

/-- The threads run one after the other: the planted string is found by the
first listed thread whose partition holds its numeral. -/
theorem run_threads_planted (workers : Nat → Int → List Char → Bool) (L : Nat) (dockId : Int)
    (g : List Char) (target : Nat) (start stop c : Int) (n : Nat)
    (hworkers : ∀ i guess, workers i dockId guess = decide (guess = g))
    (htarget : base6_symbols L target = g) (hlt : target < 6 ^ L)
    (hvalid : is_valid_guess g (L : Int) = true)
    (hchunks : ∀ i, i < n → ∀ x : Int, chunk_start start c i ≤ x →
      x ≤ chunk_end start stop c n i → 0 ≤ x ∧ x < 2147483648 ∧ x.toNat < 6 ^ L) :
    ∀ (l : List Nat) (sh : Search), (∀ i ∈ l, i < n) →
      run_threads workers (L : Int) dockId start stop c n l sh =
        some (if sh.found ≠ 0 then sh
          else if ∃ i ∈ l, chunk_start start c i ≤ (target : Int) ∧
              (target : Int) ≤ chunk_end start stop c n i then
            { found := 1, correct_guess := g }
          else sh) := by
  intro l
  induction l with
  | nil =>
    intro sh _
    rw [run_threads]
    by_cases hf : sh.found ≠ 0
    · rw [if_pos hf]
    · rw [if_neg hf, if_neg]
      simp
  | cons i rest ih =>
    intro sh hl
    have hi : i < n := hl i (List.mem_cons_self _ _)
    have hgen := guess_generator_loop_planted (workers i dockId) L g target (hworkers i) htarget
      hlt hvalid (chunk_end start stop c n i - chunk_start start c i + 1).toNat
      (chunk_start start c i) sh
      (fun x hx1 hx2 => hchunks i hi x hx1 (by omega))
    rw [run_threads]
    unfold guess_generator
    rw [hgen]
    simp only
    rw [ih _ (fun j hj => hl j (List.mem_cons_of_mem _ hj))]
    congr 1
    have hin : (chunk_start start c i ≤ (target : Int) ∧
        (target : Int) < chunk_start start c i +
          ((chunk_end start stop c n i - chunk_start start c i + 1).toNat : Int)) ↔
        (chunk_start start c i ≤ (target : Int) ∧
          (target : Int) ≤ chunk_end start stop c n i) := by
      constructor
      · rintro ⟨h1, h2⟩
        exact ⟨h1, by omega⟩
      · rintro ⟨h1, h2⟩
        exact ⟨h1, by omega⟩
    by_cases hf : sh.found ≠ 0
    · simp only [if_pos hf]
    · simp only [if_neg hf]
      by_cases hhere : chunk_start start c i ≤ (target : Int) ∧
          (target : Int) ≤ chunk_end start stop c n i
      · rw [if_pos (hin.mpr hhere)]
        simp [hhere]
      · rw [if_neg (fun h => hhere (hin.mp h)), if_neg hf]
        by_cases hex : ∃ j ∈ rest, chunk_start start c j ≤ (target : Int) ∧
            (target : Int) ≤ chunk_end start stop c n j
        · obtain ⟨j, hj, hjc⟩ := hex
          rw [if_pos ⟨j, hj, hjc⟩, if_pos ⟨j, List.mem_cons_of_mem _ hj, hjc⟩]
        · rw [if_neg hex, if_neg]
          rintro ⟨j, hj, hjc⟩
          rcases List.mem_cons.mp hj with rfl | hj1
          · exact hhere hjc
          · exact hex ⟨j, hj1, hjc⟩

/-- Up to length 11, where every numeral of the range fits an `int`:
`start_guessing`, its threads run one after the other, returns the planted
string, for every number `n ≥ 1` of workers that answer correct exactly for
it, when the string has `L` symbols of the alphabet, the first and the last
not `'.'`. -/
theorem start_guessing_finds_planted (workers : Nat → Int → List Char → Bool) (L n : Nat)
    (dockId : Int) (g : List Char) (hL : 1 ≤ L) (hL11 : L ≤ 11) (hn : 1 ≤ n)
    (hlen : g.length = L) (hmem : ∀ c ∈ g, c ∈ map) (hhead : g.head? ≠ some '.')
    (hlast : g.getLast? ≠ some '.')
    (hworkers : ∀ i guess, workers i dockId guess = decide (guess = g)) :
    start_guessing workers (L : Int) (n : Int) dockId = some g := by
  obtain ⟨hsym, hlt⟩ := base6_symbols_numeral_of g hmem
  rw [hlen] at hsym hlt
  have hne : g ≠ [] := by
    intro h
    rw [h] at hlen
    simp at hlen
    omega
  have hvalid : is_valid_guess g (L : Int) = true := by
    have := is_valid_guess_iff g hne
    rw [hlen] at this
    exact this.mpr ⟨hhead, hlast⟩
  have hdig := hvalid
  rw [← hsym, is_valid_guess_symbols L (numeral_of g) hL] at hdig
  have hrange := calculate_range_eq L hL
  have hpow : (6 : Nat) ^ L ≤ 6 ^ 11 := Nat.pow_le_pow_right (by decide) hL11
  have h611 : (6 : Nat) ^ 11 = 362797056 := by norm_num
  have hpowi : ((6 : Int) ^ L) = ((6 ^ L : Nat) : Int) := by push_cast; rfl
  have hlo1 : (1 : Int) ≤ (calculate_range (L : Int)).1 := by
    rw [hrange]
    simp only
    split
    · exact le_refl _
    · have : (0 : Int) ≤ 6 ^ (L - 1) := by positivity
      omega
  have hhi : (calculate_range (L : Int)).2 = ((6 ^ L : Nat) : Int) - 1 := by
    rw [hrange, hpowi]
  have htlo : (calculate_range (L : Int)).1 ≤ (numeral_of g : Int) := by
    rw [hrange]
    simp only
    split
    · have : numeral_of g ≠ 0 := by
        intro h0
        rw [h0] at hdig
        simp at hdig
      omega
    · obtain ⟨p1, _⟩ := pow_split L (by omega)
      have hge : 6 ^ (L - 1) ≤ numeral_of g := by
        by_contra hcon
        have := Nat.div_eq_of_lt (not_le.mp hcon)
        rw [this] at hdig
        simp at hdig
      have hne1 : numeral_of g ≠ 6 ^ (L - 1) := by
        intro heq
        have := hdig.2
        rw [heq, p1] at this
        omega
      have : ((6 ^ (L - 1) + 1 : Nat) : Int) ≤ (numeral_of g : Int) := by
        exact_mod_cast (by omega : 6 ^ (L - 1) + 1 ≤ numeral_of g)
      push_cast at this
      exact this
  have hthi : (numeral_of g : Int) ≤ (calculate_range (L : Int)).2 := by
    rw [hhi]
    have : (numeral_of g : Int) + 1 ≤ ((6 ^ L : Nat) : Int) := by exact_mod_cast hlt
    omega
  have hse : (calculate_range (L : Int)).1 ≤ (calculate_range (L : Int)).2 :=
    le_trans htlo hthi
  have hchunks : ∀ i, i < n → ∀ x : Int,
      chunk_start (calculate_range (L : Int)).1
        (Int.tdiv ((calculate_range (L : Int)).2 - (calculate_range (L : Int)).1 + 1) (n : Int))
        i ≤ x →
      x ≤ chunk_end (calculate_range (L : Int)).1 (calculate_range (L : Int)).2
        (Int.tdiv ((calculate_range (L : Int)).2 - (calculate_range (L : Int)).1 + 1) (n : Int))
        n i →
      0 ≤ x ∧ x < 2147483648 ∧ x.toNat < 6 ^ L := by
    intro i hi x hx1 hx2
    obtain ⟨w1, w2⟩ := chunk_within _ _ _ n hse hn rfl i hi
    have hx3 : x ≤ ((6 ^ L : Nat) : Int) - 1 := by
      rw [← hhi]
      exact le_trans hx2 w2
    have hx0 : 0 ≤ x := by omega
    refine ⟨hx0, by omega, ?_⟩
    have : (x.toNat : Int) < ((6 ^ L : Nat) : Int) := by omega
    exact_mod_cast this
  obtain ⟨i, hi, hic⟩ := chunk_cover _ _ _ n hn rfl (numeral_of g : Int) htlo hthi
  unfold start_guessing
  simp only
  rw [Int.toNat_natCast,
    run_threads_planted workers L dockId g (numeral_of g) _ _ _ n hworkers hsym hlt hvalid
      hchunks (List.range n) _ (fun j hj => List.mem_range.mp hj)]
  simp only
  rw [if_neg (by decide), if_pos ⟨i, List.mem_range.mpr hi, hic⟩]


/-! ## The two passes of the allocation -/

/-- What the loop body does for ship index `i`: it leaves the state as it is,
and then the ship is settled for the loop, or it is `dock_ship` at a dock that
fits the ship. -/
theorem consider_ship_cases (fuel : Nat) ( emergencyOnly : Bool) (i : Nat) (st st1 : State)
    (h : consider_ship fuel emergencyOnly i st = some st1) :
    (st1 = st ∧ settled emergencyOnly st i) ∨
    (∃ dcs s d p q1, st.allShips[i]? = some s ∧ skip_ship emergencyOnly s = false ∧
      st.docks[dcs]? = some d ∧ fits_at st s dcs ∧ 0 ≤ p ∧
      st1 = docked_state st dcs i s d p q1) := by
  rcases Option.eq_none_or_eq_some (st.allShips[i]?) with hn | ⟨s, hs⟩
  · unfold consider_ship at h
    rw [hn] at h
    exact absurd h (by simp)
  · by_cases hskip : skip_ship emergencyOnly s = true
    · left
      unfold consider_ship at h
      rw [hs] at h
      simp only [hskip, if_true, Option.some.injEq] at h
      refine ⟨h.symm, ?_⟩
      intro s1 hs1 hk
      rw [hs] at hs1
      cases hs1
      rw [hskip] at hk
      exact absurd hk (by decide)
    · have hskip1 : skip_ship emergencyOnly s = false := by
        cases hk : skip_ship emergencyOnly s
        · rfl
        · exact absurd hk hskip
      rcases consider_ship_spec fuel emergencyOnly i st s hs hskip1 with ⟨hno, hc⟩ | ⟨dcs, hfit, hc⟩
      · left
        rw [hc] at h
        refine ⟨(Option.some.inj h).symm, ?_⟩
        intro s1 hs1 _
        rw [hs] at hs1
        cases hs1
        exact hno
      · right
        rw [hc] at h
        obtain ⟨s1, d, p, q1, hs1, hd, _, hp, hst⟩ := dock_ship_some fuel dcs i st st1 h
        rw [hs] at hs1
        cases hs1
        exact ⟨dcs, s, d, p, q1, hs, hskip1, hd, hfit.1, hp, hst⟩

/-- A ship that is docked is skipped by either loop. -/
theorem skip_ship_ship_after ( emergencyOnly : Bool) (s : Ship) (d : Dock) (t p : Int) :
    skip_ship emergencyOnly (ship_after s d t p) = true := by
  unfold skip_ship ship_after
  simp

/-- A docking leaves every settled ship settled, and settles the docked ship. -/
theorem settled_docked_state ( emergencyOnly : Bool) (st : State) (dcs i : Nat) (s : Ship)
    (d : Dock) (p : Int) (q1 : List ScheduledMessage) (hs : st.allShips[i]? = some s)
    (hd : st.docks[dcs]? = some d) (hp : 0 ≤ p) (k : Nat)
    (hk : k = i ∨ settled emergencyOnly st k) :
    settled emergencyOnly (docked_state st dcs i s d p q1) k := by
  have hi : i < st.allShips.length := (List.getElem?_eq_some_iff.mp hs).1
  have hdl : dcs < st.docks.length := (List.getElem?_eq_some_iff.mp hd).1
  intro s1 hs1 hskip j hfit
  have hs1a : (st.allShips.set i (ship_after s d st.currentTimestep p))[k]? = some s1 := hs1
  by_cases hki : k = i
  · rw [hki, List.getElem?_set_self hi] at hs1a
    cases hs1a
    rw [skip_ship_ship_after] at hskip
    exact absurd hskip (by decide)
  · rw [List.getElem?_set_ne (fun e => hki e.symm)] at hs1a
    have hset : settled emergencyOnly st k := hk.resolve_left hki
    obtain ⟨d1, hd1, hfree, hcat⟩ := hfit
    have hd1a : (st.docks.set dcs (dock_after d st.currentTimestep p))[j]? = some d1 := hd1
    have hfree1 : d1.dockFreeAt ≤ st.currentTimestep := hfree
    by_cases hjd : j = dcs
    · rw [hjd, List.getElem?_set_self hdl] at hd1a
      cases hd1a
      have : st.currentTimestep + p + 2 ≤ st.currentTimestep := hfree1
      omega
    · rw [List.getElem?_set_ne (fun e => hjd e.symm)] at hd1a
      exact hset s1 hs1a hskip j ⟨d1, hd1a, hfree1, hcat⟩

/-- The loop body for ship index `i` settles ship `i` for its loop and leaves
every settled ship settled. -/
theorem consider_ship_settled (fuel : Nat) (e e1 : Bool) (i : Nat) (st st1 : State)
    (h : consider_ship fuel e i st = some st1) :
    settled e st1 i ∧ ∀ k, settled e1 st k → settled e1 st1 k := by
  rcases consider_ship_cases fuel e i st st1 h with ⟨heq, hset⟩ | ⟨dcs, s, d, p, q1, hs, _, hd, _, hp, hst⟩
  · rw [heq]
    exact ⟨hset, fun _ hk => hk⟩
  · rw [hst]
    exact ⟨settled_docked_state e st dcs i s d p q1 hs hd hp i (Or.inl rfl),
      fun k hk => settled_docked_state e1 st dcs i s d p q1 hs hd hp k (Or.inr hk)⟩

/-- A loop leaves settled ships settled. -/
theorem assign_pass_keeps_settled (fuel : Nat) (e e1 : Bool) :
    ∀ (l : List Nat) (st st1 : State), assign_pass fuel e l st = some st1 →
      ∀ k, settled e1 st k → settled e1 st1 k := by
  intro l
  induction l with
  | nil =>
    intro st st1 h
    rw [assign_pass] at h
    cases h
    exact fun _ hk => hk
  | cons i rest ih =>
    intro st st1 h k hk
    rw [assign_pass] at h
    rcases Option.eq_none_or_eq_some (consider_ship fuel e i st) with hn | ⟨sm, hsm⟩
    · rw [hn] at h
      exact absurd h (by simp)
    · rw [hsm] at h
      exact ih sm st1 h k ((consider_ship_settled fuel e e1 i st sm hsm).2 k hk)

/-- A loop settles every ship index it visits. -/
theorem assign_pass_settles (fuel : Nat) (e : Bool) :
    ∀ (l : List Nat) (st st1 : State), assign_pass fuel e l st = some st1 →
      ∀ k ∈ l, settled e st1 k := by
  intro l
  induction l with
  | nil =>
    intro st st1 _ k hk
    exact absurd hk (List.not_mem_nil k)
  | cons i rest ih =>
    intro st st1 h k hk
    rw [assign_pass] at h
    rcases Option.eq_none_or_eq_some (consider_ship fuel e i st) with hn | ⟨sm, hsm⟩
    · rw [hn] at h
      exact absurd h (by simp)
    · rw [hsm] at h
      rcases List.mem_cons.mp hk with rfl | hr
      · exact assign_pass_keeps_settled fuel e e rest sm st1 h k
          (consider_ship_settled fuel e e k st sm hsm).1
      · exact ih sm st1 h k hr

/-- A ship index outside the roster is settled. -/
theorem settled_of_length_le (e : Bool) (st : State) (k : Nat) (h : st.allShips.length ≤ k) :
    settled e st k := by
  intro s hs
  rw [List.getElem?_eq_none h] at hs
  exact absurd hs (by simp)

/-- After a loop over the whole roster every ship index is settled for it. -/
theorem assign_pass_range_settled (fuel : Nat) (e : Bool) (st st1 : State)
    (h : assign_pass fuel e (List.range st.numShips) st = some st1) :
    st1.numShips = st.numShips ∧ ∀ k, settled e st1 k := by
  obtain ⟨ext, inv⟩ := AssignInv.pass fuel e st _ st st1 [] (AssignInv.start st) h
  have hn : st1.allShips.length = st.allShips.length := inv.nships
  refine ⟨hn, ?_⟩
  intro k
  by_cases hk : k < st.allShips.length
  · exact assign_pass_settles fuel e _ st st1 h k (List.mem_range.mpr hk)
  · exact settled_of_length_le e st1 k (by omega)


/-- C23: after `assign_ships_greedy` returned, the allocation is maximal: no
active undocked ship of the roster, emergency or not, and dock of the table
are such that the dock's `dockFreeAt` is at most the current timestep and the
dock's category at least the ship's category. -/
theorem assign_ships_greedy_maximal (fuel : Nat) (st st1 : State)
    (h : assign_ships_greedy fuel st = some st1) :
    ∀ (i dcs : Nat) (s : Ship) (d : Dock), st1.allShips[i]? = some s →
      st1.docks[dcs]? = some d → s.active ≠ 0 → s.docked = 0 →
      ¬ (d.dockFreeAt ≤ st1.currentTimestep ∧ d.category ≥ s.category) := by
  intro i dcs s d hs hd hact hdock hfit
  unfold assign_ships_greedy at h
  rcases Option.eq_none_or_eq_some (assign_pass fuel true (List.range st.numShips) st)
    with hn | ⟨sm, hsm⟩
  · rw [hn] at h
    exact absurd h (by simp)
  · rw [hsm] at h
    have hset := (assign_pass_range_settled fuel false sm st1 h).2 i
    exact hset s hs (skip_ship_false_of_waiting s ⟨hact, hdock⟩) dcs ⟨d, hd, hfit.1, hfit.2⟩

theorem assign_ships_greedy_maximal_witness :
    assign_ships_greedy 3 rush_input = some (rush_result 3) ∧
    (rush_result 3).allShips.map (fun s => (s.shipId, s.active, s.docked)) =
      [(21, 1, 0), (22, 1, 1)] ∧
    ∀ (i dcs : Nat) (s : Ship) (d : Dock), (rush_result 3).allShips[i]? = some s →
      (rush_result 3).docks[dcs]? = some d → s.active ≠ 0 → s.docked = 0 →
      ¬ (d.dockFreeAt ≤ (rush_result 3).currentTimestep ∧ d.category ≥ s.category) :=
  ⟨by decide, by decide,
    assign_ships_greedy_maximal 3 rush_input (rush_result 3) (by decide)⟩


/-- The additional skip of the variant: a ship is skipped when the second loop
skips it or it is an emergency ship. -/
theorem variant_skip_eq (s : Ship) :
    variant_skip s = (skip_ship false s || decide (s.emergency ≠ 0)) := by
  unfold variant_skip skip_ship
  simp

/-- An emergency ship that the second loop does not skip is not skipped by the
first loop either. -/
theorem skip_ship_true_of_emergency (s : Ship) (h : skip_ship false s = false)
    (he : s.emergency ≠ 0) : skip_ship true s = false := by
  unfold skip_ship at h ⊢
  simp at h ⊢
  exact ⟨h, he⟩

/-- A ship that only the first loop skips is not an emergency ship. -/
theorem emergency_of_skip_ship (s : Ship) (h : skip_ship false s = false)
    (h1 : skip_ship true s = true) : s.emergency = 0 := by
  by_contra he
  rw [skip_ship_true_of_emergency s h he] at h1
  exact absurd h1 (by decide)

/-- On a ship index that is settled for the first loop, the body of the second
loop and the body with the additional skip do the same. -/
theorem variant_consider_eq (fuel i : Nat) (st : State) (hset : settled true st i) :
    variant_consider fuel i st = consider_ship fuel false i st := by
  rcases Option.eq_none_or_eq_some (st.allShips[i]?) with hn | ⟨s, hs⟩
  · unfold variant_consider consider_ship
    rw [hn]
  · cases hskip : skip_ship false s
    · by_cases he : s.emergency ≠ 0
      · have hv : variant_skip s = true := by
          rw [variant_skip_eq, hskip]
          simpa using he
        have hl : variant_consider fuel i st = some st := by
          unfold variant_consider
          rw [hs]
          simp only [hv, if_true]
        rw [hl]
        rcases consider_ship_spec fuel false i st s hs hskip with ⟨_, hc⟩ | ⟨dcs, hfit, _⟩
        · exact hc.symm
        · exact absurd hfit.1 (hset s hs (skip_ship_true_of_emergency s hskip he) dcs)
      · have hv : variant_skip s = false := by
          rw [variant_skip_eq, hskip]
          simpa using he
        unfold variant_consider consider_ship
        rw [hs]
        simp only [hv, hskip]
    · have hv : variant_skip s = true := by
        rw [variant_skip_eq, hskip]
        rfl
      unfold variant_consider consider_ship
      rw [hs]
      simp only [hv, hskip]

/-- From a state in which every ship index is settled for the first loop, the
second loop and the loop with the additional skip do the same. -/
theorem variant_pass_eq (fuel : Nat) :
    ∀ (l : List Nat) (st : State), (∀ k, settled true st k) →
      variant_pass fuel l st = assign_pass fuel false l st := by
  intro l
  induction l with
  | nil =>
    intro st _
    rw [variant_pass, assign_pass]
  | cons i rest ih =>
    intro st hset
    rw [variant_pass, assign_pass, variant_consider_eq fuel i st (hset i)]
    rcases Option.eq_none_or_eq_some (consider_ship fuel false i st) with hn | ⟨sm, hsm⟩
    · rw [hn]
    · rw [hsm]
      exact ih sm (fun k => (consider_ship_settled fuel false true i st sm hsm).2 k (hset k))

/-- From a state in which every ship index is settled for the first loop, the
second loop docks only ships that are not emergency ships. -/
theorem assign_pass_second_log (fuel : Nat) :
    ∀ (l : List Nat) (st st1 : State), (∀ k, settled true st k) →
      assign_pass fuel false l st = some st1 →
      ∃ ext, st1.assigned = st.assigned ++ ext ∧
        ∀ a ∈ ext, ∃ s, st.allShips[a.2]? = some s ∧ s.emergency = 0 := by
  intro l
  induction l with
  | nil =>
    intro st st1 _ h
    rw [assign_pass] at h
    cases h
    exact ⟨[], by simp, fun a ha => absurd ha (List.not_mem_nil a)⟩
  | cons i rest ih =>
    intro st st1 hset h
    rw [assign_pass] at h
    rcases Option.eq_none_or_eq_some (consider_ship fuel false i st) with hn | ⟨sm, hsm⟩
    · rw [hn] at h
      exact absurd h (by simp)
    · rw [hsm] at h
      obtain ⟨ext, hext, hall⟩ := ih sm st1
        (fun k => (consider_ship_settled fuel false true i st sm hsm).2 k (hset k)) h
      rcases consider_ship_cases fuel false i st sm hsm with ⟨heq, _⟩ |
        ⟨dcs, s, d, p, q1, hs, hskip, hd, hfit, hp, hst⟩
      · rw [heq] at hext hall
        exact ⟨ext, hext, hall⟩
      · have hem : s.emergency = 0 := by
          apply emergency_of_skip_ship s hskip
          cases hk : skip_ship true s
          · exact absurd hfit (hset i s hs hk dcs)
          · rfl
        have hi : i < st.allShips.length := (List.getElem?_eq_some_iff.mp hs).1
        refine ⟨(dcs, i) :: ext, ?_, ?_⟩
        · rw [hext, hst]
          simp [docked_state]
        · intro a ha
          rcases List.mem_cons.mp ha with rfl | har
          · exact ⟨s, hs, hem⟩
          · obtain ⟨s1, hs1, he1⟩ := hall a har
            rw [hst] at hs1
            have hs1a : (st.allShips.set i (ship_after s d st.currentTimestep p))[a.2]? =
                some s1 := hs1
            by_cases hai : a.2 = i
            · rw [hai, List.getElem?_set_self hi] at hs1a
              cases hs1a
              rw [hai]
              exact ⟨s, hs, hem⟩
            · rw [List.getElem?_set_ne (fun e => hai e.symm)] at hs1a
              exact ⟨s1, hs1a, he1⟩

/-- A call never changes whether the ship at an index is an emergency ship. -/
theorem AssignInv.emergency {st0 st : State} {log : List (Nat × Nat)}
    (inv : AssignInv st0 st log) (k : Nat) (s1 : Ship) (hs : st.allShips[k]? = some s1) :
    ∃ s0, st0.allShips[k]? = some s0 ∧ s0.emergency = s1.emergency := by
  by_cases hk : k ∈ log.map Prod.snd
  · obtain ⟨a, ha, hak⟩ := List.mem_map.mp hk
    obtain ⟨s, d, p, h1, _, _, _, _, _, _, h2⟩ := inv.done a ha
    rw [hak] at h1 h2
    rw [hs] at h2
    cases h2
    exact ⟨s, h1, rfl⟩
  · rw [inv.ship_same k hk] at hs
    exact ⟨s1, hs, rfl⟩

/-- C21: the second pass of `assign_ships_greedy` docks only non-emergency
ships.  For every state the call gives the result of the variant whose second
loop additionally skips emergency ships; and when the call returns, the
`dock_ship` calls of the second pass are all for ships that are not emergency
ships, so every emergency ship docked by the call is docked in the first
pass. -/
theorem assign_ships_greedy_second_pass_ordinary (fuel : Nat) (st : State) :
    assign_ships_greedy fuel st = variant_assign_ships_greedy fuel st ∧
    ∀ st2, assign_ships_greedy fuel st = some st2 →
      ∃ st1 log1 log2, assign_pass fuel true (List.range st.numShips) st = some st1 ∧
        assign_pass fuel false (List.range st1.numShips) st1 = some st2 ∧
        st1.assigned = st.assigned ++ log1 ∧ st2.assigned = st1.assigned ++ log2 ∧
        ∀ a ∈ log2, ∃ s, st.allShips[a.2]? = some s ∧ s.emergency = 0 := by
  unfold assign_ships_greedy variant_assign_ships_greedy
  rcases Option.eq_none_or_eq_some (assign_pass fuel true (List.range st.numShips) st)
    with hn | ⟨st1, hst1⟩
  · rw [hn]
    exact ⟨rfl, fun st2 h => absurd h (by simp)⟩
  · rw [hst1]
    have hset := (assign_pass_range_settled fuel true st st1 hst1).2
    refine ⟨(variant_pass_eq fuel _ st1 hset).symm, ?_⟩
    intro st2 h2
    obtain ⟨log1, inv⟩ := AssignInv.pass fuel true st _ st st1 [] (AssignInv.start st) hst1
    obtain ⟨log2, hlog2, hall⟩ := assign_pass_second_log fuel _ st1 st2 hset h2
    refine ⟨st1, log1, log2, rfl, h2, by simpa using inv.log_eq, hlog2, ?_⟩
    intro a ha
    obtain ⟨s1, hs1, he1⟩ := hall a ha
    obtain ⟨s0, hs0, he0⟩ := inv.emergency a.2 s1 hs1
    exact ⟨s0, hs0, by rw [he0, he1]⟩

theorem assign_ships_greedy_second_pass_ordinary_witness :
    (assign_ships_greedy 5 harbour_state = variant_assign_ships_greedy 5 harbour_state ∧
      ∀ st2, assign_ships_greedy 5 harbour_state = some st2 →
        ∃ st1 log1 log2,
          assign_pass 5 true (List.range harbour_state.numShips) harbour_state = some st1 ∧
          assign_pass 5 false (List.range st1.numShips) st1 = some st2 ∧
          st1.assigned = harbour_state.assigned ++ log1 ∧
          st2.assigned = st1.assigned ++ log2 ∧
          ∀ a ∈ log2, ∃ s, harbour_state.allShips[a.2]? = some s ∧ s.emergency = 0) ∧
    assign_ships_greedy 5 harbour_state = some harbour_result ∧
    harbour_result.assigned = [(1, 1), (0, 0)] ∧
    harbour_state.allShips.map Ship.emergency = [0, 1, 0] :=
  ⟨assign_ships_greedy_second_pass_ordinary 5 harbour_state, by decide, by decide, by decide⟩


/-! ## Termination of the cargo transfer scheduler -/

/-- A round that starts at crane 0 moves an item when the dock has a crane,
crane 0 lifts every item and some item is not yet marked. -/
theorem round_moves_ne_nil (dock : Dock) (hc : 0 < dock.numCranes) (cargos : List Int) :
    ∀ (l : List Cargo), (∀ c ∈ l, c.weight ≤ (dock.cranes.getD 0 ⟨0, 0⟩).capacity) →
      (∃ c ∈ l, c.id ∉ cargos) → round_moves dock l cargos 0 ≠ [] := by
  intro l
  induction l with
  | nil =>
    rintro _ ⟨c, hcm, _⟩
    exact absurd hcm (List.not_mem_nil c)
  | cons a rest ih =>
    intro hfit hex
    rw [round_moves, if_pos hc]
    by_cases ha : a.id ∈ cargos
    · rw [if_pos ha]
      apply ih (fun c hcm => hfit c (List.mem_cons_of_mem _ hcm))
      obtain ⟨c, hcm, hcn⟩ := hex
      rcases List.mem_cons.mp hcm with rfl | hr
      · exact absurd ha hcn
      · exact ⟨c, hr, hcn⟩
    · rw [if_neg ha, if_pos (hfit a (List.mem_cons_self _ _))]
      exact List.cons_ne_nil _ _

/-- While fewer items are counted than the ship has, some item is not marked. -/
theorem exists_unmarked (s : Ship) (cargos : List Int) (hids : (s.cargo.map Cargo.id).Nodup)
    (hlt : cargos.length < s.numCargo) : ∃ c ∈ s.cargo, c.id ∉ cargos := by
  by_contra hno
  have hsub : s.cargo.map Cargo.id ⊆ cargos := by
    intro x hx
    obtain ⟨c, hcm, rfl⟩ := List.mem_map.mp hx
    by_contra hn
    exact hno ⟨c, hcm, hn⟩
  have := (List.subperm_of_subset hids hsub).length_le
  rw [List.length_map] at this
  unfold Ship.numCargo at hlt
  omega

/-- The `while` loop ends within as many rounds as items remain, when the
dock has a crane and crane 0 lifts every item. -/
theorem process_while_terminates (s : Ship) (dock : Dock) (t : Int)
    (hids : (s.cargo.map Cargo.id).Nodup) (hc : 0 < dock.numCranes)
    (hfit : ∀ c ∈ s.cargo, c.weight ≤ (dock.cranes.getD 0 ⟨0, 0⟩).capacity) :
    ∀ (fuel : Nat) (moved_at : Int) (p : Progress), p.currentCrane = 0 →
      (p.cargos.Nodup ∧ p.moved = p.cargos.length ∧
        ∀ x ∈ p.cargos, x ∈ (s.cargo.filter (liftable dock)).map Cargo.id) →
      s.numCargo - p.moved < fuel →
      ∃ r, process_while s dock 0 t fuel moved_at p = some r := by
  intro fuel
  induction fuel with
  | zero =>
    intro _ _ _ _ h
    exact absurd h (Nat.not_lt_zero _)
  | succ f ih =>
    intro moved_at p hcc hinv hfuel
    rw [process_while]
    by_cases hlt : p.moved < s.numCargo
    · rw [if_pos hlt]
      simp only
      have hinv1 := process_round_marks_liftable s dock 0 moved_at s.cargo p
        (fun c hcm => hcm) hinv
      have hcommit := process_round_commit s dock moved_at s.cargo p
      have hne : round_moves dock s.cargo p.cargos p.currentCrane ≠ [] := by
        rw [hcc]
        apply round_moves_ne_nil dock hc p.cargos s.cargo hfit
        apply exists_unmarked s p.cargos hids
        rw [← hinv.2.1]
        exact hlt
      have hpos : 0 < (round_moves dock s.cargo p.cargos p.currentCrane).length :=
        List.length_pos.mpr hne
      have hmoved : (process_round s dock 0 moved_at s.cargo p).moved =
          p.moved + (round_moves dock s.cargo p.cargos p.currentCrane).length := by
        rw [hcommit]
      refine ih (moved_at + 1)
        { process_round s dock 0 moved_at s.cargo p with currentCrane := 0 } rfl hinv1 ?_
      show s.numCargo - (process_round s dock 0 moved_at s.cargo p).moved < f
      rw [hmoved]
      omega
    · rw [if_neg hlt]
      exact ⟨_, rfl⟩

/-- The cranes of every dock are in descending order of capacity after
`initialize_docks`, so the crane at index 0 is a strongest one. -/
theorem initialize_docks_strongest_first (docks : List Dock) :
    ∀ d ∈ initialize_docks docks, ∀ cr ∈ d.cranes,
      cr.capacity ≤ (d.cranes.getD 0 ⟨0, 0⟩).capacity := by
  intro d hd cr hcr
  unfold initialize_docks sort_docks at hd
  rw [(List.perm_insertionSort _ _).mem_iff] at hd
  obtain ⟨d0, _, rfl⟩ := List.mem_map.mp hd
  haveI : IsTotal Crane (fun a b => a.capacity ≥ b.capacity) :=
    ⟨fun a b => le_total b.capacity a.capacity⟩
  haveI : IsTrans Crane (fun a b => a.capacity ≥ b.capacity) :=
    ⟨fun _ _ _ h1 h2 => le_trans h2 h1⟩
  have hsorted := List.sorted_insertionSort (fun a b : Crane => a.capacity ≥ b.capacity)
    d0.cranes
  simp only at hcr ⊢
  generalize d0.cranes.insertionSort (fun a b => a.capacity ≥ b.capacity) = L at hsorted hcr
  cases L with
  | nil => exact absurd hcr (List.not_mem_nil cr)
  | cons hd tl =>
    simp only [List.getD_cons_zero]
    rcases List.mem_cons.mp hcr with rfl | htl
    · exact le_refl _
    · exact List.rel_of_sorted_cons hsorted cr htl

/-- Rounds that each move an item are no more than the moved items. -/
theorem length_le_flatten_length (rounds : List (List (Cargo × Nat)))
    (h : ∀ M ∈ rounds, M ≠ []) : rounds.length ≤ rounds.flatten.length := by
  induction rounds with
  | nil => simp
  | cons M rest ih =>
    have h1 : 0 < M.length := List.length_pos.mpr (h M (List.mem_cons_self _ _))
    have h2 : rest.length ≤ rest.flatten.length :=
      ih (fun M1 hM1 => h M1 (List.mem_cons_of_mem _ hM1))
    simp only [List.length_cons, List.flatten_cons, List.length_append]
    omega

/-- C22: `process_ship` terminates whenever the ship has no cargo, or the dock
has at least one crane and every item weighs at most the capacity of the crane
at index 0: with fuel for more rounds than the ship has items it returns the
number of rounds; every round moves at least one item, every item is moved in
one round, and the count is at most the number of items.  The cargo ids of
the ship are distinct, as `add_ship` assigns them.  The crane at index 0 is a
strongest crane of every dock that `initialize_docks` stores. -/
theorem process_ship_terminates (fuel : Nat) (s : Ship) (dock : Dock) (simulate t : Int)
    (q : List ScheduledMessage) (hids : (s.cargo.map Cargo.id).Nodup)
    (h : s.cargo = [] ∨ (0 < dock.numCranes ∧
      ∀ c ∈ s.cargo, c.weight ≤ (dock.cranes.getD 0 ⟨0, 0⟩).capacity))
    (hfuel : s.numCargo < fuel) :
    (∃ rounds : List (List (Cargo × Nat)),
      process_ship fuel s dock simulate t q =
        some ((rounds.length : Int),
          if simulate = 0 then enqueue_all (event_rounds s dock (t + 1) rounds).flatten q
          else q) ∧
      (∀ M ∈ rounds, M ≠ [] ∧ ∀ m ∈ M, m.1 ∈ s.cargo) ∧
      (rounds.flatten.map Prod.fst).Perm s.cargo ∧
      rounds.length ≤ s.numCargo) ∧
    ∀ docks : List Dock, ∀ d ∈ initialize_docks docks, ∀ cr ∈ d.cranes,
      cr.capacity ≤ (d.cranes.getD 0 ⟨0, 0⟩).capacity := by
  refine ⟨?_, initialize_docks_strongest_first⟩
  have hret : ∃ r, process_ship fuel s dock 0 t q = some r := by
    unfold process_ship
    rcases h with hnil | ⟨hc, hfit⟩
    · cases fuel with
      | zero => exact absurd hfuel (Nat.not_lt_zero _)
      | succ f =>
        rw [process_while]
        have : ¬ (0 : Nat) < s.numCargo := by
          unfold Ship.numCargo
          rw [hnil]
          simp
        rw [if_neg this]
        exact ⟨_, rfl⟩
    · exact process_while_terminates s dock t hids hc hfit fuel (t + 1) ⟨0, [], 0, q⟩ rfl
        ⟨List.nodup_nil, rfl, fun x hx => absurd hx (List.not_mem_nil x)⟩ hfuel
  obtain ⟨⟨p, q1⟩, hr⟩ := hret
  obtain ⟨rounds, hlen, hq1, hrounds, hperm, _⟩ := process_ship_commit fuel s dock t q p q1 hr
  have hcount : rounds.length ≤ s.numCargo := by
    have h1 : rounds.length ≤ rounds.flatten.length :=
      length_le_flatten_length rounds (fun M hM => (hrounds M hM).1)
    have h2 := hperm.length_eq
    rw [List.length_map] at h2
    unfold Ship.numCargo
    omega
  refine ⟨rounds, ?_, fun M hM => ⟨(hrounds M hM).1, fun m hm => ((hrounds M hM).2.2 m hm).1⟩,
    hperm, hcount⟩
  by_cases hsim : simulate = 0
  · rw [if_pos hsim, hsim, hr, hlen, hq1]
  · rw [if_neg hsim]
    unfold process_ship at hr ⊢
    rw [process_while_simulate s dock simulate t hsim fuel (t + 1) ⟨0, [], 0, q⟩ ⟨0, [], 0, q⟩
      rfl rfl rfl, hr, hlen]
    rfl

theorem process_ship_terminates_witness :
    (∃ rounds : List (List (Cargo × Nat)),
      process_ship 4 scenario_ship scenario_dock 0 1 [] =
        some ((rounds.length : Int),
          if (0 : Int) = 0 then
            enqueue_all (event_rounds scenario_ship scenario_dock (1 + 1) rounds).flatten []
          else []) ∧
      (∀ M ∈ rounds, M ≠ [] ∧ ∀ m ∈ M, m.1 ∈ scenario_ship.cargo) ∧
      (rounds.flatten.map Prod.fst).Perm scenario_ship.cargo ∧
      rounds.length ≤ scenario_ship.numCargo) ∧
    ∀ docks : List Dock, ∀ d ∈ initialize_docks docks, ∀ cr ∈ d.cranes,
      cr.capacity ≤ (d.cranes.getD 0 ⟨0, 0⟩).capacity :=
  process_ship_terminates 4 scenario_ship scenario_dock 0 1 [] (by decide)
    (Or.inr (by decide)) (by decide)


/-! ## Runs of consecutive timesteps -/

theorem enqueue_all_singleton (msg : MessageStruct) (timestep : Int)
    (q : List ScheduledMessage) :
    enqueue_all [(msg, timestep)] q = enqueue_message msg timestep q := rfl

/-- The events that `dock_ship` enqueues at timestep `t`: cargo transfers due
after `t`, then the dock assignment due at `t`. -/
theorem dock_ship_queue (fuel dcs i : Nat) (st st1 : State)
    (h : dock_ship fuel dcs i st = some st1) :
    ∃ evs, st1.messageQueue = enqueue_all evs st.messageQueue ∧
      ∀ e ∈ evs, allocation_event st.currentTimestep e := by
  obtain ⟨s, d, p, q1, _, _, hp, _, hst⟩ := dock_ship_some fuel dcs i st st1 h
  obtain ⟨rounds, hq1, _, hkind, hdue⟩ :=
    process_ship_commit_rounds fuel s d st.currentTimestep st.messageQueue p q1 hp
  refine ⟨rounds.flatten ++ [(dock_message d s, st.currentTimestep)], ?_, ?_⟩
  · rw [hst, enqueue_all_append, enqueue_all_singleton, ← hq1]
    rfl
  · intro e he
    rcases List.mem_append.mp he with hr | hd
    · right
      refine ⟨?_, (hdue e hr).1⟩
      obtain ⟨R, hR, heR⟩ := List.mem_flatten.mp hr
      obtain ⟨r, hr1⟩ := List.mem_iff_getElem?.mp hR
      exact ((hkind r R hr1).2 e heR).1
    · left
      rw [List.mem_singleton.mp hd]
      exact ⟨rfl, rfl⟩

/-- The events that a loop of `assign_ships_greedy` enqueues. -/
theorem assign_pass_queue (fuel : Nat) (e : Bool) :
    ∀ (l : List Nat) (st st1 : State), assign_pass fuel e l st = some st1 →
      st1.currentTimestep = st.currentTimestep ∧
      ∃ evs, st1.messageQueue = enqueue_all evs st.messageQueue ∧
        ∀ ev ∈ evs, allocation_event st.currentTimestep ev := by
  intro l
  induction l with
  | nil =>
    intro st st1 h
    rw [assign_pass] at h
    cases h
    exact ⟨rfl, [], rfl, fun ev hev => absurd hev (List.not_mem_nil ev)⟩
  | cons i rest ih =>
    intro st st1 h
    rw [assign_pass] at h
    rcases Option.eq_none_or_eq_some (consider_ship fuel e i st) with hn | ⟨sm, hsm⟩
    · rw [hn] at h
      exact absurd h (by simp)
    · rw [hsm] at h
      obtain ⟨ht, evs, hq, hall⟩ := ih sm st1 h
      rcases AssignInv.consider (AssignInv.start st) fuel e i hsm with ⟨heq, _⟩ |
        ⟨dcs, s, _, _, _, hdock, inv⟩
      · rw [heq] at ht hq hall
        exact ⟨ht, evs, hq, hall⟩
      · obtain ⟨evs0, hq0, hall0⟩ := dock_ship_queue fuel dcs i st sm hdock
        have htm : sm.currentTimestep = st.currentTimestep := inv.time
        refine ⟨by rw [ht, htm], evs0 ++ evs, ?_, ?_⟩
        · rw [hq, hq0, enqueue_all_append]
        · intro ev hev
          rcases List.mem_append.mp hev with h0 | h1
          · exact hall0 ev h0
          · rw [← htm]
            exact hall ev h1

/-- The events that `scheduler_step` enqueues. -/
theorem scheduler_step_queue (fuel : Nat) (n : Int) (table : List ShipRequest) (st st1 : State)
    (h : scheduler_step fuel n table st = some st1) :
    ∃ evs, st1.messageQueue = enqueue_all evs st.messageQueue ∧
      ∀ ev ∈ evs, allocation_event st.currentTimestep ev := by
  unfold scheduler_step assign_ships_greedy at h
  rcases Option.eq_none_or_eq_some (assign_pass fuel true
      (List.range (expire_ships (add_ships (table.take n.toNat) st)).numShips)
      (expire_ships (add_ships (table.take n.toNat) st))) with hn | ⟨sm, hsm⟩
  · rw [hn] at h
    exact absurd h (by simp)
  · rw [hsm] at h
    obtain ⟨ht1, evs1, hq1, hall1⟩ := assign_pass_queue fuel true _ _ sm hsm
    obtain ⟨_, evs2, hq2, hall2⟩ := assign_pass_queue fuel false _ sm st1 h
    have hq0 : (expire_ships (add_ships (table.take n.toNat) st)).messageQueue =
        st.messageQueue := by
      rw [add_ships_eq]
      rfl
    have ht0 : (expire_ships (add_ships (table.take n.toNat) st)).currentTimestep =
        st.currentTimestep := by
      rw [add_ships_eq]
      rfl
    refine ⟨evs1 ++ evs2, ?_, ?_⟩
    · rw [hq2, hq1, hq0, enqueue_all_append]
    · intro ev hev
      rcases List.mem_append.mp hev with h1 | h2
      · rw [← ht0]
        exact hall1 ev h1
      · rw [← ht0, ← ht1]
        exact hall2 ev h2

/-- An event that the allocation of timestep `t` enqueues is due at `t` or later. -/
theorem allocation_event_due (t : Int) (e : MessageStruct × Int) (h : allocation_event t e) :
    t ≤ e.2 := by
  rcases h with ⟨_, h1⟩ | ⟨_, h2⟩
  · omega
  · omega

theorem queue_sorted_not_due_at (t : Int) (q : List ScheduledMessage) (h : queue_sorted q) :
    queue_sorted (not_due_at t q) :=
  List.Pairwise.sublist (List.filter_sublist q) h

theorem due_at_not_due_at (d t : Int) (q : List ScheduledMessage) (h : d ≠ t) :
    due_at d (not_due_at t q) = due_at d q := by
  unfold due_at not_due_at
  rw [List.filter_filter]
  apply List.filter_congr
  intro n _
  by_cases hn : n.timestep = d
  · simp [hn, h]
  · simp [hn]

/-- One controller step at timestep `t = recvMsg.timestep` from a state whose
queue is sorted and holds no event due before `t`. -/
theorem controller_step_queue (fuel : Nat) (start_guessing : Int → Int → Int → List Char)
    (recvMsg : MessageStruct) (table : List ShipRequest) (sa sb : State)
    (hs : queue_sorted sa.messageQueue)
    (hge : ∀ n ∈ sa.messageQueue, recvMsg.timestep ≤ n.timestep)
    (h : controller_step fuel start_guessing recvMsg table sa = some sb) :
    ∃ st2 evs,
      scheduler_step fuel recvMsg.data table
        (update_dock_status start_guessing { sa with currentTimestep := recvMsg.timestep }) =
        some st2 ∧
      st2.messageQueue = enqueue_all evs sa.messageQueue ∧
      (∀ e ∈ evs, allocation_event recvMsg.timestep e) ∧
      sb.sent = sa.sent ++ unlock_notices { sa with currentTimestep := recvMsg.timestep } ++
        (due_at recvMsg.timestep sa.messageQueue ++
          due_at recvMsg.timestep (evs.map node_of)).map ScheduledMessage.message ++
        [{ mtype := 5 }] ∧
      sb.messageQueue = not_due_at recvMsg.timestep st2.messageQueue ∧
      queue_sorted sb.messageQueue ∧
      (∀ n ∈ sb.messageQueue, recvMsg.timestep < n.timestep) := by
  unfold controller_step at h
  simp only at h
  split at h
  · rename_i st2 hstep
    cases h
    obtain ⟨hsent, htime⟩ := scheduler_step_sent fuel _ table _ st2 hstep
    rw [update_dock_status_sent] at hsent
    rw [(update_dock_status_frame start_guessing _).2.2.1] at htime
    obtain ⟨evs, hq, hall⟩ := scheduler_step_queue fuel _ table _ st2 hstep
    rw [(update_dock_status_frame start_guessing _).2.2.2] at hq
    rw [(update_dock_status_frame start_guessing _).2.2.1] at hall
    have hq2 : st2.messageQueue = enqueue_all evs sa.messageQueue := hq
    have hall2 : ∀ e ∈ evs, allocation_event recvMsg.timestep e := hall
    have ht2 : st2.currentTimestep = recvMsg.timestep := htime
    have hs2 : queue_sorted st2.messageQueue := by
      rw [hq2]
      exact enqueue_all_sorted evs _ hs
    have hge2 : ∀ n ∈ st2.messageQueue, recvMsg.timestep ≤ n.timestep := by
      intro n hn
      rw [hq2, (enqueue_all_perm evs sa.messageQueue).mem_iff] at hn
      rcases List.mem_append.mp hn with h1 | h2
      · exact hge n h1
      · obtain ⟨e, he, rfl⟩ := List.mem_map.mp h2
        exact allocation_event_due _ e (hall2 e he)
    have hflush := flush_loop_of_sorted recvMsg.timestep st2.messageQueue hs2 hge2
    refine ⟨st2, evs, hstep, hq2, hall2, ?_, ?_, ?_, ?_⟩
    · simp only [flush_messages, hsent, ht2, hflush]
      rw [hq2, enqueue_all_due_at recvMsg.timestep evs _ hs]
    · simp only [flush_messages, ht2, hflush]
    · simp only [flush_messages, ht2, hflush]
      exact queue_sorted_not_due_at _ _ hs2
    · simp only [flush_messages, ht2, hflush]
      intro n hn
      unfold not_due_at at hn
      obtain ⟨hn1, hn2⟩ := List.mem_filter.mp hn
      have := hge2 n hn1
      have hne : n.timestep ≠ recvMsg.timestep := by simpa using hn2
      omega
  · cases h

/-- Over a run of consecutive timesteps `k + 1, k + 2, ...` the queue stays
sorted and holds only events due after the last timestep handled; the events
that were queued for a later timestep stay queued, in their order and in front
of the events enqueued for that timestep during the run. -/
theorem run_queue (fuel : Nat) (start_guessing : Int → Int → Int → List Char) :
    ∀ (msgs : List (MessageStruct × List ShipRequest)) (k : Int) (sa sb : State),
      consecutive_from k msgs = true → queue_sorted sa.messageQueue →
      (∀ n ∈ sa.messageQueue, k < n.timestep) →
      run fuel start_guessing msgs sa = some sb →
      queue_sorted sb.messageQueue ∧ (∀ n ∈ sb.messageQueue, k + msgs.length < n.timestep) ∧
      ∀ d, k + msgs.length < d →
        ∃ later, due_at d sb.messageQueue = due_at d sa.messageQueue ++ later := by
  intro msgs
  induction msgs with
  | nil =>
    intro k sa sb _ hs hgt h
    rw [run] at h
    cases h
    refine ⟨hs, ?_, fun d _ => ⟨[], by simp⟩⟩
    simpa using hgt
  | cons m rest ih =>
    intro k sa sb hcons hs hgt h
    obtain ⟨recvMsg, table⟩ := m
    rw [consecutive_from] at hcons
    simp only [Bool.and_eq_true, decide_eq_true_eq] at hcons
    obtain ⟨⟨hfin, htime⟩, hrest⟩ := hcons
    rw [run, if_neg hfin] at h
    rcases Option.eq_none_or_eq_some (controller_step fuel start_guessing recvMsg table sa)
      with hn | ⟨sm, hsm⟩
    · rw [hn] at h
      exact absurd h (by simp)
    · rw [hsm] at h
      simp only at h
      obtain ⟨st2, evs, _, hq2, _, _, hqm, hsm1, hgtm⟩ :=
        controller_step_queue fuel start_guessing recvMsg table sa sm hs
          (fun n hn => by have := hgt n hn; omega) hsm
      obtain ⟨r1, r2, r3⟩ := ih (k + 1) sm sb hrest hsm1
        (fun n hn => by have := hgtm n hn; omega) h
      have hlen : k + ((recvMsg, table) :: rest).length = k + 1 + rest.length := by
        simp only [List.length_cons]
        push_cast
        ring
      rw [hlen]
      refine ⟨r1, r2, ?_⟩
      intro d hd
      obtain ⟨later, hlater⟩ := r3 d hd
      have hdne : d ≠ recvMsg.timestep := by
        have : (0 : Int) ≤ rest.length := Int.natCast_nonneg _
        omega
      rw [hlater, hqm, due_at_not_due_at d _ _ hdne, hq2, enqueue_all_due_at d evs _ hs,
        List.append_assoc]
      exact ⟨_, rfl⟩

theorem consecutive_from_append (a b : List (MessageStruct × List ShipRequest)) :
    ∀ k : Int, consecutive_from k (a ++ b) = true →
      consecutive_from k a = true ∧ consecutive_from (k + a.length) b = true := by
  induction a with
  | nil =>
    intro k h
    exact ⟨rfl, by simpa using h⟩
  | cons m rest ih =>
    intro k h
    obtain ⟨recvMsg, table⟩ := m
    rw [List.cons_append, consecutive_from] at h
    simp only [Bool.and_eq_true, decide_eq_true_eq] at h
    obtain ⟨h1, htail⟩ := h
    obtain ⟨i1, i2⟩ := ih (k + 1) htail
    refine ⟨?_, ?_⟩
    · rw [consecutive_from]
      simp only [Bool.and_eq_true, decide_eq_true_eq]
      exact ⟨h1, i1⟩
    · have : k + ((recvMsg, table) :: rest).length = k + 1 + rest.length := by
        simp only [List.length_cons]
        push_cast
        ring
      rw [this]
      exact i2


/-- C24: in a run from an initial state whose advance signals carry the
consecutive timesteps 1, 2, 3, ..., take any iteration, for timestep `t`.
Every event enqueued during it is a dock assignment due at `t` or a cargo
transfer due after `t`, so it is due at `t` or later, and so is every event
still queued when the iteration starts.  The flush of the iteration sends
exactly the queued events due at `t`, the older ones first; afterwards the
queue is sorted and holds only events due after `t`.  An event queued after
the allocation of timestep `t` and due at a later timestep `d` is still queued,
in its order and in front of the events enqueued later, while the run has not
reached timestep `d`; so it is sent by the flush of timestep `d` and by no
other. -/
theorem events_sent_at_due_timestep (fuel : Nat)
    (start_guessing : Int → Int → Int → List Char)
    (pre mid : List (MessageStruct × List ShipRequest)) (recvMsg : MessageStruct)
    (table : List ShipRequest) (st0 sa sb sc : State) (h0 : Initial st0)
    (hcons : consecutive_from 0 (pre ++ (recvMsg, table) :: mid) = true)
    (hpre : run fuel start_guessing pre st0 = some sa)
    (hstep : controller_step fuel start_guessing recvMsg table sa = some sb)
    (hmid : run fuel start_guessing mid sb = some sc) :
    recvMsg.timestep = pre.length + 1 ∧
    (∀ n ∈ sa.messageQueue, recvMsg.timestep ≤ n.timestep) ∧
    ∃ st2 evs,
      scheduler_step fuel recvMsg.data table
        (update_dock_status start_guessing { sa with currentTimestep := recvMsg.timestep }) =
        some st2 ∧
      st2.messageQueue = enqueue_all evs sa.messageQueue ∧
      (∀ e ∈ evs, allocation_event recvMsg.timestep e ∧ recvMsg.timestep ≤ e.2) ∧
      sb.sent = sa.sent ++ unlock_notices { sa with currentTimestep := recvMsg.timestep } ++
        (due_at recvMsg.timestep sa.messageQueue ++
          due_at recvMsg.timestep (evs.map node_of)).map ScheduledMessage.message ++
        [{ mtype := 5 }] ∧
      sb.messageQueue = not_due_at recvMsg.timestep st2.messageQueue ∧
      queue_sorted sb.messageQueue ∧
      (∀ n ∈ sb.messageQueue, recvMsg.timestep < n.timestep) ∧
      (∀ d, recvMsg.timestep + mid.length < d →
        ∃ later, due_at d sc.messageQueue = due_at d st2.messageQueue ++ later) := by
  obtain ⟨c1, c2⟩ := consecutive_from_append pre _ 0 hcons
  rw [consecutive_from] at c2
  simp only [Bool.and_eq_true, decide_eq_true_eq, zero_add] at c2
  obtain ⟨⟨_, htime⟩, c3⟩ := c2
  have hq0 : st0.messageQueue = [] := h0.2.1
  obtain ⟨a1, a2, _⟩ := run_queue fuel start_guessing pre 0 st0 sa c1
    (by rw [hq0]; exact List.Pairwise.nil)
    (by rw [hq0]; intro n hn; exact absurd hn (List.not_mem_nil n)) hpre
  have hge : ∀ n ∈ sa.messageQueue, recvMsg.timestep ≤ n.timestep := by
    intro n hn
    have := a2 n hn
    omega
  obtain ⟨st2, evs, b1, b2, b3, b4, b5, b6, b7⟩ :=
    controller_step_queue fuel start_guessing recvMsg table sa sb a1 hge hstep
  have c4 : consecutive_from recvMsg.timestep mid = true := by
    rw [htime]
    exact c3
  obtain ⟨_, _, m3⟩ := run_queue fuel start_guessing mid recvMsg.timestep sb sc c4 b6 b7 hmid
  refine ⟨htime, hge, st2, evs, b1, b2,
    fun e he => ⟨b3 e he, allocation_event_due _ e (b3 e he)⟩, b4, b5, b6, b7, ?_⟩
  intro d hd
  obtain ⟨later, hlater⟩ := m3 d hd
  have hdne : d ≠ recvMsg.timestep := by
    have : (0 : Int) ≤ mid.length := Int.natCast_nonneg _
    omega
  rw [b5, due_at_not_due_at d _ _ hdne] at hlater
  exact ⟨later, hlater⟩

theorem events_sent_at_due_timestep_witness :
    second_advance.timestep =
      (two_arrivals.take 1).length + 1 ∧
    (∀ n ∈ first_step_state.messageQueue,
      second_advance.timestep ≤ n.timestep) ∧
    ∃ st2 evs,
      scheduler_step 3 second_advance.data []
        (update_dock_status no_search
          { first_step_state with
            currentTimestep :=
              second_advance.timestep }) =
        some st2 ∧
      st2.messageQueue = enqueue_all evs first_step_state.messageQueue ∧
      (∀ e ∈ evs,
        allocation_event second_advance.timestep e ∧
          second_advance.timestep ≤ e.2) ∧
      second_step_state.sent = first_step_state.sent ++
        unlock_notices
          { first_step_state with
            currentTimestep :=
              second_advance.timestep } ++
        (due_at second_advance.timestep
            first_step_state.messageQueue ++
          due_at second_advance.timestep
            (evs.map node_of)).map ScheduledMessage.message ++
        [{ mtype := 5 }] ∧
      second_step_state.messageQueue =
        not_due_at second_advance.timestep
          st2.messageQueue ∧
      queue_sorted second_step_state.messageQueue ∧
      (∀ n ∈ second_step_state.messageQueue,
        second_advance.timestep < n.timestep) ∧
      (∀ d, second_advance.timestep +
          (two_arrivals.drop 2).length < d →
        ∃ later, due_at d two_arrivals_state.messageQueue =
          due_at d st2.messageQueue ++ later) :=
  events_sent_at_due_timestep 3 no_search (two_arrivals.take 1) (two_arrivals.drop 2)
    second_advance [] one_dock_start first_step_state
    second_step_state two_arrivals_state (read_input_initial 2 [(1, [10])]) (by decide)
    (by decide) (by decide) (by decide)


/-! ## Crane ids of the docks read at start-up -/

theorem number_cranes_ids :
    ∀ (cs : List Int) (j : Nat),
      (number_cranes j cs).map Crane.id = (List.range' j cs.length).map (fun (k : Nat) => (k : Int)) := by
  intro cs
  induction cs with
  | nil => intro j; rfl
  | cons c rest ih =>
    intro j
    rw [number_cranes, List.map_cons, ih]
    rfl

theorem read_docks_cranes :
    ∀ (config : List (Int × List Int)) (i : Nat), ∀ d ∈ read_docks i config,
      ∃ cs, d.cranes = number_cranes 0 cs := by
  intro config
  induction config with
  | nil =>
    intro i d hd
    exact absurd hd (List.not_mem_nil d)
  | cons c rest ih =>
    intro i d hd
    obtain ⟨category, capacities⟩ := c
    rw [read_docks] at hd
    rcases List.mem_cons.mp hd with rfl | hr
    · exact ⟨_, rfl⟩
    · exact ih (i + 1) d hr

/-- The cranes of every dock that `read_input` stores have distinct ids:
crane `j` of a dock is read with id `j`, and the sorting only reorders. -/
theorem read_input_crane_ids_nodup (numSolvers : Int) (config : List (Int × List Int)) :
    ∀ d ∈ (read_input numSolvers config).docks, (d.cranes.map Crane.id).Nodup := by
  intro d hd
  have hd1 : d ∈ initialize_docks (read_docks 0 config) := hd
  unfold initialize_docks sort_docks at hd1
  rw [(List.perm_insertionSort _ _).mem_iff] at hd1
  obtain ⟨d0, hd0, rfl⟩ := List.mem_map.mp hd1
  obtain ⟨cs, hcs⟩ := read_docks_cranes config 0 d0 hd0
  simp only
  rw [((List.perm_insertionSort _ d0.cranes).map Crane.id).nodup_iff, hcs, number_cranes_ids]
  exact List.Nodup.map (f := fun k : Nat => (k : Int)) (fun a b h => by
      have h1 : (a : Int) = (b : Int) := h
      exact_mod_cast h1)
    (List.nodup_range' 0 cs.length)

end PortScheduler
